import Mathlib

/-!
# Verification development for the AI-Project-Management analytical core

This file gives a shallow embedding, in Lean 4, of the analytical core of the
repository (schema normalization, critical-path scheduling, risk heuristics)
and proves or refutes the frozen specification claims about it.

Embedding conventions:

* Python dynamic values are modelled by the inductive `PyVal` (dicts as
  association lists in insertion order, with unique keys as produced by
  `json.loads`).  JSON/Python numbers are modelled as integers; documents
  containing non-integer numbers are outside the model (no claim under
  scrutiny involves them).  Python exceptions are modelled with `Except PyErr`.
* The French-normalized task dictionaries consumed by `CriticalPathCalculator`
  and `RiskDetector` (produced by `ProjectParser.get_tasks`, which always sets
  every key) are reified as the total record `FrTask`; a `dict.get(k, default)`
  on an absent key is represented by the field holding the default value.
* `networkx.DiGraph` is modelled as a pair of insertion-ordered duplicate-free
  lists (`DG`).  `nx.simple_cycles` is modelled by an exhaustive enumeration
  returning every simple cycle exactly once (one canonical rotation per
  cycle); `nx.topological_sort` by Kahn's algorithm; `nx.all_simple_paths` by
  a depth-first enumeration which, following networkx (>= 3.1, the semantics
  the specification's degenerate-case clause describes), yields the trivial
  one-node path when source equals target.  Enumeration orders may differ
  from the CPython/networkx iteration orders; every theorem below depends
  only on order-robust consequences (unique maxima, set-level results).
* Floating point: the float arithmetic appearing in the sources (averages,
  risk projections) is modelled exactly over `ℚ`; all values reachable in the
  claims under scrutiny are small integers where float and rational
  arithmetic agree.
-/

/-! ## Python value model -/

/-- A Python/JSON value: `None`, booleans, integers, strings, lists and
dictionaries (association lists in insertion order, unique keys). -/
inductive PyVal where
  | none : PyVal
  | bool (b : Bool) : PyVal
  | int (n : Int) : PyVal
  | str (s : String) : PyVal
  | list (xs : List PyVal) : PyVal
  | dict (kvs : List (String × PyVal)) : PyVal
deriving Repr

mutual

/-- Structural equality test for `PyVal` (the deriving handler does not
support nested inductives). -/
def PyVal.beq : PyVal → PyVal → Bool
  | .none, .none => true
  | .bool a, .bool b => a = b
  | .int a, .int b => a = b
  | .str a, .str b => a = b
  | .list xs, .list ys => PyVal.beqL xs ys
  | .dict xs, .dict ys => PyVal.beqKV xs ys
  | _, _ => false

/-- Equality test for lists of `PyVal`. -/
def PyVal.beqL : List PyVal → List PyVal → Bool
  | [], [] => true
  | x :: xs, y :: ys => PyVal.beq x y && PyVal.beqL xs ys
  | _, _ => false

/-- Equality test for association lists over `PyVal`. -/
def PyVal.beqKV : List (String × PyVal) → List (String × PyVal) → Bool
  | [], [] => true
  | (k, v) :: xs, (l, w) :: ys => k == l && PyVal.beq v w && PyVal.beqKV xs ys
  | _, _ => false

end

mutual

theorem PyVal.beq_iff : ∀ a b : PyVal, PyVal.beq a b = true ↔ a = b
  | .none, .none => by simp [PyVal.beq]
  | .none, .bool _ => by simp [PyVal.beq]
  | .none, .int _ => by simp [PyVal.beq]
  | .none, .str _ => by simp [PyVal.beq]
  | .none, .list _ => by simp [PyVal.beq]
  | .none, .dict _ => by simp [PyVal.beq]
  | .bool _, .none => by simp [PyVal.beq]
  | .bool _, .bool _ => by simp [PyVal.beq]
  | .bool _, .int _ => by simp [PyVal.beq]
  | .bool _, .str _ => by simp [PyVal.beq]
  | .bool _, .list _ => by simp [PyVal.beq]
  | .bool _, .dict _ => by simp [PyVal.beq]
  | .int _, .none => by simp [PyVal.beq]
  | .int _, .bool _ => by simp [PyVal.beq]
  | .int _, .int _ => by simp [PyVal.beq]
  | .int _, .str _ => by simp [PyVal.beq]
  | .int _, .list _ => by simp [PyVal.beq]
  | .int _, .dict _ => by simp [PyVal.beq]
  | .str _, .none => by simp [PyVal.beq]
  | .str _, .bool _ => by simp [PyVal.beq]
  | .str _, .int _ => by simp [PyVal.beq]
  | .str _, .str _ => by simp [PyVal.beq]
  | .str _, .list _ => by simp [PyVal.beq]
  | .str _, .dict _ => by simp [PyVal.beq]
  | .list _, .none => by simp [PyVal.beq]
  | .list _, .bool _ => by simp [PyVal.beq]
  | .list _, .int _ => by simp [PyVal.beq]
  | .list _, .str _ => by simp [PyVal.beq]
  | .list xs, .list ys => by simp [PyVal.beq, PyVal.beqL_iff xs ys]
  | .list _, .dict _ => by simp [PyVal.beq]
  | .dict _, .none => by simp [PyVal.beq]
  | .dict _, .bool _ => by simp [PyVal.beq]
  | .dict _, .int _ => by simp [PyVal.beq]
  | .dict _, .str _ => by simp [PyVal.beq]
  | .dict _, .list _ => by simp [PyVal.beq]
  | .dict xs, .dict ys => by simp [PyVal.beq, PyVal.beqKV_iff xs ys]

theorem PyVal.beqL_iff : ∀ xs ys : List PyVal, PyVal.beqL xs ys = true ↔ xs = ys
  | [], [] => by simp [PyVal.beqL]
  | [], _ :: _ => by simp [PyVal.beqL]
  | _ :: _, [] => by simp [PyVal.beqL]
  | x :: xs, y :: ys => by
      simp [PyVal.beqL, PyVal.beq_iff x y, PyVal.beqL_iff xs ys]

theorem PyVal.beqKV_iff :
    ∀ xs ys : List (String × PyVal), PyVal.beqKV xs ys = true ↔ xs = ys
  | [], [] => by simp [PyVal.beqKV]
  | [], _ :: _ => by simp [PyVal.beqKV]
  | _ :: _, [] => by simp [PyVal.beqKV]
  | (k, v) :: xs, (l, w) :: ys => by
      simp [PyVal.beqKV, PyVal.beq_iff v w, PyVal.beqKV_iff xs ys, and_assoc]

end

instance : DecidableEq PyVal := fun a b => decidable_of_iff _ (PyVal.beq_iff a b)

/-- Python exception classes relevant to the embedded code.  The repository
surfaces validation failures as `ValueError` (caught as such by the HTTP
layer), so `valueError` plays the role the specification calls
`ValidationError`. -/
inductive PyErr where
  | valueError (msg : String) : PyErr
  | typeError (msg : String) : PyErr
  | attributeError (msg : String) : PyErr
  | keyError (msg : String) : PyErr
deriving Repr, DecidableEq

/-- Python truthiness (`bool(x)`). -/
def pyTruthy : PyVal → Bool
  | .none => false
  | .bool b => b
  | .int n => n ≠ 0
  | .str s => s ≠ ""
  | .list xs => ¬ xs.isEmpty
  | .dict kvs => ¬ kvs.isEmpty

/-- Python `a or b`. -/
def pyOr (a b : PyVal) : PyVal := if pyTruthy a then a else b

/-- `str.strip()` (character-level model of the Python method). -/
def strTrim (s : String) : String :=
  String.mk (((s.data.dropWhile Char.isWhitespace).reverse.dropWhile
    Char.isWhitespace).reverse)

/-- `str.lower()` (character-level model of the Python method). -/
def strLower (s : String) : String := String.mk (s.data.map Char.toLower)

/-- Accumulator pass of `str.split(',')`. -/
def splitCommaAux : List Char → List Char → List String
  | [], acc => [String.mk acc.reverse]
  | c :: cs, acc =>
      if c = ',' then String.mk acc.reverse :: splitCommaAux cs []
      else splitCommaAux cs (c :: acc)

/-- `str.split(',')` (character-level model of the Python method). -/
def strSplitComma (s : String) : List String := splitCommaAux s.data []

/-- Lookup in a Python dict (unique keys). -/
def dictGet (kvs : List (String × PyVal)) (k : String) : Option PyVal :=
  (kvs.find? (fun p => p.1 = k)).map (fun p => p.2)

mutual

/-- Python `repr` for the modelled values (string escaping inside reprs is
not modelled; no claim depends on it). -/
def pyRepr : PyVal → String
  | .none => "None"
  | .bool b => if b then "True" else "False"
  | .int n => toString n
  | .str s => "\x27" ++ s ++ "\x27"
  | .list xs => "[" ++ pyReprJoin xs ++ "]"
  | .dict kvs => "\x7b" ++ pyReprJoinKV kvs ++ "\x7d"

/-- Comma-joined reprs of list elements. -/
def pyReprJoin : List PyVal → String
  | [] => ""
  | [x] => pyRepr x
  | x :: xs => pyRepr x ++ ", " ++ pyReprJoin xs

/-- Comma-joined reprs of dict items. -/
def pyReprJoinKV : List (String × PyVal) → String
  | [] => ""
  | [(k, v)] => "\x27" ++ k ++ "\x27: " ++ pyRepr v
  | (k, v) :: kvs => "\x27" ++ k ++ "\x27: " ++ pyRepr v ++ ", " ++ pyReprJoinKV kvs

end

/-- Python `str(x)`. -/
def pyStr : PyVal → String
  | .none => "None"
  | .bool b => if b then "True" else "False"
  | .int n => toString n
  | .str s => s
  | .list xs => pyRepr (.list xs)
  | .dict kvs => pyRepr (.dict kvs)

/-- Python substring test `k in s` (both strings). -/
def pySubstr (s k : String) : Bool :=
  if k = "" then true else (s.splitOn k).length > 1

/-- Python membership `key in container`.  Raises `TypeError` exactly where
Python does (non-iterable container, or non-string needle in a string). -/
def pyContains (container key : PyVal) : Except PyErr Bool :=
  match container with
  | .dict kvs =>
      match key with
      | .str s => .ok (dictGet kvs s).isSome
      | _ => .ok false
  | .list xs => .ok (xs.contains key)
  | .str s =>
      match key with
      | .str k => .ok (pySubstr s k)
      | _ => .error (.typeError "in <string> requires string as left operand")
  | .int _ => .error (.typeError "argument of type int is not iterable")
  | .bool _ => .error (.typeError "argument of type bool is not iterable")
  | .none => .error (.typeError "argument of type NoneType is not iterable")

/-- Python subscript `container[key]` for a string key, as exercised by the
analyzer (`raw_data[key]`). -/
def pySubscriptStr (container : PyVal) (k : String) : Except PyErr PyVal :=
  match container with
  | .dict kvs =>
      match dictGet kvs k with
      | some v => .ok v
      | Option.none => .error (.keyError k)
  | .list _ => .error (.typeError "list indices must be integers or slices, not str")
  | .str _ => .error (.typeError "string indices must be integers")
  | .int _ => .error (.typeError "int object is not subscriptable")
  | .bool _ => .error (.typeError "bool object is not subscriptable")
  | .none => .error (.typeError "NoneType object is not subscriptable")

namespace AIJsonAnalyzer

/-- `AIJsonAnalyzer._find_value_by_keys`: return the value of the first key
present in `obj` (Python returns `None` when no key matches; membership and
subscripting follow Python semantics and can raise on non-dict objects). -/
def find_value_by_keys (obj : PyVal) (keys : List String) : Except PyErr PyVal :=
  match keys with
  | [] => .ok .none
  | k :: ks => do
      let c ← pyContains obj (.str k)
      if c then pySubscriptStr obj k
      else find_value_by_keys obj ks

/-- Pure form of `find_value_by_keys` on a dict argument. -/
def findKeys (d : List (String × PyVal)) (keys : List String) : PyVal :=
  match keys with
  | [] => .none
  | k :: ks =>
      match dictGet d k with
      | some v => v
      | Option.none => findKeys d ks

theorem find_value_by_keys_dict (d : List (String × PyVal)) (keys : List String) :
    find_value_by_keys (.dict d) keys = .ok (findKeys d keys) := by
  induction keys with
  | nil => rfl
  | cons k ks ih =>
      simp only [find_value_by_keys, findKeys, pyContains, pySubscriptStr]
      cases h : dictGet d k with
      | none => simpa [h, Option.isSome, bind, Except.bind] using ih
      | some v => simp [h, Option.isSome, bind, Except.bind]

/-- `AIJsonAnalyzer._normalize_status`. -/
def normalize_status (status : PyVal) : String :=
  if ¬ pyTruthy status then "not_started"
  else
    let status_str := strTrim (strLower (pyStr status))
    if status_str ∈ ["completed", "complete", "done", "finished", "termine", "terminé", "terminee"] then
      "completed"
    else if status_str ∈ ["in progress", "in_progress", "ongoing", "started", "en cours", "en_cours"] then
      "in_progress"
    else if status_str ∈ ["not started", "not_started", "to do", "to-do", "todo", "planned", "non commencé", "non_commencee"] then
      "not_started"
    else if status_str ∈ ["delayed", "late", "overdue", "behind", "en retard", "en_retard"] then
      "delayed"
    else if status_str ∈ ["cancelled", "canceled", "dropped", "annulé", "annule"] then
      "cancelled"
    else
      "not_started"

/-- Key-synonym tables of `_normalize_task` (in source order). -/
def id_keys : List String := ["id", "task_id", "identifiant", "ID", "key", "uid"]

def name_keys : List String := ["name", "nom", "title", "titre", "task_name"]

def desc_keys : List String := ["description", "desc", "details", "notes"]

def duration_keys : List String := ["duration", "duree", "duree_estimee", "days", "effort", "length"]

def unit_keys : List String := ["unit", "duration_unit", "unite", "unite_duree", "time_unit"]

def pred_keys : List String := ["predecessors", "dependencies", "depends_on", "predecesseurs", "dependances"]

def resource_keys : List String := ["resources", "resource", "assignee", "assigned_to", "ressources", "responsible"]

def status_keys : List String := ["status", "state", "statut", "etat", "task_status"]

/-- Coercion applied by `_normalize_task` to the found dependencies value:
comma-separated strings are split and trimmed, lists are kept, any other
value is wrapped as `[str(x)]`. -/
def coerceDeps (predecessors : PyVal) : PyVal :=
  match predecessors with
  | .str s => .list ((strSplitComma s).map (fun p => .str (strTrim p)))
  | .list xs => .list xs
  | other => .list [.str (pyStr other)]

/-- Coercion applied by `_normalize_task` to the found resources value: a
string becomes a one-element list (no splitting), lists are kept, any other
value is wrapped as `[str(x)]`. -/
def coerceResources (resources : PyVal) : PyVal :=
  match resources with
  | .str s => .list [.str s]
  | .list xs => .list xs
  | other => .list [.str (pyStr other)]

/-- `AIJsonAnalyzer._normalize_task` on a task dict (pure form; on dict
arguments every `_find_value_by_keys` call is total). Returns the
standardized dict, whose key order matches the source's assignment order. -/
def ndTaskId (t : List (String × PyVal)) (index : Nat) : PyVal :=
  if findKeys t id_keys = PyVal.none then PyVal.str ("task_" ++ toString (index + 1))
  else findKeys t id_keys

def ndId (t : List (String × PyVal)) (index : Nat) : PyVal :=
  .str (pyStr (ndTaskId t index))

def ndName (t : List (String × PyVal)) (index : Nat) : PyVal :=
  pyOr (findKeys t name_keys) (.str ("Task " ++ pyStr (ndTaskId t index)))

def ndDesc (t : List (String × PyVal)) : PyVal :=
  pyOr (findKeys t desc_keys) (.str "")

def ndDur (t : List (String × PyVal)) : PyVal :=
  pyOr (findKeys t duration_keys) (.int 1)

def ndUnit (t : List (String × PyVal)) : PyVal :=
  pyOr (findKeys t unit_keys) (.str "days")

def ndDeps (t : List (String × PyVal)) : PyVal :=
  coerceDeps (pyOr (findKeys t pred_keys) (.list []))

def ndRes (t : List (String × PyVal)) : PyVal :=
  coerceResources (pyOr (findKeys t resource_keys) (.list []))

def ndStatus (t : List (String × PyVal)) : PyVal :=
  .str (normalize_status (pyOr (findKeys t status_keys) (.str "not_started")))

/-- The standardized key/value pairs, in the source's assignment order. -/
def ndFields (t : List (String × PyVal)) (index : Nat) : List (String × PyVal) :=
  [("id", ndId t index), ("name", ndName t index), ("description", ndDesc t),
   ("duration", ndDur t), ("duration_unit", ndUnit t), ("dependencies", ndDeps t),
   ("resources", ndRes t), ("status", ndStatus t), ("original", .dict t)]

def normalizeDict (t : List (String × PyVal)) (index : Nat) : PyVal :=
  .dict (ndFields t index)

/-- `AIJsonAnalyzer._normalize_task`: non-dict tasks yield `None` (skipped by
the caller), dict tasks are standardized. -/
def normalize_task (task : PyVal) (index : Nat) : Option PyVal :=
  match task with
  | .dict t => some (normalizeDict t index)
  | _ => Option.none

/-- Opening/closing brace characters. -/
def braceL : Char := Char.ofNat 123

def braceR : Char := Char.ofNat 125

/-- Skip JSON whitespace. -/
def jsonSkipWs : List Char → List Char
  | c :: cs => if c = ' ' ∨ c = '\t' ∨ c = '\n' ∨ c = '\r' then jsonSkipWs cs else c :: cs
  | [] => []

/-- Set a key in a Python dict: an existing key keeps its position and gets
the new value (as `json.loads` does for duplicate object keys), a new key is
appended. -/
def dictSet (kvs : List (String × PyVal)) (k : String) (v : PyVal) : List (String × PyVal) :=
  if (dictGet kvs k).isSome then
    kvs.map (fun p => if p.1 = k then (k, v) else p)
  else kvs ++ [(k, v)]

/-- Parse a JSON string body after the opening quote.  The common escape
sequences are modelled; `\uXXXX` and exotic escapes are outside the model. -/
def jsonParseStrBodyAux : Nat → List Char → Option (String × List Char)
  | _, [] => Option.none
  | 0, _ :: _ => Option.none
  | n + 1, c :: cs =>
      if c = '"' then some ("", cs)
      else if c = '\\' then
        match cs with
        | [] => Option.none
        | e :: cs2 =>
            let ec : Option Char :=
              if e = '"' then some '"'
              else if e = '\\' then some '\\'
              else if e = '/' then some '/'
              else if e = 'n' then some '\n'
              else if e = 't' then some '\t'
              else if e = 'r' then some '\r'
              else Option.none
            match ec with
            | some ch => (jsonParseStrBodyAux n cs2).map (fun r => (String.mk (ch :: r.1.data), r.2))
            | Option.none => Option.none
      else (jsonParseStrBodyAux n cs).map (fun r => (String.mk (c :: r.1.data), r.2))

def jsonParseStrBody (cs : List Char) : Option (String × List Char) :=
  jsonParseStrBodyAux cs.length cs

/-- Parse a run of digits. -/
def jsonParseDigits : List Char → (List Char × List Char)
  | [] => ([], [])
  | c :: cs =>
      if c.isDigit then
        let r := jsonParseDigits cs
        (c :: r.1, r.2)
      else ([], c :: cs)

/-- Integer JSON number from sign character and digits. -/
def numVal (c : Char) (ds : List Char) : PyVal :=
  let n : Nat := ds.foldl (fun n d => n * 10 + (d.toNat - 48)) 0
  if c = '-' then .int (-(n : Int)) else .int n

mutual

/-- Parse one JSON value (fuel-indexed recursion; JSON documents with
non-integer numbers are outside the model). -/
def jsonParseVal : Nat → List Char → Option (PyVal × List Char)
  | 0, _ => Option.none
  | fuel + 1, cs =>
      match jsonSkipWs cs with
      | [] => Option.none
      | c :: rest =>
          if c = 'n' then
            match rest with
            | 'u' :: 'l' :: 'l' :: rest2 => some (.none, rest2)
            | _ => Option.none
          else if c = 't' then
            match rest with
            | 'r' :: 'u' :: 'e' :: rest2 => some (.bool true, rest2)
            | _ => Option.none
          else if c = 'f' then
            match rest with
            | 'a' :: 'l' :: 's' :: 'e' :: rest2 => some (.bool false, rest2)
            | _ => Option.none
          else if c = '"' then
            (jsonParseStrBody rest).map (fun r => (.str r.1, r.2))
          else if c = '[' then
            jsonParseArr fuel rest []
          else if c = braceL then
            jsonParseObj fuel rest []
          else if c = '-' ∨ c.isDigit then
            let body := if c = '-' then rest else c :: rest
            match jsonParseDigits body with
            | ([], _) => Option.none
            | (ds, rest2) =>
                match rest2 with
                | d :: _ =>
                    if d = '.' ∨ d = 'e' ∨ d = 'E' then Option.none
                    else some (numVal c ds, rest2)
                | [] => some (numVal c ds, rest2)
          else Option.none

/-- Parse array elements after `[` (accumulator holds parsed elements in
reverse). -/
def jsonParseArr : Nat → List Char → List PyVal → Option (PyVal × List Char)
  | 0, _, _ => Option.none
  | fuel + 1, cs, acc =>
      match jsonSkipWs cs with
      | [] => Option.none
      | c :: rest =>
          if c = ']' ∧ acc.isEmpty then some (.list [], rest)
          else
            match jsonParseVal fuel (c :: rest) with
            | Option.none => Option.none
            | some (v, rest2) =>
                match jsonSkipWs rest2 with
                | ',' :: rest3 => jsonParseArr fuel rest3 (v :: acc)
                | d :: rest3 =>
                    if d = ']' then some (.list (v :: acc).reverse, rest3) else Option.none
                | [] => Option.none

/-- Parse object members after the opening brace. -/
def jsonParseObj : Nat → List Char → List (String × PyVal) → Option (PyVal × List Char)
  | 0, _, _ => Option.none
  | fuel + 1, cs, acc =>
      match jsonSkipWs cs with
      | [] => Option.none
      | c :: rest =>
          if c = braceR ∧ acc.isEmpty then some (.dict [], rest)
          else if c = '"' then
            match jsonParseStrBody rest with
            | Option.none => Option.none
            | some (k, rest2) =>
                match jsonSkipWs rest2 with
                | ':' :: rest3 =>
                    match jsonParseVal fuel rest3 with
                    | Option.none => Option.none
                    | some (v, rest4) =>
                        match jsonSkipWs rest4 with
                        | ',' :: rest5 => jsonParseObj fuel rest5 (dictSet acc k v)
                        | d :: rest5 =>
                            if d = braceR then some (.dict (dictSet acc k v), rest5)
                            else Option.none
                        | [] => Option.none
                | _ => Option.none
          else Option.none

end

end AIJsonAnalyzer

/-! ## Directed graph model (`networkx.DiGraph` and the algorithms used) -/

/-- A directed graph as insertion-ordered node and edge lists (kept
duplicate-free by the insertion operations, as networkx does). -/
structure DG (α : Type) where
  nodes : List α
  edges : List (α × α)
deriving Repr, DecidableEq

namespace DG

variable {α : Type} [DecidableEq α]

/-- `G.add_node(v)`. -/
def addNode (g : DG α) (v : α) : DG α :=
  if v ∈ g.nodes then g else ⟨g.nodes ++ [v], g.edges⟩

/-- `G.add_edge(u, v)` (adds missing endpoints, ignores duplicate edges). -/
def addEdge (g : DG α) (u v : α) : DG α :=
  let g := (g.addNode u).addNode v
  if (u, v) ∈ g.edges then g else ⟨g.nodes, g.edges ++ [(u, v)]⟩

/-- `G.remove_edge(u, v)` (the membership check is the caller's concern). -/
def removeEdge (g : DG α) (u v : α) : DG α :=
  ⟨g.nodes, g.edges.filter (fun e => e ≠ (u, v))⟩

/-- `G.successors(u)`. -/
def successors (g : DG α) (u : α) : List α :=
  (g.edges.filter (fun e => e.1 = u)).map (fun e => e.2)

/-- `G.predecessors(v)`. -/
def predecessors (g : DG α) (v : α) : List α :=
  (g.edges.filter (fun e => e.2 = v)).map (fun e => e.1)

/-- `G.in_degree(v)` (counts a self-loop once, as networkx does). -/
def inDegree (g : DG α) (v : α) : Nat := (g.predecessors v).length

/-- `G.out_degree(u)`. -/
def outDegree (g : DG α) (u : α) : Nat := (g.successors u).length

/-- The consecutive edges of a node list read as a cycle, wrap-around
included (`[v]` yields the self-loop `(v, v)`). -/
def cycleEdges (c : List α) : List (α × α) := c.zip (c.rotate 1)

/-- Does the node list describe a simple cycle present in the graph? -/
def isCycle (g : DG α) (c : List α) : Bool :=
  ¬ c.isEmpty ∧ (cycleEdges c).all (fun e => decide (e ∈ g.edges))

/-- All ways to insert an element into a list (used by `perms`). -/
def insertAll (x : α) : List α → List (List α)
  | [] => [[x]]
  | y :: ys => (x :: y :: ys) :: (insertAll x ys).map (fun l => y :: l)

/-- All permutations of a list (structural enumeration). -/
def perms : List α → List (List α)
  | [] => [[]]
  | x :: xs => (perms xs).flatMap (insertAll x)

/-- `nx.simple_cycles`: every simple cycle of the graph, each exactly once,
represented by the rotation whose head comes first in node-insertion order.
(The enumeration order differs from Johnson's algorithm; all downstream
theorems are robust to the order, see the header note.) -/
def simple_cycles (g : DG α) : List (List α) :=
  g.nodes.sublists.flatMap (fun S =>
    match S with
    | [] => []
    | h :: tS => ((perms tS).map (fun p => h :: p)).filter (fun c => isCycle g c))

/-- Does `v` lack incoming edges from `remaining`? -/
def noIncomingFrom (g : DG α) (remaining : List α) (v : α) : Bool :=
  remaining.all (fun u => decide ((u, v) ∉ g.edges))

/-- Kahn step: repeatedly pull out a node with no incoming edge among the
remaining ones. -/
def topoAux (g : DG α) : Nat → List α → Option (List α)
  | 0, remaining => if remaining.isEmpty then some [] else Option.none
  | fuel + 1, remaining =>
      match remaining.find? (noIncomingFrom g remaining) with
      | some v => (topoAux g fuel (remaining.erase v)).map (fun l => v :: l)
      | Option.none => if remaining.isEmpty then some [] else Option.none

/-- `nx.topological_sort`, as Kahn's algorithm; `none` models
`NetworkXUnfeasible` (any topological order gives the same downstream
earliest/latest-start maps, so the order difference to networkx is
immaterial). -/
def topoSort (g : DG α) : Option (List α) := topoAux g g.nodes.length g.nodes

/-- Depth-first enumeration of the simple paths from `u` to `t` avoiding
`visited`. -/
def spAux (g : DG α) (t : α) : Nat → α → List α → List (List α)
  | 0, _, _ => []
  | fuel + 1, u, visited =>
      if u = t then [[u]]
      else
        ((g.successors u).filter (fun v => decide (v ∉ u :: visited))).flatMap
          (fun v => (spAux g t fuel v (u :: visited)).map (fun p => u :: p))

/-- `nx.all_simple_paths` (>= 3.1 semantics: the trivial one-node path is
yielded when source equals target; a missing endpoint would raise
`NodeNotFound`, which every embedded caller catches and turns into "no
paths"). -/
def all_simple_paths (g : DG α) (s t : α) : List (List α) :=
  if s ∈ g.nodes ∧ t ∈ g.nodes then spAux g t g.nodes.length s [] else []

end DG

namespace AIJsonAnalyzer

/-! ### `calculate_critical_path` (analyzer variant, string ids, float
durations modelled over `ℚ`) -/

end AIJsonAnalyzer

/-! ## `CriticalPathCalculator` (src/backend/utils/critical_path.py) -/

/-- Duplicate removal keeping first occurrences (iteration order of a Python
dict built by repeated insertion). -/
def firstDedupAux {α : Type} [DecidableEq α] : Nat → List α → List α
  | _, [] => []
  | 0, _ :: _ => []
  | n + 1, x :: xs => x :: firstDedupAux n (xs.filter (fun y => y ≠ x))

def firstDedup {α : Type} [DecidableEq α] (l : List α) : List α :=
  firstDedupAux l.length l

/-- A task as normalized by `ProjectParser.get_tasks` (French canonical
keys).  The record is total: `task.get(key, default)` on a key the parser
always sets is represented by the field itself; for inputs given without a
field (such as the specification's abstract scenarios) the field holds the
default the consuming getters would produce. -/
structure FrTask where
  id : Nat
  nom : String := ""
  duree_estimee : Nat := 0
  predecesseurs : List Nat := []
  ressources_requises : List String := []
  statut : String := "non_commencee"
  unite_duree : String := "jours"
deriving Repr, DecidableEq

namespace CriticalPathCalculator

/-- `self.task_map = {task.get('id'): task for task in self.tasks}` — on
duplicate ids the last task wins. -/
def tmLookup (tasks : List FrTask) (i : Nat) : Option FrTask :=
  tasks.reverse.find? (fun t => t.id = i)

/-- Iteration order of `self.task_map` (insertion order: first occurrence of
each id). -/
def tmKeys (tasks : List FrTask) : List Nat :=
  firstDedup (tasks.map (fun t => t.id))

/-- `self.task_map[i].get('duree_estimee', 0) if i in self.task_map else 0`. -/
def durOf (tasks : List FrTask) (i : Nat) : Nat :=
  match tmLookup tasks i with
  | some t => t.duree_estimee
  | Option.none => 0

/-- The task ids in list order. -/
def taskIds (tasks : List FrTask) : List Nat := tasks.map (fun t => t.id)

/-- `CriticalPathCalculator._build_graph`. -/
def build_graph (tasks : List FrTask) : DG Nat :=
  let g := tasks.foldl (fun (g : DG Nat) t => g.addNode t.id) ⟨[], []⟩
  tasks.foldl (fun g t =>
    t.predecesseurs.foldl (fun (h : DG Nat) p =>
      if p ∈ h.nodes then h.addEdge p t.id else h) g) g

/-- One step of `_break_cycle`'s strict-minimum search over a cycle's
edges. -/
def bcStep (tasks : List FrTask) (g : DG Nat) (acc : Option ((Nat × Nat) × Nat))
    (e : Nat × Nat) : Option ((Nat × Nat) × Nat) :=
  if e ∈ g.edges then
    let w := durOf tasks e.1
    match acc with
    | Option.none => some (e, w)
    | some (_, mw) => if w < mw then some (e, w) else acc
  else acc

/-- `CriticalPathCalculator._break_cycle`: cycles shorter than two nodes are
left alone; otherwise the first wrap-around edge present in the graph whose
source task has strictly minimal duration is removed. -/
def break_cycle (tasks : List FrTask) (g : DG Nat) (c : List Nat) : DG Nat :=
  if c.length < 2 then g
  else
    let best := (DG.cycleEdges c).foldl (bcStep tasks g) Option.none
    match best with
    | some (e, _) => g.removeEdge e.1 e.2
    | Option.none => g

/-- The graph every analysis method works over: `_build_graph` followed by
`_break_cycle` on each cycle of the one-shot `nx.simple_cycles` listing
(each later `_break_cycle` sees the partially pruned graph, as the source's
in-place mutation does). -/
def effectiveGraph (tasks : List FrTask) : DG Nat :=
  let g := build_graph tasks
  (DG.simple_cycles g).foldl (break_cycle tasks) g

/-- Weight of a path: sum of the durations of its tasks. -/
def path_weight (tasks : List FrTask) (p : List Nat) : Nat :=
  (p.map (durOf tasks)).sum

/-- Nodes with no incoming dependency edge. -/
def start_nodes (g : DG Nat) : List Nat :=
  g.nodes.filter (fun v => g.inDegree v = 0)

/-- Nodes with no outgoing dependency edge. -/
def end_nodes (g : DG Nat) : List Nat :=
  g.nodes.filter (fun v => g.outDegree v = 0)

/-- All simple start-to-end paths paired with their duration weight. -/
def candidate_paths (tasks : List FrTask) (g : DG Nat) : List (List Nat × Nat) :=
  (start_nodes g).flatMap (fun s => (end_nodes g).flatMap (fun e =>
    (DG.all_simple_paths g s e).map (fun p => (p, path_weight tasks p))))

/-- `CriticalPathCalculator.get_critical_path`. -/
def get_critical_path (tasks : List FrTask) : List Nat :=
  if tasks.isEmpty then []
  else
    let g := effectiveGraph tasks
    if (start_nodes g).isEmpty ∨ (end_nodes g).isEmpty then []
    else
      match candidate_paths tasks g with
      | [] => []
      | p :: ps => (ps.foldl (fun best q => if q.2 > best.2 then q else best) p).1

/-- Fold taking the maximum of an accumulator with each defined term. -/
def maxFold (f : Nat → Option Int) (l : List Nat) (m0 : Int) : Int :=
  l.foldl (fun (m : Int) p =>
    match f p with
    | some t => max m t
    | Option.none => m) m0

/-- Fold taking the minimum of the defined terms (`none` = not seen yet). -/
def minFold (f : Nat → Option Int) (l : List Nat) (m0 : Option Int) : Option Int :=
  l.foldl (fun (m : Option Int) s =>
    match f s with
    | some x =>
        match m with
        | Option.none => some x
        | some mv => some (min mv x)
    | Option.none => m) m0

/-- One predecessor's contribution to the forward pass: its earliest finish,
defined when it is present both in the map under construction and in the
task map. -/
def esTerm (tasks : List FrTask) (es : List (Nat × Int)) (p : Nat) : Option Int :=
  match es.lookup p, tmLookup tasks p with
  | some pes, some pt => some (pes + (pt.duree_estimee : Int))
  | _, _ => Option.none

/-- The forward-pass value for one task: the maximum over its predecessors
(present in the map under construction and in the task map) of their
earliest finish, defaulting to 0. -/
def esVal (tasks : List FrTask) (g : DG Nat) (es : List (Nat × Int)) (v : Nat) : Int :=
  maxFold (esTerm tasks es) (g.predecessors v) 0

/-- One iteration of the forward pass (`continue` on ids outside the task
map; dict assignment as append). -/
def esStep (tasks : List FrTask) (g : DG Nat) (es : List (Nat × Int)) (v : Nat) :
    List (Nat × Int) :=
  match tmLookup tasks v with
  | Option.none => es
  | some _ => es ++ [(v, esVal tasks g es v)]

/-- `CriticalPathCalculator._calculate_earliest_start_times` (`[]` models the
empty dict returned on `NetworkXUnfeasible`). -/
def calculate_earliest_start_times (tasks : List FrTask) : List (Nat × Int) :=
  let g := effectiveGraph tasks
  match DG.topoSort g with
  | Option.none => []
  | some ord => ord.foldl (esStep tasks g) []

/-- The `project_finish` computation opening
`_calculate_latest_start_times`. -/
def project_finish_of (tasks : List FrTask) (es : List (Nat × Int)) : Int :=
  maxFold (fun v =>
    match es.lookup v with
    | some e => some (e + (durOf tasks v : Int))
    | Option.none => Option.none) (tmKeys tasks) 0

/-- The backward-pass minimum over the successors present in the map under
construction (`float(\x27inf\x27)` start modelled by `Option`). -/
def lsMin (ls : List (Nat × Int)) (succs : List Nat) : Option Int :=
  minFold (fun s => ls.lookup s) succs Option.none

/-- One step of the sink initialization of the backward pass. -/
def lsInitStep (tasks : List FrTask) (g : DG Nat) (project_finish : Int)
    (ls : List (Nat × Int)) (v : Nat) : List (Nat × Int) :=
  if (g.successors v).isEmpty then
    ls ++ [(v, project_finish - (durOf tasks v : Int))]
  else ls

/-- Sink initialization of the backward pass: tasks without successors can
finish at project end. -/
def lsInit (tasks : List FrTask) (g : DG Nat) (project_finish : Int) : List (Nat × Int) :=
  (tmKeys tasks).foldl (lsInitStep tasks g project_finish) []

/-- One iteration of the backward pass. -/
def lsStep (tasks : List FrTask) (g : DG Nat) (ls : List (Nat × Int)) (v : Nat) :
    List (Nat × Int) :=
  match tmLookup tasks v with
  | Option.none => ls
  | some t =>
      if (g.successors v).isEmpty then ls
      else
        match lsMin ls (g.successors v) with
        | some mv => ls ++ [(v, mv - (t.duree_estimee : Int))]
        | Option.none => ls

/-- `CriticalPathCalculator._calculate_latest_start_times`, given the
earliest-start map it would (re)compute. -/
def calculate_latest_start_times (tasks : List FrTask) (es : List (Nat × Int)) :
    List (Nat × Int) :=
  let project_finish := project_finish_of tasks es
  let g := effectiveGraph tasks
  match DG.topoSort g with
  | Option.none => []
  | some ord =>
      ord.reverse.foldl (lsStep tasks g) (lsInit tasks g project_finish)

/-- One entry of the slack computation: latest minus earliest start when both
are present. -/
def slackStep (es ls : List (Nat × Int)) (sl : List (Nat × Int)) (v : Nat) :
    List (Nat × Int) :=
  match es.lookup v, ls.lookup v with
  | some e, some l => sl ++ [(v, l - e)]
  | _, _ => sl

/-- `CriticalPathCalculator._calculate_slack_times` on a fresh instance (the
memoized attributes are empty, so both passes run). -/
def calculate_slack_times (tasks : List FrTask) : List (Nat × Int) :=
  let es := calculate_earliest_start_times tasks
  let ls := calculate_latest_start_times tasks es
  (tmKeys tasks).foldl (slackStep es ls) []

/-- One entry of the critical-path visualization data. -/
structure VizEntry where
  task_id : Nat
  task_name : String
  duration : Nat
  slack : Int
  is_critical : Bool
deriving Repr, DecidableEq

/-- A near-critical task: a copy of the task annotated with its slack. -/
structure NearCritical where
  task : FrTask
  slack : Int
deriving Repr, DecidableEq

/-- Result of `get_critical_path_details`. -/
structure CPDetails where
  critical_path : List FrTask
  total_duration : Nat
  duration_unit : String
  path_ids : List Nat
  slack_times : List (Nat × Int)
  near_critical_tasks : List NearCritical
  visualization_data : List VizEntry
  bottlenecks : List FrTask
deriving Repr, DecidableEq

/-- `CriticalPathCalculator._generate_path_visualization_data`. -/
def generate_path_visualization_data (tasks : List FrTask) (path_ids : List Nat)
    (slack_times : List (Nat × Int)) : List VizEntry :=
  let slack_times := if slack_times.isEmpty then calculate_slack_times tasks else slack_times
  let critical := path_ids.filterMap (fun tid =>
    (tmLookup tasks tid).map (fun t =>
      (⟨tid, t.nom, t.duree_estimee, ((slack_times.lookup tid).getD 0), true⟩ : VizEntry)))
  let near := slack_times.filterMap (fun p =>
    if p.1 ∉ path_ids ∧ p.2 ≤ 2 then
      (tmLookup tasks p.1).map (fun t =>
        (⟨p.1, t.nom, t.duree_estimee, p.2, false⟩ : VizEntry))
    else Option.none)
  critical ++ near

/-- `CriticalPathCalculator.get_critical_path_details`.  (The duration-unit
loop reads the first task's `unite_duree`: on the reified record the key is
always present, as `ProjectParser` guarantees.) -/
def get_critical_path_details (tasks : List FrTask) : CPDetails :=
  let path_ids := get_critical_path tasks
  let critical_tasks := path_ids.filterMap (tmLookup tasks)
  let duration_unit :=
    match tasks with
    | [] => "jours"
    | t :: _ => t.unite_duree
  let total_duration : Nat := (critical_tasks.map (fun t => t.duree_estimee)).sum
  let slack_times := calculate_slack_times tasks
  let near_critical := slack_times.filterMap (fun p =>
    if p.1 ∉ path_ids ∧ p.2 ≤ 2 then
      (tmLookup tasks p.1).map (fun t => (⟨t, p.2⟩ : NearCritical))
    else Option.none)
  let viz := generate_path_visualization_data tasks path_ids slack_times
  let bottlenecks :=
    if critical_tasks.isEmpty then []
    else
      -- `avg_duration * 1.5` (1.5 is exactly representable; the float
      -- division is modelled exactly over ℚ)
      let avg : ℚ := (total_duration : ℚ) / (critical_tasks.length : ℚ)
      critical_tasks.filter (fun t => (t.duree_estimee : ℚ) > avg * (3 / 2 : ℚ))
  ⟨critical_tasks, total_duration, duration_unit, path_ids, slack_times,
   near_critical, viz, bottlenecks⟩

end CriticalPathCalculator

/-! ## `RiskDetector` (src/backend/utils/risk_detector.py) -/

namespace RiskDetector

/-- A flagged task: a copy of the task annotated with `risk_level`. -/
structure AnnTask where
  task : FrTask
  risk_level : String
deriving Repr, DecidableEq

/-- A flagged bottleneck: task copy annotated with level, project average
duration and the duration ratio. -/
structure BottleneckEntry where
  task : FrTask
  risk_level : String
  average_duration : ℚ
  duration_ratio : ℚ
deriving Repr, DecidableEq

/-- A flagged timeline risk: task copy annotated with level and reason. -/
structure TimelineEntry where
  task : FrTask
  risk_level : String
  risk_reason : String
deriving Repr, DecidableEq

/-- An overloaded-resource record. -/
structure OverloadEntry where
  resource : String
  task_count : Nat
  tasks : List FrTask
  critical_tasks : Nat
  risk_level : String
deriving Repr, DecidableEq

/-- A long-dependency-chain record. -/
structure DepConflictEntry where
  task_id : Nat
  task_name : String
  risk_level : String
  dependency_chain : List Nat
  risk_type : String
deriving Repr, DecidableEq

/-- A resource-parallelism conflict record. -/
structure ResConflictEntry where
  resource : String
  conflicting_tasks : List FrTask
  critical_tasks : Nat
  risk_level : String
deriving Repr, DecidableEq

/-- `RiskDetector._tasks_without_resources`. -/
def tasks_without_resources (tasks : List FrTask) (cp : List Nat) : List AnnTask :=
  tasks.filterMap (fun t =>
    if t.ressources_requises.isEmpty ∨ t.ressources_requises.all (fun r => r = "") then
      some ⟨t, if cp.contains t.id then "Élevé" else "Moyen"⟩
    else Option.none)

/-- `RiskDetector._tasks_without_dependencies` (orphan tasks: neither
initial nor referenced as a dependency). -/
def tasks_without_dependencies (tasks : List FrTask) : List AnnTask :=
  let initial_ids := (tasks.filter (fun t => t.predecesseurs.isEmpty)).map (fun t => t.id)
  let all_ids := tasks.map (fun t => t.id)
  let referenced := tasks.flatMap (fun t => t.predecesseurs.filter (fun d => all_ids.contains d))
  tasks.filterMap (fun t =>
    if ¬ initial_ids.contains t.id ∧ ¬ referenced.contains t.id then
      some ⟨t, "Faible"⟩
    else Option.none)

/-- `RiskDetector._detect_bottlenecks`. -/
def detect_bottlenecks (tasks : List FrTask) (cp : List Nat) : List BottleneckEntry :=
  if tasks.isEmpty then []
  else
    let total : ℚ := ((tasks.map (fun t => t.duree_estimee)).sum : ℚ)
    let avg : ℚ := total / (tasks.length : ℚ)
    let threshold : ℚ := avg * (3 / 2 : ℚ)
    tasks.filterMap (fun t =>
      if (t.duree_estimee : ℚ) > threshold then
        some ⟨t, if cp.contains t.id then "Élevé" else "Moyen", avg,
              (t.duree_estimee : ℚ) / avg⟩
      else Option.none)

/-- Resource iteration order of the `defaultdict` in
`_detect_overloaded_resources` / `_detect_resource_allocation_conflicts`
(first appearance of each non-blank resource name). -/
def resource_keys (tasks : List FrTask) : List String :=
  firstDedup (tasks.flatMap (fun t => t.ressources_requises.filter (fun r => r ≠ "")))

/-- The task list accumulated for one resource (one entry per occurrence, as
the source appends per resource mention). -/
def resource_tasks (tasks : List FrTask) (r : String) : List FrTask :=
  tasks.flatMap (fun t =>
    (t.ressources_requises.filter (fun x => x ≠ "" ∧ x = r)).map (fun _ => t))

/-- `RiskDetector._detect_overloaded_resources`. -/
def detect_overloaded_resources (tasks : List FrTask) (cp : List Nat) : List OverloadEntry :=
  (resource_keys tasks).filterMap (fun r =>
    let rts := resource_tasks tasks r
    if rts.length > 3 then
      let critical := rts.filter (fun t => cp.contains t.id)
      some ⟨r, rts.length, rts, critical.length,
            if critical.isEmpty then "Moyen" else "Élevé"⟩
    else Option.none)

/-- `RiskDetector._calculate_risk_level`. -/
def calculate_risk_level (total_risks : Nat) : String :=
  if total_risks = 0 then "Très faible"
  else if total_risks ≤ 2 then "Faible"
  else if total_risks ≤ 5 then "Moyen"
  else "Élevé"

/-- `RiskDetector._detect_timeline_risks` (tasks with falsy — zero —
duration are skipped up front). -/
def detect_timeline_risks (tasks : List FrTask) (cp : List Nat) : List TimelineEntry :=
  tasks.filterMap (fun t =>
    if t.duree_estimee = 0 then Option.none
    else if (t.predecesseurs.length > 2 ∨ t.ressources_requises.length > 2) ∧
            t.duree_estimee < 3 then
      some ⟨t, if cp.contains t.id then "Élevé" else "Moyen",
            "Durée potentiellement sous-estimée pour une tâche complexe"⟩
    else Option.none)

/-- `dependency_map.get(i)` (`{task['id']: predecessors}`, last duplicate
wins). -/
def dmLookup (tasks : List FrTask) (i : Nat) : Option (List Nat) :=
  (tasks.reverse.find? (fun t => t.id = i)).map (fun t => t.predecesseurs)

/-- `RiskDetector._get_dependency_chain` (fuel-indexed; the visited set
bounds the recursion depth by the number of distinct ids, so
`tasks.length + 1` fuel is never exhausted). -/
def get_dependency_chain (tasks : List FrTask) : Nat → Nat → List Nat → List Nat
  | 0, task_id, _ => [task_id]
  | fuel + 1, task_id, visited =>
      if visited.contains task_id then [task_id]
      else
        let visited := task_id :: visited
        ((dmLookup tasks task_id).getD []).foldl (fun chain p =>
          if (dmLookup tasks p).isSome then
            get_dependency_chain tasks fuel p visited ++ chain
          else chain) [task_id]

/-- `RiskDetector._detect_dependency_conflicts`. -/
def detect_dependency_conflicts (tasks : List FrTask) (cp : List Nat) : List DepConflictEntry :=
  tasks.filterMap (fun t =>
    let chain := get_dependency_chain tasks (tasks.length + 1) t.id []
    if chain.length > 5 then
      some ⟨t.id, t.nom, if cp.contains t.id then "Élevé" else "Moyen", chain,
            "long_dependency_chain"⟩
    else Option.none)

/-- `RiskDetector._find_potential_parallel_tasks`: greedy grouping of tasks
not depending on the group's seed task. -/
def find_potential_parallel_tasksAux : Nat → List FrTask → List (List FrTask)
  | _, [] => []
  | 0, _ :: _ => []
  | n + 1, task :: rest =>
      let p := fun (other : FrTask) =>
        decide (¬ other.predecesseurs.contains task.id ∧ ¬ task.predecesseurs.contains other.id)
      let group := task :: rest.filter p
      let remaining := rest.filter (fun o => ¬ p o)
      (if group.length > 1 then [group] else []) ++ find_potential_parallel_tasksAux n remaining

def find_potential_parallel_tasks (l : List FrTask) : List (List FrTask) :=
  find_potential_parallel_tasksAux l.length l

/-- `RiskDetector._detect_resource_allocation_conflicts`. -/
def detect_resource_allocation_conflicts (tasks : List FrTask) (cp : List Nat) :
    List ResConflictEntry :=
  (resource_keys tasks).flatMap (fun r =>
    let rts := resource_tasks tasks r
    if rts.length ≤ 1 then []
    else
      (find_potential_parallel_tasks rts).filterMap (fun group =>
        if group.length > 1 then
          let critical := group.filter (fun t => cp.contains t.id)
          some ⟨r, group, critical.length,
                if critical.isEmpty then "Moyen" else "Élevé"⟩
        else Option.none))

/-- Risk counts by ordinal level. -/
structure RiskLevels where
  high : Nat
  medium : Nat
  low : Nat
deriving Repr, DecidableEq

/-- `RiskDetector._calculate_risk_metrics` result. -/
structure RiskMetrics where
  risk_levels : RiskLevels
  critical_path_risk_count : Nat
  resource_risk_ratio : ℚ
  dependency_risk_ratio : ℚ
  total_risk_score : Nat
deriving Repr, DecidableEq

/-- Count of `"Élevé"` entries ("high"); anything neither `"Élevé"` nor
`"Moyen"` counts as low, as the source's `else` branch does. -/
def countHigh (levels : List String) : Nat := (levels.filter (fun l => l = "Élevé")).length

def countMedium (levels : List String) : Nat := (levels.filter (fun l => l = "Moyen")).length

def countLow (levels : List String) : Nat :=
  (levels.filter (fun l => l ≠ "Élevé" ∧ l ≠ "Moyen")).length

/-- `RiskDetector._calculate_risk_metrics`. -/
def calculate_risk_metrics (tasks : List FrTask) (cp : List Nat)
    (no_resources no_dependencies : List AnnTask) (bottlenecks : List BottleneckEntry)
    (overloaded : List OverloadEntry) (timeline : List TimelineEntry)
    (dep_conflicts : List DepConflictEntry) (res_conflicts : List ResConflictEntry) :
    RiskMetrics :=
  let levels :=
    no_resources.map (fun e => e.risk_level) ++ no_dependencies.map (fun e => e.risk_level) ++
    bottlenecks.map (fun e => e.risk_level) ++ overloaded.map (fun e => e.risk_level) ++
    timeline.map (fun e => e.risk_level) ++ dep_conflicts.map (fun e => e.risk_level) ++
    res_conflicts.map (fun e => e.risk_level)
  let high := countHigh levels
  let medium := countMedium levels
  let low := countLow levels
  let cpr := ((no_resources.map (fun e => e.task) ++ bottlenecks.map (fun e => e.task)).filter
    (fun t => cp.contains t.id)).length
  { risk_levels := ⟨high, medium, low⟩
    critical_path_risk_count := cpr
    resource_risk_ratio :=
      if tasks.isEmpty then 0 else (no_resources.length : ℚ) / (tasks.length : ℚ)
    dependency_risk_ratio :=
      if tasks.isEmpty then 0 else (no_dependencies.length : ℚ) / (tasks.length : ℚ)
    total_risk_score := high * 3 + medium * 2 + low }

/-- Per-category weighted scores. -/
structure RiskScores where
  resource_risks : Nat
  dependency_risks : Nat
  timeline_risks : Nat
  resource_conflicts : Nat
deriving Repr, DecidableEq

/-- A chart dataset (labels with one data series; float chart values
modelled over ℚ). -/
structure ChartBlock where
  labels : List String
  data : List ℚ
deriving Repr, DecidableEq

/-- `RiskDetector._generate_risk_chart_data` result. -/
structure RiskChartData where
  radar : ChartBlock
  pie : ChartBlock
  timeline : ChartBlock
deriving Repr, DecidableEq

/-- `RiskDetector._count_risks_by_type` (re-runs every detector). -/
def count_risks_by_type (tasks : List FrTask) (cp : List Nat) : List (String × Nat) :=
  [("Resource Allocation", (tasks_without_resources tasks cp).length),
   ("Dependencies", (tasks_without_dependencies tasks).length),
   ("Bottlenecks", (detect_bottlenecks tasks cp).length),
   ("Overallocated Resources", (detect_overloaded_resources tasks cp).length),
   ("Timeline Issues", (detect_timeline_risks tasks cp).length),
   ("Dependency Conflicts", (detect_dependency_conflicts tasks cp).length),
   ("Resource Conflicts", (detect_resource_allocation_conflicts tasks cp).length)]

/-- `RiskDetector._generate_timeline_risk_projection` (the float factors
0.5, 0.8, 0.7, 0.3 are modelled exactly over ℚ; only the all-zero branch is
inspected by a claim). -/
def generate_timeline_risk_projection (tasks : List FrTask) (cp : List Nat) : ChartBlock :=
  let total : Nat := ((count_risks_by_type tasks cp).map (fun p => p.2)).sum
  let impact : List ℚ :=
    if total > 0 then
      [(total : ℚ) * (1 / 2 : ℚ), (total : ℚ) * (4 / 5 : ℚ), (total : ℚ),
       (total : ℚ) * (7 / 10 : ℚ), (total : ℚ) * (3 / 10 : ℚ)]
    else [0, 0, 0, 0, 0]
  ⟨["Project Start", "25%", "50%", "75%", "Project End"], impact⟩

/-- `RiskDetector._generate_risk_chart_data`. -/
def generate_risk_chart_data (tasks : List FrTask) (cp : List Nat) (scores : RiskScores) :
    RiskChartData :=
  let counts := count_risks_by_type tasks cp
  { radar := ⟨["Resource Risks", "Dependency Risks", "Timeline Risks", "Resource Conflicts"],
      [(scores.resource_risks : ℚ), (scores.dependency_risks : ℚ),
       (scores.timeline_risks : ℚ), (scores.resource_conflicts : ℚ)]⟩
    pie := ⟨counts.map (fun p => p.1), counts.map (fun p => (p.2 : ℚ))⟩
    timeline := generate_timeline_risk_projection tasks cp }

/-- The per-task risk count shared by `_generate_risk_distribution` and
`_analyze_critical_path_risks` (resource issues, plus long critical-path
tasks). -/
def taskRiskCount (cp : List Nat) (t : FrTask) : Nat :=
  (if t.ressources_requises.isEmpty ∨ t.ressources_requises.all (fun r => r = "") then 1 else 0) +
  (if cp.contains t.id ∧ t.duree_estimee > 10 then 1 else 0)

/-- `RiskDetector._generate_risk_distribution` (status counters in
first-insertion order, as the `defaultdict` iterates). -/
def generate_risk_distribution (tasks : List FrTask) (cp : List Nat) : ChartBlock :=
  let flagged := tasks.filter (fun t => taskRiskCount cp t > 0)
  let statuses := firstDedup (flagged.map (fun t => t.statut))
  ⟨statuses,
   statuses.map (fun s =>
     (((flagged.filter (fun t => t.statut = s)).map (taskRiskCount cp)).sum : ℚ))⟩

/-- `RiskDetector._analyze_critical_path_risks`. -/
def analyze_critical_path_risks (tasks : List FrTask) (cp : List Nat) : ChartBlock :=
  let critical := ((tasks.filter (fun t => cp.contains t.id)).map (taskRiskCount cp)).sum
  let non_critical := ((tasks.filter (fun t => ¬ cp.contains t.id)).map (taskRiskCount cp)).sum
  ⟨["Critical Path Tasks", "Non-Critical Path Tasks"], [(critical : ℚ), (non_critical : ℚ)]⟩

/-- `RiskDetector._generate_recommendations` (the timeline/dependency/
resource-conflict parameters are accepted and unused, as in the source). -/
def generate_recommendations (cp : List Nat) (no_resources no_dependencies : List AnnTask)
    (bottlenecks : List BottleneckEntry) (overloaded : List OverloadEntry) : List String :=
  let r1 : List String :=
    match no_resources with
    | [] => []
    | [e] =>
        ["Assign resources to task \x27" ++ e.task.nom ++ "\x27 which currently has none."]
    | _ =>
        ["Assign resources to " ++ toString no_resources.length ++
         " tasks that currently have none, especially to the critical path tasks."]
  let r2 : List String :=
    if no_dependencies.isEmpty then []
    else
      ["Review " ++ toString no_dependencies.length ++
       " tasks that aren\x27t referenced as dependencies by any other task. " ++
       "They might be isolated or disconnected from the project flow."]
  let critical_bottlenecks := bottlenecks.filter (fun e => cp.contains e.task.id)
  let r3 : List String :=
    if bottlenecks.isEmpty then []
    else
      (if critical_bottlenecks.isEmpty then []
       else
         ["Consider breaking down " ++ toString critical_bottlenecks.length ++
          " long-duration tasks on the critical path into smaller sub-tasks to reduce risk and improve tracking."]) ++
      (if bottlenecks.length > critical_bottlenecks.length then
         ["Review " ++ toString (bottlenecks.length - critical_bottlenecks.length) ++
          " non-critical tasks with unusually long durations. They might benefit from additional resources."]
       else [])
  let severe := overloaded.filter (fun e => e.task_count > 5)
  let r4 : List String :=
    if overloaded.isEmpty then []
    else
      ["Redistribute work from " ++ toString overloaded.length ++
       " potentially overloaded resources to ensure optimal performance and reduce burnout risk."] ++
      severe.map (fun e =>
        "Resource \x27" ++ e.resource ++ "\x27 is assigned to " ++ toString e.task_count ++
        " tasks which is significantly above recommended limits. Consider immediate reallocation.")
  let general : List String :=
    if no_resources.isEmpty ∧ no_dependencies.isEmpty ∧ bottlenecks.isEmpty ∧
       overloaded.isEmpty then []
    else
      ["Consider implementing a regular risk review meeting to address these and " ++
       "other potential issues before they impact the project timeline."]
  r1 ++ r2 ++ r3 ++ r4 ++ general

/-- The seven risk lists of the report. -/
structure Risks where
  no_resources : List AnnTask
  no_dependencies : List AnnTask
  bottlenecks : List BottleneckEntry
  overloaded_resources : List OverloadEntry
  timeline_risks : List TimelineEntry
  dependency_conflicts : List DepConflictEntry
  resource_conflicts : List ResConflictEntry
deriving Repr, DecidableEq

/-- `RiskDetector.detect_risks` result. -/
structure RiskReport where
  total_risks : Nat
  risk_level : String
  risk_scores : RiskScores
  risk_metrics : RiskMetrics
  risks : Risks
  recommendations : List String
  chart_data : RiskChartData
  risk_distribution : ChartBlock
  critical_path_analysis : ChartBlock
deriving Repr, DecidableEq

/-- `RiskDetector.detect_risks`. -/
def detect_risks (tasks : List FrTask) (critical_path : List Nat) : RiskReport :=
  let cp := critical_path
  let no_resources := tasks_without_resources tasks cp
  let no_dependencies := tasks_without_dependencies tasks
  let bottlenecks := detect_bottlenecks tasks cp
  let overloaded_resources := detect_overloaded_resources tasks cp
  let timeline_risks := detect_timeline_risks tasks cp
  let dependency_conflicts := detect_dependency_conflicts tasks cp
  let resource_conflicts := detect_resource_allocation_conflicts tasks cp
  let risk_scores : RiskScores :=
    { resource_risks := no_resources.length * 10 + overloaded_resources.length * 15
      dependency_risks := no_dependencies.length * 5 + dependency_conflicts.length * 20
      timeline_risks := bottlenecks.length * 15 + timeline_risks.length * 10
      resource_conflicts := resource_conflicts.length * 20 }
  let total_risks := no_resources.length + no_dependencies.length + bottlenecks.length +
    overloaded_resources.length + timeline_risks.length + dependency_conflicts.length +
    resource_conflicts.length
  { total_risks := total_risks
    risk_level := calculate_risk_level total_risks
    risk_scores := risk_scores
    risk_metrics := calculate_risk_metrics tasks cp no_resources no_dependencies bottlenecks
      overloaded_resources timeline_risks dependency_conflicts resource_conflicts
    risks := ⟨no_resources, no_dependencies, bottlenecks, overloaded_resources,
              timeline_risks, dependency_conflicts, resource_conflicts⟩
    recommendations := generate_recommendations cp no_resources no_dependencies bottlenecks
      overloaded_resources
    chart_data := generate_risk_chart_data tasks cp risk_scores
    risk_distribution := generate_risk_distribution tasks cp
    critical_path_analysis := analyze_critical_path_risks tasks cp }

end RiskDetector

/-! ## Concrete inputs from the specification's scenarios -/

namespace Scenario

/-- The four-task scenario: durations 2, 5, 1, 3; task 4 depends on 2 and 3. -/
def cpmTasks : List FrTask :=
  [ { id := 1, duree_estimee := 2, predecesseurs := [] },
    { id := 2, duree_estimee := 5, predecesseurs := [1] },
    { id := 3, duree_estimee := 1, predecesseurs := [1] },
    { id := 4, duree_estimee := 3, predecesseurs := [2, 3] } ]

/-- Two tasks, the first depending on itself. -/
def selfRefTasks : List FrTask :=
  [ { id := 1, duree_estimee := 2, predecesseurs := [1] },
    { id := 2, duree_estimee := 3, predecesseurs := [1] } ]

/-- The same two tasks with the self-reference removed. -/
def selfRefFreeTasks : List FrTask :=
  [ { id := 1, duree_estimee := 2, predecesseurs := [] },
    { id := 2, duree_estimee := 3, predecesseurs := [1] } ]

/-- A single short task with three dependencies but zero duration. -/
def zeroDurTasks : List FrTask :=
  [ { id := 1, duree_estimee := 0, predecesseurs := [2, 3, 4] } ]

/-- A raw task dict with a comma-separated dependency string and a
comma-separated resource string. -/
def rawMixedTask : List (String × PyVal) :=
  [("id", .int 7), ("resources", .str "Alice, Bob"), ("dependencies", .str " 1 ,2")]

/-- A minimal raw task dict. -/
def rawSmallTask : List (String × PyVal) := [("id", .int 1), ("name", .str "A")]

/-- Three tasks whose dependencies form the cycle 10 → 20 → 30 → 10. -/
def cycleTasks : List FrTask :=
  [ { id := 10, duree_estimee := 5, predecesseurs := [30] },
    { id := 20, duree_estimee := 2, predecesseurs := [10] },
    { id := 30, duree_estimee := 7, predecesseurs := [20] } ]

end Scenario

/-! ## Lemmas: graph construction invariants -/

namespace DG

variable {α : Type} [DecidableEq α]

theorem addNode_edges (g : DG α) (v : α) : (g.addNode v).edges = g.edges := by
  unfold addNode; split <;> rfl

theorem mem_addNode_nodes {g : DG α} {u : α} (v : α) :
    u ∈ (g.addNode v).nodes ↔ u ∈ g.nodes ∨ u = v := by
  unfold addNode
  split
  · rename_i h
    constructor
    · exact Or.inl
    · rintro (h2 | rfl) <;> [exact h2; exact h]
  · simp [List.mem_append]

theorem addNode_nodup {g : DG α} (h : g.nodes.Nodup) (v : α) :
    (g.addNode v).nodes.Nodup := by
  unfold addNode
  split
  · exact h
  · rename_i hv
    simpa [List.nodup_append] using ⟨h, hv⟩

theorem addNode_nodes_sublist (g : DG α) (v : α) : List.Sublist g.nodes (g.addNode v).nodes := by
  unfold addNode
  split
  · exact List.Sublist.refl _
  · exact List.sublist_append_left _ _

theorem addEdge_eq (g : DG α) (u v : α) :
    g.addEdge u v = if (u, v) ∈ g.edges
      then (g.addNode u).addNode v
      else ⟨((g.addNode u).addNode v).nodes, g.edges ++ [(u, v)]⟩ := by
  simp [addEdge, addNode_edges]

theorem mem_addEdge_edges {g : DG α} {e : α × α} (u v : α) :
    e ∈ (g.addEdge u v).edges ↔ e ∈ g.edges ∨ e = (u, v) := by
  rw [addEdge_eq]
  split
  · rename_i h
    rw [addNode_edges, addNode_edges]
    exact ⟨Or.inl, fun h2 => h2.elim id (fun he => he ▸ h)⟩
  · simp [List.mem_append]

theorem mem_addEdge_nodes {g : DG α} {w : α} (u v : α) :
    w ∈ (g.addEdge u v).nodes ↔ w ∈ g.nodes ∨ w = u ∨ w = v := by
  rw [addEdge_eq]
  split <;> simp [mem_addNode_nodes, or_assoc]

theorem addEdge_nodup {g : DG α} (h : g.nodes.Nodup) (u v : α) :
    (g.addEdge u v).nodes.Nodup := by
  rw [addEdge_eq]
  split <;> exact addNode_nodup (addNode_nodup h u) v

theorem addEdge_nodes_of_mem {g : DG α} {u v : α} (hu : u ∈ g.nodes) (hv : v ∈ g.nodes) :
    (g.addEdge u v).nodes = g.nodes := by
  rw [addEdge_eq]
  have h1 : g.addNode u = g := by unfold addNode; simp [hu]
  have h2 : g.addNode v = g := by unfold addNode; simp [hv]
  split <;> simp [h1, h2]

theorem removeEdge_nodes (g : DG α) (u v : α) : (g.removeEdge u v).nodes = g.nodes := rfl

theorem mem_removeEdge_edges {g : DG α} {e : α × α} (u v : α) :
    e ∈ (g.removeEdge u v).edges ↔ e ∈ g.edges ∧ e ≠ (u, v) := by
  unfold removeEdge
  simp

theorem mem_successors {g : DG α} {u v : α} :
    v ∈ g.successors u ↔ (u, v) ∈ g.edges := by
  unfold successors
  constructor
  · rintro h
    obtain ⟨e, he, rfl⟩ := List.mem_map.mp h
    obtain ⟨he1, he2⟩ := List.mem_filter.mp he
    have : e.1 = u := by simpa using he2
    simpa [← this] using he1
  · intro h
    exact List.mem_map.mpr ⟨(u, v), List.mem_filter.mpr ⟨h, by simp⟩, rfl⟩

theorem mem_predecessors {g : DG α} {u v : α} :
    u ∈ g.predecessors v ↔ (u, v) ∈ g.edges := by
  unfold predecessors
  constructor
  · rintro h
    obtain ⟨e, he, rfl⟩ := List.mem_map.mp h
    obtain ⟨he1, he2⟩ := List.mem_filter.mp he
    have : e.2 = v := by simpa using he2
    simpa [← this] using he1
  · intro h
    exact List.mem_map.mpr ⟨(u, v), List.mem_filter.mpr ⟨h, by simp⟩, rfl⟩

theorem inDegree_eq_zero_iff {g : DG α} {v : α} :
    g.inDegree v = 0 ↔ ∀ u, (u, v) ∉ g.edges := by
  unfold inDegree
  rw [List.length_eq_zero]
  constructor
  · intro h u hu
    have : u ∈ g.predecessors v := mem_predecessors.mpr hu
    simp [h] at this
  · intro h
    by_contra hne
    obtain ⟨u, hu⟩ := List.exists_mem_of_ne_nil _ hne
    exact h u (mem_predecessors.mp hu)

theorem outDegree_eq_zero_iff {g : DG α} {u : α} :
    g.outDegree u = 0 ↔ ∀ v, (u, v) ∉ g.edges := by
  unfold outDegree
  rw [List.length_eq_zero]
  constructor
  · intro h v hv
    have : v ∈ g.successors u := mem_successors.mpr hv
    simp [h] at this
  · intro h
    by_contra hne
    obtain ⟨v, hv⟩ := List.exists_mem_of_ne_nil _ hne
    exact h v (mem_successors.mp hv)

theorem successors_eq_nil_iff {g : DG α} {u : α} :
    g.successors u = [] ↔ ∀ v, (u, v) ∉ g.edges := by
  rw [← List.length_eq_zero]
  exact outDegree_eq_zero_iff

end DG

/-! ## Lemmas: `build_graph` invariants -/

namespace CriticalPathCalculator

theorem foldl_addNode_edges (l : List FrTask) (g : DG Nat) :
    (l.foldl (fun g t => g.addNode t.id) g).edges = g.edges := by
  induction l generalizing g with
  | nil => rfl
  | cons t ts ih => rw [List.foldl_cons, ih, DG.addNode_edges]

theorem foldl_addNode_mem (l : List FrTask) (g : DG Nat) (v : Nat) :
    v ∈ (l.foldl (fun g t => g.addNode t.id) g).nodes ↔
      v ∈ g.nodes ∨ v ∈ l.map (fun t => t.id) := by
  induction l generalizing g with
  | nil => simp
  | cons t ts ih =>
      rw [List.foldl_cons, ih]
      simp only [DG.mem_addNode_nodes, List.map_cons, List.mem_cons]
      tauto

theorem foldl_addNode_nodup (l : List FrTask) (g : DG Nat) (h : g.nodes.Nodup) :
    (l.foldl (fun g t => g.addNode t.id) g).nodes.Nodup := by
  induction l generalizing g with
  | nil => exact h
  | cons t ts ih => exact ih _ (DG.addNode_nodup h _)

theorem predFoldl_nodes (ps : List Nat) (tid : Nat) (g : DG Nat) (htid : tid ∈ g.nodes) :
    (ps.foldl (fun h p => if p ∈ h.nodes then h.addEdge p tid else h) g).nodes = g.nodes := by
  induction ps generalizing g with
  | nil => rfl
  | cons p ps ih =>
      rw [List.foldl_cons]
      by_cases hp : p ∈ g.nodes
      · rw [if_pos hp]
        have hn : (g.addEdge p tid).nodes = g.nodes := DG.addEdge_nodes_of_mem hp htid
        rw [ih _ (by rw [hn]; exact htid), hn]
      · rw [if_neg hp]
        exact ih _ htid

theorem predFoldl_mem_edges (ps : List Nat) (tid : Nat) (g : DG Nat) (htid : tid ∈ g.nodes)
    (e : Nat × Nat) :
    e ∈ (ps.foldl (fun h p => if p ∈ h.nodes then h.addEdge p tid else h) g).edges ↔
      e ∈ g.edges ∨ ∃ p ∈ ps, p ∈ g.nodes ∧ e = (p, tid) := by
  induction ps generalizing g with
  | nil => simp
  | cons p ps ih =>
      rw [List.foldl_cons]
      by_cases hp : p ∈ g.nodes
      · rw [if_pos hp]
        have hn : (g.addEdge p tid).nodes = g.nodes := DG.addEdge_nodes_of_mem hp htid
        rw [ih _ (by rw [hn]; exact htid)]
        rw [hn]
        simp only [DG.mem_addEdge_edges, List.mem_cons]
        constructor
        · rintro ((h | h) | ⟨q, hq, hqn, rfl⟩)
          · exact Or.inl h
          · exact Or.inr ⟨p, Or.inl rfl, hp, h⟩
          · exact Or.inr ⟨q, Or.inr hq, hqn, rfl⟩
        · rintro (h | ⟨q, hq, hqn, rfl⟩)
          · exact Or.inl (Or.inl h)
          · rcases hq with rfl | hq
            · exact Or.inl (Or.inr rfl)
            · exact Or.inr ⟨q, hq, hqn, rfl⟩
      · rw [if_neg hp]
        rw [ih _ htid]
        constructor
        · rintro (h | ⟨q, hq, hqn, rfl⟩)
          · exact Or.inl h
          · exact Or.inr ⟨q, List.mem_cons_of_mem _ hq, hqn, rfl⟩
        · rintro (h | ⟨q, hq, hqn, rfl⟩)
          · exact Or.inl h
          · rcases List.mem_cons.mp hq with rfl | hq
            · exact absurd hqn hp
            · exact Or.inr ⟨q, hq, hqn, rfl⟩

theorem edgeFoldl_nodes (l : List FrTask) (g : DG Nat) (h : ∀ t ∈ l, t.id ∈ g.nodes) :
    (l.foldl (fun g t =>
      t.predecesseurs.foldl (fun h p => if p ∈ h.nodes then h.addEdge p t.id else h) g) g).nodes
      = g.nodes := by
  induction l generalizing g with
  | nil => rfl
  | cons t ts ih =>
      rw [List.foldl_cons]
      have hn := predFoldl_nodes t.predecesseurs t.id g (h t (by simp))
      rw [ih _ (fun t2 ht2 => by rw [hn]; exact h t2 (List.mem_cons_of_mem _ ht2)), hn]

theorem edgeFoldl_mem_edges (l : List FrTask) (g : DG Nat) (h : ∀ t ∈ l, t.id ∈ g.nodes)
    (e : Nat × Nat) :
    e ∈ (l.foldl (fun g t =>
      t.predecesseurs.foldl (fun h p => if p ∈ h.nodes then h.addEdge p t.id else h) g) g).edges ↔
      e ∈ g.edges ∨ ∃ t ∈ l, ∃ p ∈ t.predecesseurs, p ∈ g.nodes ∧ e = (p, t.id) := by
  induction l generalizing g with
  | nil => simp
  | cons t ts ih =>
      rw [List.foldl_cons]
      have hn := predFoldl_nodes t.predecesseurs t.id g (h t (by simp))
      rw [ih _ (fun t2 ht2 => by rw [hn]; exact h t2 (List.mem_cons_of_mem _ ht2))]
      rw [hn, predFoldl_mem_edges _ _ _ (h t (by simp))]
      constructor
      · rintro ((he | ⟨p, hp, hpn, rfl⟩) | ⟨t2, ht2, p, hp, hpn, rfl⟩)
        · exact Or.inl he
        · exact Or.inr ⟨t, by simp, p, hp, hpn, rfl⟩
        · exact Or.inr ⟨t2, List.mem_cons_of_mem _ ht2, p, hp, hpn, rfl⟩
      · rintro (he | ⟨t2, ht2, p, hp, hpn, rfl⟩)
        · exact Or.inl (Or.inl he)
        · rcases List.mem_cons.mp ht2 with rfl | ht2
          · exact Or.inl (Or.inr ⟨p, hp, hpn, rfl⟩)
          · exact Or.inr ⟨t2, ht2, p, hp, hpn, rfl⟩

theorem build_graph_mem_nodes (tasks : List FrTask) (v : Nat) :
    v ∈ (build_graph tasks).nodes ↔ ∃ t ∈ tasks, t.id = v := by
  unfold build_graph
  rw [edgeFoldl_nodes]
  · rw [foldl_addNode_mem]
    simp [eq_comm]
  · intro t ht
    rw [foldl_addNode_mem]
    exact Or.inr (List.mem_map.mpr ⟨t, ht, rfl⟩)

theorem build_graph_nodup (tasks : List FrTask) : (build_graph tasks).nodes.Nodup := by
  unfold build_graph
  rw [edgeFoldl_nodes]
  · exact foldl_addNode_nodup _ _ List.nodup_nil
  · intro t ht
    rw [foldl_addNode_mem]
    exact Or.inr (List.mem_map.mpr ⟨t, ht, rfl⟩)

theorem build_graph_mem_edges (tasks : List FrTask) (e : Nat × Nat) :
    e ∈ (build_graph tasks).edges ↔
      ∃ t ∈ tasks, ∃ p ∈ t.predecesseurs, (∃ t2 ∈ tasks, t2.id = p) ∧ e = (p, t.id) := by
  unfold build_graph
  have hids : ∀ t ∈ tasks,
      t.id ∈ (tasks.foldl (fun g t => g.addNode t.id) (⟨[], []⟩ : DG Nat)).nodes := by
    intro t ht
    rw [foldl_addNode_mem]
    exact Or.inr (List.mem_map.mpr ⟨t, ht, rfl⟩)
  rw [edgeFoldl_mem_edges _ _ hids, foldl_addNode_edges]
  simp only [List.not_mem_nil, false_or]
  constructor
  · rintro ⟨t, ht, p, hp, hpn, rfl⟩
    rw [foldl_addNode_mem] at hpn
    simp only [List.mem_map] at hpn
    rcases hpn with h | ⟨t2, ht2, rfl⟩
    · simp at h
    · exact ⟨t, ht, t2.id, hp, ⟨t2, ht2, rfl⟩, rfl⟩
  · rintro ⟨t, ht, p, hp, ⟨t2, ht2, rfl⟩, rfl⟩
    refine ⟨t, ht, t2.id, hp, ?_, rfl⟩
    rw [foldl_addNode_mem]
    exact Or.inr (List.mem_map.mpr ⟨t2, ht2, rfl⟩)

theorem build_graph_edge_mem_nodes (tasks : List FrTask) {e : Nat × Nat}
    (he : e ∈ (build_graph tasks).edges) :
    e.1 ∈ (build_graph tasks).nodes ∧ e.2 ∈ (build_graph tasks).nodes := by
  rw [build_graph_mem_edges] at he
  obtain ⟨t, ht, p, hp, ⟨t2, ht2, rfl⟩, rfl⟩ := he
  exact ⟨(build_graph_mem_nodes tasks _).mpr ⟨t2, ht2, rfl⟩,
         (build_graph_mem_nodes tasks _).mpr ⟨t, ht, rfl⟩⟩

end CriticalPathCalculator

/-! ## Lemmas: simple-cycle enumeration -/

namespace DG

variable {α : Type} [DecidableEq α]

theorem mem_cycleEdges {l : List α} {e : α × α} :
    e ∈ cycleEdges l ↔
      ∃ i, ∃ _ : i < l.length, l[i]? = some e.1 ∧ l[(i + 1) % l.length]? = some e.2 := by
  unfold cycleEdges
  have hlen : (l.zip (l.rotate 1)).length = l.length := by
    simp [List.length_zip, List.length_rotate]
  rw [List.mem_iff_getElem]
  constructor
  · rintro ⟨i, hi, he⟩
    have hi2 : i < l.length := hlen ▸ hi
    have hpos : 0 < l.length := Nat.lt_of_le_of_lt (Nat.zero_le i) hi2
    rw [List.getElem_zip] at he
    refine ⟨i, hi2, ?_, ?_⟩
    · rw [List.getElem?_eq_getElem hi2]
      exact congrArg some (congrArg Prod.fst he)
    · rw [List.getElem?_eq_getElem (Nat.mod_lt _ hpos)]
      have hrot := List.getElem_rotate l 1 i (by simpa [List.length_rotate] using hi2)
      rw [← hrot]
      exact congrArg some (congrArg Prod.snd he)
  · rintro ⟨i, hi, h1, h2⟩
    have hpos : 0 < l.length := Nat.lt_of_le_of_lt (Nat.zero_le i) hi
    refine ⟨i, by rw [hlen]; exact hi, ?_⟩
    rw [List.getElem_zip]
    rw [List.getElem?_eq_getElem hi] at h1
    rw [List.getElem?_eq_getElem (Nat.mod_lt _ hpos)] at h2
    have hrot := List.getElem_rotate l 1 i (by simpa [List.length_rotate] using hi)
    cases e
    simp only [Option.some.injEq] at h1 h2
    simp only [Prod.mk.injEq]
    exact ⟨h1, by rw [hrot]; exact h2⟩

theorem isCycle_eq_true_iff {g : DG α} {c : List α} :
    isCycle g c = true ↔ c ≠ [] ∧ ∀ e ∈ cycleEdges c, e ∈ g.edges := by
  unfold isCycle
  simp [List.isEmpty_iff, List.all_eq_true]

theorem cycleEdges_rotate_subset (l : List α) (k : Nat) :
    ∀ e ∈ cycleEdges (l.rotate k), e ∈ cycleEdges l := by
  intro e he
  rw [mem_cycleEdges] at he ⊢
  obtain ⟨i, hi, h1, h2⟩ := he
  rw [List.length_rotate] at hi h2
  have hpos : 0 < l.length := Nat.lt_of_le_of_lt (Nat.zero_le i) hi
  refine ⟨(i + k) % l.length, Nat.mod_lt _ hpos, ?_, ?_⟩
  · rw [List.getElem?_eq_getElem (Nat.mod_lt _ hpos)]
    rw [List.getElem?_eq_getElem (by rw [List.length_rotate]; exact hi)] at h1
    rw [List.getElem_rotate] at h1
    exact h1
  · have hj : (i + 1) % l.length < l.length := Nat.mod_lt _ hpos
    have hrot : (l.rotate k)[(i + 1) % l.length]? = l[((i + 1) % l.length + k) % l.length]? := by
      rw [List.getElem?_eq_getElem (by rw [List.length_rotate]; exact hj),
          List.getElem?_eq_getElem (Nat.mod_lt _ hpos), List.getElem_rotate]
    have hix : ((i + 1) % l.length + k) % l.length = ((i + k) % l.length + 1) % l.length := by
      rw [Nat.mod_add_mod, Nat.mod_add_mod]
      congr 1
      omega
    rw [hrot, hix] at h2
    exact h2

theorem rotate_back (l : List α) (k : Nat) : ∃ m, (l.rotate k).rotate m = l := by
  rcases Nat.eq_zero_or_pos l.length with h0 | hpos
  · have : l = [] := List.length_eq_zero.mp h0
    exact ⟨0, by simp [this]⟩
  · refine ⟨l.length - k % l.length, ?_⟩
    rw [List.rotate_rotate, ← List.rotate_mod]
    have hk : k % l.length ≤ l.length := le_of_lt (Nat.mod_lt _ hpos)
    have hmod : (k + (l.length - k % l.length)) % l.length = 0 := by
      conv_lhs => rw [← Nat.mod_add_mod]
      rw [Nat.add_sub_cancel' hk]
      exact Nat.mod_self _
    rw [hmod]
    exact List.rotate_zero l

end DG

namespace DG

variable {α : Type} [DecidableEq α]

theorem isCycle_rotate {g : DG α} (l : List α) (k : Nat) :
    isCycle g (l.rotate k) = true ↔ isCycle g l = true := by
  obtain ⟨m, hm⟩ := rotate_back l k
  rw [isCycle_eq_true_iff, isCycle_eq_true_iff]
  constructor
  · rintro ⟨hne, hall⟩
    refine ⟨fun h => hne (by simp [h]), ?_⟩
    intro e he
    apply hall
    rw [← hm] at he
    exact cycleEdges_rotate_subset _ m e he
  · rintro ⟨hne, hall⟩
    refine ⟨fun h => hne ?_, ?_⟩
    · rw [← hm, h]
      simp
    · intro e he
      exact hall e (cycleEdges_rotate_subset l k e he)

/-- Any list that is not duplicate-free splits around a repeated element. -/
theorem exists_dup_decomp {l : List α} (h : ¬ l.Nodup) :
    ∃ (p : List α) (y : α) (q r : List α), l = p ++ y :: q ++ y :: r := by
  induction l with
  | nil => simp at h
  | cons a l ih =>
      by_cases ha : a ∈ l
      · obtain ⟨q, r, rfl⟩ := List.append_of_mem ha
        exact ⟨[], a, q, r, rfl⟩
      · have hl : ¬ l.Nodup := fun hn => h (List.nodup_cons.mpr ⟨ha, hn⟩)
        obtain ⟨p, y, q, r, rfl⟩ := ih hl
        exact ⟨a :: p, y, q, r, rfl⟩

theorem zip_append_left {β : Type} (a : List α) (b : List β) (c : List α)
    (h : b.length ≤ a.length) : (a ++ c).zip b = a.zip b := by
  induction b generalizing a with
  | nil => simp
  | cons y ys ih =>
      cases a with
      | nil => simp at h
      | cons x xs =>
          simp only [List.cons_append, List.zip_cons_cons]
          rw [ih xs (by simpa using h)]

theorem chain'_iff_forall_zip_tail {R : α → α → Prop} :
    ∀ {l : List α}, List.Chain' R l ↔ ∀ p ∈ l.zip l.tail, R p.1 p.2
  | [] => by simp
  | [a] => by simp
  | a :: b :: t => by
      rw [List.chain'_cons, @chain'_iff_forall_zip_tail _ (b :: t)]
      simp only [List.tail_cons, List.zip_cons_cons, List.mem_cons]
      constructor
      · rintro ⟨hab, h⟩ p hp
        rcases hp with rfl | hp
        · exact hab
        · exact h p hp
      · intro h
        exact ⟨h (a, b) (Or.inl rfl), fun p hp => h p (Or.inr hp)⟩

/-- The node list of a closed walk `x :: m ++ [x]` read as a cycle has all
its wrap-around edges in the graph. -/
theorem isCycle_of_chain {g : DG α} (x : α) (m : List α)
    (hch : List.Chain' (fun a b => (a, b) ∈ g.edges) (x :: m ++ [x])) :
    isCycle g (x :: m) = true := by
  rw [isCycle_eq_true_iff]
  refine ⟨by simp, ?_⟩
  intro e he
  have hz := chain'_iff_forall_zip_tail.mp hch
  have h1 : cycleEdges (x :: m) = (x :: m).zip (m ++ [x]) := by
    unfold cycleEdges
    congr 1
    rw [List.rotate_eq_drop_append_take (by simp)]
    simp
  have h2 : ((x :: m) ++ [x]).zip (m ++ [x]) = (x :: m).zip (m ++ [x]) :=
    zip_append_left _ _ _ (by simp)
  exact hz e (by
    show e ∈ (x :: m ++ [x]).zip (m ++ [x])
    rw [show (x :: m ++ [x] : List α) = (x :: m) ++ [x] from rfl, h2, ← h1]
    exact he)

/-- A closed walk contains a simple cycle over its own nodes. -/
theorem cycle_of_closed_walk {g : DG α} :
    ∀ (n : Nat) (m : List α) (x : α), m.length ≤ n →
      List.Chain' (fun a b => (a, b) ∈ g.edges) (x :: m ++ [x]) →
      ∃ c, c ≠ [] ∧ c.Nodup ∧ (∀ y ∈ c, y ∈ x :: m) ∧ isCycle g c = true := by
  intro n
  induction n with
  | zero =>
      intro m x hm hch
      have hm0 : m = [] := List.length_eq_zero.mp (Nat.le_zero.mp hm)
      subst hm0
      exact ⟨[x], by simp, by simp, by simp, isCycle_of_chain x [] hch⟩
  | succ n ih =>
      intro m x hm hch
      by_cases hdup : (x :: m).Nodup
      · exact ⟨x :: m, by simp, hdup, fun y hy => hy, isCycle_of_chain x m hch⟩
      · obtain ⟨p, y, q, r, hd⟩ := exists_dup_decomp hdup
        have hw : (x :: m ++ [x] : List α) = p ++ ((y :: q) ++ ((y :: r) ++ [x])) := by
          rw [show (x :: m ++ [x] : List α) = (x :: m) ++ [x] from rfl, hd]
          simp
        have hsub : List.Chain' (fun a b => (a, b) ∈ g.edges) ((y :: q) ++ [y]) := by
          rw [hw] at hch
          have h2 := hch.right_of_append
          rw [List.chain'_append] at h2
          rw [List.chain'_append]
          refine ⟨h2.1, by simp, ?_⟩
          intro a ha b hb
          simp only [List.head?_cons, Option.mem_def, Option.some.injEq] at hb
          subst hb
          exact h2.2.2 a ha y (by simp)
        have hql : q.length ≤ n := by
          have hlen := congrArg List.length hd
          simp only [List.length_cons, List.length_append] at hlen
          omega
        obtain ⟨c, hc1, hc2, hc3, hc4⟩ := ih q y hql (by simpa using hsub)
        refine ⟨c, hc1, hc2, ?_, hc4⟩
        intro z hz
        have hzy := hc3 z hz
        rw [hd]
        simp only [List.mem_cons, List.mem_append] at hzy ⊢
        tauto

end DG

namespace DG

variable {α : Type} [DecidableEq α]

theorem head?_rotate_indexOf {l : List α} {h : α} (hmem : h ∈ l) :
    (l.rotate (l.indexOf h)).head? = some h := by
  have hk : l.indexOf h < l.length := List.indexOf_lt_length.mpr hmem
  rw [List.rotate_eq_drop_append_take (le_of_lt hk)]
  rw [List.drop_eq_getElem_cons hk]
  simp [List.getElem_indexOf]

/-- Completeness of the enumeration: every simple cycle of the graph has a
rotation listed by `simple_cycles`. -/
theorem mem_insertAll_of_split (x : α) :
    ∀ (s t : List α), (s ++ x :: t) ∈ insertAll x (s ++ t) := by
  intro s
  induction s with
  | nil =>
      intro t
      cases t with
      | nil => simp [insertAll]
      | cons y ys => simp [insertAll]
  | cons y s ih =>
      intro t
      show (y :: (s ++ x :: t)) ∈ insertAll x (y :: (s ++ t))
      unfold insertAll
      apply List.mem_cons_of_mem
      exact List.mem_map.mpr ⟨s ++ x :: t, ih t, rfl⟩

theorem mem_perms_of_perm :
    ∀ (l2 l : List α), l.Perm l2 → l ∈ perms l2 := by
  intro l2
  induction l2 with
  | nil =>
      intro l h
      rw [h.eq_nil]
      simp [perms]
  | cons x xs ih =>
      intro l h
      have hx : x ∈ l := h.mem_iff.mpr (List.mem_cons_self _ _)
      obtain ⟨s, t, rfl⟩ := List.append_of_mem hx
      have h2 : (x :: (s ++ t)).Perm (x :: xs) := List.perm_middle.symm.trans h
      have hperm : (s ++ t).Perm xs := h2.cons_inv
      show (s ++ x :: t) ∈ perms (x :: xs)
      unfold perms
      exact List.mem_flatMap.mpr ⟨s ++ t, ih (s ++ t) hperm, mem_insertAll_of_split x s t⟩

theorem mem_simple_cycles_of_cycle {g : DG α} (hnd : g.nodes.Nodup) {c : List α}
    (hne : c ≠ []) (hcd : c.Nodup) (hsub : ∀ x ∈ c, x ∈ g.nodes)
    (hcy : isCycle g c = true) :
    ∃ c', c' ∈ g.simple_cycles ∧ c'.Perm c := by
  have hSsub : ∀ x ∈ g.nodes.filter (fun x => decide (x ∈ c)), x ∈ c := by
    intro x hx
    simpa using (List.mem_filter.mp hx).2
  have hcS : ∀ x ∈ c, x ∈ g.nodes.filter (fun x => decide (x ∈ c)) := by
    intro x hx
    exact List.mem_filter.mpr ⟨hsub x hx, by simpa⟩
  have hSne : g.nodes.filter (fun x => decide (x ∈ c)) ≠ [] := by
    obtain ⟨x, hx⟩ := List.exists_mem_of_ne_nil c hne
    intro h0
    exact absurd (hcS x hx) (by simp [h0])
  have hSnd : (g.nodes.filter (fun x => decide (x ∈ c))).Nodup := List.Nodup.filter _ hnd
  have hperm : (g.nodes.filter (fun x => decide (x ∈ c))).Perm c :=
    (List.Nodup.subperm hSnd hSsub).antisymm (List.Nodup.subperm hcd hcS)
  obtain ⟨h0, tS, hSeq⟩ := List.exists_cons_of_ne_nil hSne
  have hh0c : h0 ∈ c := hSsub h0 (by rw [hSeq]; simp)
  have hc'perm : (c.rotate (c.indexOf h0)).Perm c := List.rotate_perm c _
  have hc'head : (c.rotate (c.indexOf h0)).head? = some h0 := head?_rotate_indexOf hh0c
  have hc'ne : c.rotate (c.indexOf h0) ≠ [] := by
    intro h
    rw [h] at hc'head
    simp at hc'head
  obtain ⟨h1, tc, hceq⟩ := List.exists_cons_of_ne_nil hc'ne
  have hh1 : h1 = h0 := by
    rw [hceq] at hc'head
    simpa using hc'head
  rw [hh1] at hceq
  have htperm : tc.Perm tS := by
    have hcc : (h0 :: tc).Perm (h0 :: tS) := by
      rw [← hceq, ← hSeq]
      exact hc'perm.trans hperm.symm
    exact hcc.cons_inv
  refine ⟨c.rotate (c.indexOf h0), ?_, hc'perm⟩
  unfold simple_cycles
  rw [List.mem_flatMap]
  refine ⟨h0 :: tS, ?_, ?_⟩
  · rw [← hSeq]
    exact List.mem_sublists.mpr (List.filter_sublist _)
  · show c.rotate (c.indexOf h0) ∈
      ((perms tS).map (fun p => h0 :: p)).filter (fun c2 => isCycle g c2)
    rw [List.mem_filter]
    constructor
    · rw [List.mem_map]
      exact ⟨tc, mem_perms_of_perm tS tc htperm, hceq.symm⟩
    · exact (isCycle_rotate c _).mpr hcy

theorem no_cycle_of_simple_cycles_nil {g : DG α} (hg : g.simple_cycles = [])
    (hnd : g.nodes.Nodup) {c : List α} (hne : c ≠ []) (hcd : c.Nodup)
    (hsub : ∀ x ∈ c, x ∈ g.nodes) : isCycle g c ≠ true := by
  intro hcy
  obtain ⟨c', hc', _⟩ := mem_simple_cycles_of_cycle hnd hne hcd hsub hcy
  rw [hg] at hc'
  simp at hc'

/-- In a graph with no simple cycles every edge walk visits distinct nodes. -/
theorem nodup_of_chain' {g : DG α} (hg : g.simple_cycles = []) (hnd : g.nodes.Nodup)
    {l : List α} (hsub : ∀ x ∈ l, x ∈ g.nodes)
    (hch : List.Chain' (fun a b => (a, b) ∈ g.edges) l) : l.Nodup := by
  by_contra hdup
  obtain ⟨p, y, q, r, hd⟩ := exists_dup_decomp hdup
  have hw : l = p ++ ((y :: q) ++ (y :: r)) := by rw [hd]; simp
  have hsubch : List.Chain' (fun a b => (a, b) ∈ g.edges) ((y :: q) ++ [y]) := by
    rw [hw] at hch
    have h2 := hch.right_of_append
    rw [List.chain'_append] at h2
    rw [List.chain'_append]
    refine ⟨h2.1, by simp, ?_⟩
    intro a ha b hb
    simp only [List.head?_cons, Option.mem_def, Option.some.injEq] at hb
    subst hb
    exact h2.2.2 a ha y (by simp)
  obtain ⟨c, hc1, hc2, hc3, hc4⟩ :=
    cycle_of_closed_walk q.length q y (le_refl _) (by simpa using hsubch)
  have hcsub : ∀ x ∈ c, x ∈ g.nodes := by
    intro x hx
    apply hsub
    have hm := hc3 x hx
    rw [hd]
    simp only [List.mem_cons, List.mem_append] at hm ⊢
    tauto
  exact no_cycle_of_simple_cycles_nil hg hnd hc1 hc2 hcsub hc4

end DG

/-! ## Lemmas: Kahn topological sort -/

namespace DG

variable {α : Type} [DecidableEq α]

theorem topoAux_perm {g : DG α} :
    ∀ (fuel : Nat) (remaining ord : List α),
      topoAux g fuel remaining = some ord → ord.Perm remaining := by
  intro fuel
  induction fuel with
  | zero =>
      intro rem ord h
      unfold topoAux at h
      split at h
      · rename_i hre
        cases h
        simpa [List.isEmpty_iff.mp hre] using List.Perm.refl _
      · cases h
  | succ n ih =>
      intro rem ord h
      unfold topoAux at h
      cases hfind : rem.find? (noIncomingFrom g rem) with
      | some v =>
          simp only [hfind] at h
          cases hrec : topoAux g n (rem.erase v) with
          | some l =>
              rw [hrec] at h
              simp only [Option.map_some'] at h
              cases h
              have hv : v ∈ rem := List.mem_of_find?_eq_some hfind
              exact (List.Perm.cons v (ih _ _ hrec)).trans (List.perm_cons_erase hv).symm
          | none => rw [hrec] at h; cases h
      | none =>
          simp only [hfind] at h
          split at h
          · rename_i hre
            cases h
            simpa [List.isEmpty_iff.mp hre] using List.Perm.refl _
          · cases h

theorem topoSort_perm {g : DG α} {ord : List α} (h : topoSort g = some ord) :
    ord.Perm g.nodes :=
  topoAux_perm _ _ _ h

theorem topoAux_edge_order {g : DG α} :
    ∀ (fuel : Nat) (remaining ord : List α),
      topoAux g fuel remaining = some ord →
      ∀ u v, (u, v) ∈ g.edges → u ∈ remaining →
        ∀ l1 l2, ord = l1 ++ v :: l2 → u ∈ l1 := by
  intro fuel
  induction fuel with
  | zero =>
      intro rem ord h u v hedge hu l1 l2 hsplit
      unfold topoAux at h
      split at h
      · rename_i hre
        cases h
        exact absurd hsplit.symm (by simp)
      · cases h
  | succ n ih =>
      intro rem ord h u v hedge hu l1 l2 hsplit
      unfold topoAux at h
      cases hfind : rem.find? (noIncomingFrom g rem) with
      | some w =>
          simp only [hfind] at h
          cases hrec : topoAux g n (rem.erase w) with
          | some l =>
              rw [hrec] at h
              simp only [Option.map_some'] at h
              cases h
              have hwno : noIncomingFrom g rem w = true := List.find?_some hfind
              cases l1 with
              | nil =>
                  -- then v = w, but w has no incoming edge from remaining
                  simp only [List.nil_append, List.cons.injEq] at hsplit
                  obtain ⟨rfl, rfl⟩ := hsplit
                  unfold noIncomingFrom at hwno
                  simp only [List.all_eq_true, decide_eq_true_eq] at hwno
                  exact absurd hedge (hwno u hu)
              | cons w1 l1t =>
                  simp only [List.cons_append, List.cons.injEq] at hsplit
                  obtain ⟨rfl, hl⟩ := hsplit
                  by_cases huw : u = w
                  · simp [huw]
                  · have hur : u ∈ rem.erase w := (List.mem_erase_of_ne huw).mpr hu
                    exact List.mem_cons_of_mem _ (ih _ _ hrec u v hedge hur l1t l2 hl)
          | none => rw [hrec] at h; cases h
      | none =>
          simp only [hfind] at h
          split at h
          · rename_i hre
            cases h
            have : (l1 ++ v :: l2 : List α) = [] := hsplit.symm.trans rfl
            simp at this
          · cases h

theorem topoSort_edge_before {g : DG α} {ord : List α} (h : topoSort g = some ord)
    {u v : α} (he : (u, v) ∈ g.edges) (hu : u ∈ g.nodes) {l1 l2 : List α}
    (hsplit : ord = l1 ++ v :: l2) : u ∈ l1 :=
  topoAux_edge_order _ _ _ h u v he hu l1 l2 hsplit

theorem topoAux_isSome {g : DG α} (hg : g.simple_cycles = []) (hnd : g.nodes.Nodup) :
    ∀ (fuel : Nat) (remaining : List α), remaining.Nodup →
      (∀ x ∈ remaining, x ∈ g.nodes) → remaining.length ≤ fuel →
      (topoAux g fuel remaining).isSome := by
  intro fuel
  induction fuel with
  | zero =>
      intro rem hnd2 hsub hlen
      have : rem = [] := List.length_eq_zero.mp (Nat.le_zero.mp hlen)
      simp [topoAux, this]
  | succ n ih =>
      intro rem hnd2 hsub hlen
      unfold topoAux
      cases hfind : rem.find? (noIncomingFrom g rem) with
      | some v =>
          have hv : v ∈ rem := List.mem_of_find?_eq_some hfind
          have hrec := ih (rem.erase v) (hnd2.erase v)
            (fun x hx => hsub x (List.mem_of_mem_erase hx))
            (by rw [List.length_erase_of_mem hv]; omega)
          simp only [hfind]
          simpa using hrec
      | none =>
          by_cases hrm : rem = []
          · simp [hfind, hrm]
          · exfalso
            have hstall : ∀ v ∈ rem, ∃ u ∈ rem, (u, v) ∈ g.edges := by
              intro v hv
              have hf := List.find?_eq_none.mp hfind v hv
              unfold noIncomingFrom at hf
              simp only [List.all_eq_true, decide_eq_true_eq] at hf
              push_neg at hf
              exact hf
            obtain ⟨v0, hv0⟩ := List.exists_mem_of_ne_nil rem hrm
            have hwalk : ∀ k : Nat, ∃ w : List α, w.length = k + 1 ∧
                List.Chain' (fun a b => (a, b) ∈ g.edges) w ∧ ∀ x ∈ w, x ∈ rem := by
              intro k
              induction k with
              | zero => exact ⟨[v0], rfl, by simp, by simpa using hv0⟩
              | succ k ihw =>
                  obtain ⟨w, hwl, hwc, hwsub⟩ := ihw
                  have hwne : w ≠ [] := by intro h0; rw [h0] at hwl; simp at hwl
                  obtain ⟨h1, t1, rfl⟩ := List.exists_cons_of_ne_nil hwne
                  obtain ⟨u, hu, hedge⟩ := hstall h1 (hwsub h1 (by simp))
                  refine ⟨u :: h1 :: t1, ?_, List.chain'_cons.mpr ⟨hedge, hwc⟩, ?_⟩
                  · simp only [List.length_cons] at hwl ⊢
                    omega
                  · intro x hx
                    rcases List.mem_cons.mp hx with rfl | hx
                    · exact hu
                    · exact hwsub x hx
            obtain ⟨w, hwl, hwc, hwsub⟩ := hwalk rem.length
            have hwnd : w.Nodup :=
              nodup_of_chain' hg hnd (fun x hx => hsub x (hwsub x hx)) hwc
            have hle : w.length ≤ rem.length :=
              (List.Nodup.subperm hwnd (fun x hx => hwsub x hx)).length_le
            omega

/-- Kahn's algorithm succeeds on a graph without simple cycles. -/
theorem topoSort_isSome_of_no_cycles {g : DG α} (hg : g.simple_cycles = [])
    (hnd : g.nodes.Nodup) : ∃ ord, topoSort g = some ord := by
  have := topoAux_isSome hg hnd g.nodes.length g.nodes hnd (fun x hx => hx) (le_refl _)
  unfold topoSort
  exact Option.isSome_iff_exists.mp this

end DG

/-! ## Lemmas: simple-path enumeration -/

namespace DG

variable {α : Type} [DecidableEq α]

theorem getLast?_cons_of_ne_nil {a : α} {l : List α} (h : l ≠ []) :
    (a :: l).getLast? = l.getLast? := by
  cases l with
  | nil => exact absurd rfl h
  | cons b t => simp [List.getLast?_cons_cons]

theorem spAux_sound {g : DG α} {t : α} :
    ∀ (fuel : Nat) (u : α) (visited p : List α), p ∈ spAux g t fuel u visited →
      p.head? = some u ∧ p.getLast? = some t ∧
        List.Chain' (fun a b => (a, b) ∈ g.edges) p := by
  intro fuel
  induction fuel with
  | zero => intro u visited p h; simp [spAux] at h
  | succ n ih =>
      intro u visited p h
      unfold spAux at h
      by_cases hut : u = t
      · rw [if_pos hut] at h
        simp only [List.mem_singleton] at h
        subst h
        simp [hut]
      · rw [if_neg hut] at h
        rw [List.mem_flatMap] at h
        obtain ⟨v, hv, hp⟩ := h
        rw [List.mem_map] at hp
        obtain ⟨q, hq, rfl⟩ := hp
        obtain ⟨hq1, hq2, hq3⟩ := ih v (u :: visited) q hq
        have hqne : q ≠ [] := by
          intro h0
          rw [h0] at hq1
          simp at hq1
        have hedge : (u, v) ∈ g.edges := by
          have := (List.mem_filter.mp hv).1
          exact mem_successors.mp this
        refine ⟨by simp, ?_, ?_⟩
        · rw [getLast?_cons_of_ne_nil hqne]
          exact hq2
        · rw [List.chain'_cons']
          refine ⟨?_, hq3⟩
          intro y hy
          rw [hq1] at hy
          simp only [Option.mem_def, Option.some.injEq] at hy
          subst hy
          exact hedge
  
theorem spAux_complete {g : DG α} {t : α} :
    ∀ (fuel : Nat) (p : List α) (u : α) (visited : List α),
      p.head? = some u → p.getLast? = some t →
      List.Chain' (fun a b => (a, b) ∈ g.edges) p → p.Nodup →
      (∀ x ∈ p, x ∉ visited) → p.length ≤ fuel →
      p ∈ spAux g t fuel u visited := by
  intro fuel
  induction fuel with
  | zero =>
      intro p u visited h1 _ _ _ _ hlen
      have : p = [] := List.length_eq_zero.mp (Nat.le_zero.mp hlen)
      rw [this] at h1
      simp at h1
  | succ n ih =>
      intro p u visited h1 h2 h3 h4 h5 hlen
      cases p with
      | nil => simp at h1
      | cons u2 rest =>
      have hu2 : u2 = u := by simpa using h1
      subst hu2
      unfold spAux
      by_cases hut : u2 = t
      · rw [if_pos hut]
        subst hut
        -- a simple path from u2 ending at u2 must be the trivial one
        cases rest with
        | nil => simp
        | cons b rb =>
            exfalso
            have hmem : u2 ∈ b :: rb := by
              have := h2
              rw [getLast?_cons_of_ne_nil (by simp)] at this
              exact List.mem_of_mem_getLast? this
            exact (List.nodup_cons.mp h4).1 hmem
      · rw [if_neg hut]
        cases rest with
        | nil =>
            exfalso
            apply hut
            simpa using h2
        | cons v rb =>
            rw [List.mem_flatMap]
            refine ⟨v, ?_, ?_⟩
            · rw [List.mem_filter]
              constructor
              · exact mem_successors.mpr (List.chain'_cons.mp h3).1
              · have hvne : v ≠ u2 := by
                  intro h0
                  exact (List.nodup_cons.mp h4).1 (h0 ▸ List.mem_cons_self v rb)
                have hvnv : v ∉ visited := h5 v (by simp)
                simp [hvne, hvnv]
            · rw [List.mem_map]
              refine ⟨v :: rb, ?_, rfl⟩
              apply ih
              · simp
              · rw [getLast?_cons_of_ne_nil (by simp)] at h2
                exact h2
              · exact (List.chain'_cons.mp h3).2
              · exact (List.nodup_cons.mp h4).2
              · intro x hx
                rcases List.mem_cons.mp hx with rfl | hx2
                · intro hc
                  rcases List.mem_cons.mp hc with h0 | h0
                  · exact (List.nodup_cons.mp h4).1 (h0 ▸ List.mem_cons_self x rb)
                  · exact h5 x (by simp) h0
                · intro hc
                  rcases List.mem_cons.mp hc with h0 | h0
                  · exact (List.nodup_cons.mp h4).1 (h0 ▸ List.mem_cons_of_mem _ hx2)
                  · exact h5 x (List.mem_cons_of_mem _ (List.mem_cons_of_mem _ hx2)) h0
              · simpa using Nat.le_of_succ_le_succ hlen

theorem all_simple_paths_sound {g : DG α} {s t : α} {p : List α}
    (h : p ∈ all_simple_paths g s t) :
    p.head? = some s ∧ p.getLast? = some t ∧
      List.Chain' (fun a b => (a, b) ∈ g.edges) p := by
  unfold all_simple_paths at h
  split at h
  · exact spAux_sound _ _ _ _ h
  · simp at h

theorem all_simple_paths_complete {g : DG α} {s t : α} {p : List α}
    (hs : s ∈ g.nodes) (ht : t ∈ g.nodes)
    (hsub : ∀ x ∈ p, x ∈ g.nodes)
    (h1 : p.head? = some s) (h2 : p.getLast? = some t)
    (h3 : List.Chain' (fun a b => (a, b) ∈ g.edges) p) (h4 : p.Nodup) :
    p ∈ all_simple_paths g s t := by
  unfold all_simple_paths
  rw [if_pos ⟨hs, ht⟩]
  apply spAux_complete _ _ _ _ h1 h2 h3 h4 (by simp)
  have hsp : p.Subperm g.nodes := List.Nodup.subperm h4 hsub
  exact hsp.length_le

end DG

/-! ## Lemmas: task map and bookkeeping -/

theorem firstDedupAux_fuel {α : Type} [DecidableEq α] :
    ∀ (n : Nat) (l : List α) (m : Nat), l.length ≤ n → l.length ≤ m →
      firstDedupAux n l = firstDedupAux m l := by
  intro n
  induction n with
  | zero =>
      intro l m hn _
      have : l = [] := List.length_eq_zero.mp (Nat.le_zero.mp hn)
      subst this
      cases m <;> rfl
  | succ n ih =>
      intro l m hn hm
      cases l with
      | nil => cases m <;> rfl
      | cons x xs =>
          cases m with
          | zero => simp at hm
          | succ m =>
              show x :: firstDedupAux n (xs.filter (fun y => y ≠ x)) =
                x :: firstDedupAux m (xs.filter (fun y => y ≠ x))
              have h1 := List.length_filter_le (fun y => decide (y ≠ x)) xs
              simp only [List.length_cons] at hn hm
              congr 1
              exact ih _ m (by omega) (by omega)

theorem firstDedup_nil {α : Type} [DecidableEq α] : firstDedup ([] : List α) = [] := rfl

theorem firstDedup_cons {α : Type} [DecidableEq α] (x : α) (xs : List α) :
    firstDedup (x :: xs) = x :: firstDedup (xs.filter (fun y => y ≠ x)) := by
  show x :: firstDedupAux xs.length (xs.filter (fun y => y ≠ x)) = _
  congr 1
  exact firstDedupAux_fuel xs.length _ _ (List.length_filter_le _ _) (le_refl _)

theorem mem_firstDedup_aux {α : Type} [DecidableEq α] :
    ∀ (n : Nat) (l : List α), l.length ≤ n → ∀ x, (x ∈ firstDedup l ↔ x ∈ l) := by
  intro n
  induction n with
  | zero =>
      intro l hl x
      have : l = [] := List.length_eq_zero.mp (Nat.le_zero.mp hl)
      subst this
      rw [firstDedup_nil]
  | succ n ih =>
      intro l hl x
      cases l with
      | nil => rw [firstDedup_nil]
      | cons a t =>
          rw [firstDedup_cons]
          simp only [List.mem_cons]
          have hlen : (t.filter (fun y => y ≠ a)).length ≤ n := by
            have h1 := List.length_filter_le (fun y => y ≠ a) t
            simp only [List.length_cons] at hl
            omega
          constructor
          · rintro (rfl | hx)
            · exact Or.inl rfl
            · exact Or.inr (List.mem_of_mem_filter ((ih _ hlen x).mp hx))
          · rintro (rfl | hx)
            · exact Or.inl rfl
            · by_cases hxa : x = a
              · exact Or.inl hxa
              · exact Or.inr ((ih _ hlen x).mpr
                  (List.mem_filter.mpr ⟨hx, by simpa using hxa⟩))

theorem mem_firstDedup {α : Type} [DecidableEq α] (l : List α) (x : α) :
    x ∈ firstDedup l ↔ x ∈ l :=
  mem_firstDedup_aux l.length l (le_refl _) x

theorem nodup_firstDedup_aux {α : Type} [DecidableEq α] :
    ∀ (n : Nat) (l : List α), l.length ≤ n → (firstDedup l).Nodup := by
  intro n
  induction n with
  | zero =>
      intro l hl
      have : l = [] := List.length_eq_zero.mp (Nat.le_zero.mp hl)
      subst this
      rw [firstDedup_nil]
      simp
  | succ n ih =>
      intro l hl
      cases l with
      | nil => rw [firstDedup_nil]; simp
      | cons a t =>
          rw [firstDedup_cons]
          rw [List.nodup_cons]
          have hlen : (t.filter (fun y => y ≠ a)).length ≤ n := by
            have h1 := List.length_filter_le (fun y => y ≠ a) t
            simp only [List.length_cons] at hl
            omega
          refine ⟨?_, ih _ hlen⟩
          intro ha
          have h2 := List.mem_filter.mp ((mem_firstDedup _ _).mp ha)
          simp at h2

theorem nodup_firstDedup {α : Type} [DecidableEq α] (l : List α) :
    (firstDedup l).Nodup :=
  nodup_firstDedup_aux l.length l (le_refl _)

namespace CriticalPathCalculator

theorem mem_tmKeys (tasks : List FrTask) (v : Nat) :
    v ∈ tmKeys tasks ↔ ∃ t ∈ tasks, t.id = v := by
  unfold tmKeys
  rw [mem_firstDedup]
  simp [List.mem_map, eq_comm]

theorem tmKeys_nodup (tasks : List FrTask) : (tmKeys tasks).Nodup :=
  nodup_firstDedup _

theorem tmLookup_isSome_iff (tasks : List FrTask) (v : Nat) :
    (tmLookup tasks v).isSome ↔ ∃ t ∈ tasks, t.id = v := by
  unfold tmLookup
  rw [List.find?_isSome]
  constructor
  · rintro ⟨t, ht, hp⟩
    exact ⟨t, List.mem_reverse.mp ht, by simpa using hp⟩
  · rintro ⟨t, ht, hp⟩
    exact ⟨t, List.mem_reverse.mpr ht, by simpa using hp⟩

theorem mem_nodes_iff_tmKeys (tasks : List FrTask) (v : Nat) :
    v ∈ (build_graph tasks).nodes ↔ v ∈ tmKeys tasks := by
  rw [build_graph_mem_nodes, mem_tmKeys]

theorem effectiveGraph_of_acyclic {tasks : List FrTask}
    (h : DG.simple_cycles (build_graph tasks) = []) :
    effectiveGraph tasks = build_graph tasks := by
  unfold effectiveGraph
  simp only [h, List.foldl_nil]

theorem durOf_eq {tasks : List FrTask} {v : Nat} {t : FrTask}
    (h : tmLookup tasks v = some t) : durOf tasks v = t.duree_estimee := by
  unfold durOf
  rw [h]

/-- The first-maximum selection of Python's `max` as a fold. -/
theorem max_fold_spec (p : List Nat × Nat) (ps : List (List Nat × Nat)) :
    (ps.foldl (fun best q => if q.2 > best.2 then q else best) p) ∈ p :: ps ∧
    p.2 ≤ (ps.foldl (fun best q => if q.2 > best.2 then q else best) p).2 ∧
    ∀ q ∈ ps, q.2 ≤ (ps.foldl (fun best q => if q.2 > best.2 then q else best) p).2 := by
  induction ps generalizing p with
  | nil => exact ⟨by simp, le_refl _, by simp⟩
  | cons q ps ih =>
      rw [List.foldl_cons]
      by_cases hq : q.2 > p.2
      · rw [if_pos hq]
        obtain ⟨h1, h2, h3⟩ := ih q
        refine ⟨?_, le_trans (le_of_lt hq) h2, ?_⟩
        · rcases List.mem_cons.mp h1 with h | h
          · rw [h]; simp
          · exact List.mem_cons_of_mem _ (List.mem_cons_of_mem _ h)
        · intro r hr
          rcases List.mem_cons.mp hr with rfl | hr
          · exact h2
          · exact h3 r hr
      · rw [if_neg hq]
        obtain ⟨h1, h2, h3⟩ := ih p
        refine ⟨?_, h2, ?_⟩
        · rcases List.mem_cons.mp h1 with h | h
          · rw [h]; simp
          · exact List.mem_cons_of_mem _ (List.mem_cons_of_mem _ h)
        · intro r hr
          rcases List.mem_cons.mp hr with rfl | hr
          · exact le_trans (Nat.le_of_not_lt hq) h2
          · exact h3 r hr

end CriticalPathCalculator


/-! ## Lemmas: earliest/latest-start folds -/

theorem lookup_append_some {β : Type} {l tl : List (Nat × β)} {v : Nat} {e : β}
    (h : l.lookup v = some e) : (l ++ tl).lookup v = some e := by
  induction l with
  | nil => simp [List.lookup] at h
  | cons p l ih =>
      obtain ⟨k, b⟩ := p
      rw [List.cons_append]
      simp only [List.lookup] at h ⊢
      cases hb : (v == k) with
      | true => rw [hb] at h; simpa using h
      | false => rw [hb] at h; simp only at h ⊢; exact ih h

theorem lookup_append_none {β : Type} {l : List (Nat × β)} (tl : List (Nat × β)) {v : Nat}
    (h : l.lookup v = Option.none) : (l ++ tl).lookup v = tl.lookup v := by
  induction l with
  | nil => simp
  | cons p l ih =>
      obtain ⟨k, b⟩ := p
      rw [List.cons_append]
      simp only [List.lookup] at h ⊢
      cases hb : (v == k) with
      | true => rw [hb] at h; simp at h
      | false => rw [hb] at h; simp only at h ⊢; exact ih h

theorem lookup_singleton_same {β : Type} (v : Nat) (e : β) :
    ([(v, e)] : List (Nat × β)).lookup v = some e := by
  simp [List.lookup]

namespace CriticalPathCalculator

theorem esStep_eq_of_some {tasks : List FrTask} (g : DG Nat)
    {v : Nat} {t : FrTask} (h : tmLookup tasks v = some t) (es : List (Nat × Int)) :
    esStep tasks g es v = es ++ [(v, esVal tasks g es v)] := by
  unfold esStep
  rw [h]

theorem esStep_eq_of_none {tasks : List FrTask} (g : DG Nat)
    {v : Nat} (h : tmLookup tasks v = Option.none) (es : List (Nat × Int)) :
    esStep tasks g es v = es := by
  unfold esStep
  rw [h]

theorem esFold_ext (tasks : List FrTask) (g : DG Nat) :
    ∀ (l : List Nat) (acc : List (Nat × Int)),
      ∃ tl, l.foldl (esStep tasks g) acc = acc ++ tl := by
  intro l
  induction l with
  | nil => exact fun acc => ⟨[], by simp⟩
  | cons v l ih =>
      intro acc
      rw [List.foldl_cons]
      cases h : tmLookup tasks v with
      | none => rw [esStep_eq_of_none g h]; exact ih acc
      | some t =>
          rw [esStep_eq_of_some g h]
          obtain ⟨tl, htl⟩ := ih (acc ++ [(v, esVal tasks g acc v)])
          exact ⟨[(v, esVal tasks g acc v)] ++ tl, by rw [htl, List.append_assoc]⟩

theorem esFold_lookup_none (tasks : List FrTask) (g : DG Nat) :
    ∀ (l : List Nat) (acc : List (Nat × Int)) (v : Nat), v ∉ l →
      acc.lookup v = Option.none →
      (l.foldl (esStep tasks g) acc).lookup v = Option.none := by
  intro l
  induction l with
  | nil => intro acc v _ h; simpa using h
  | cons u l ih =>
      intro acc v hv hacc
      rw [List.foldl_cons]
      have hvu : v ≠ u := by intro h; exact hv (h ▸ List.mem_cons_self u l)
      have hvl : v ∉ l := fun h => hv (List.mem_cons_of_mem _ h)
      apply ih _ _ hvl
      cases h : tmLookup tasks u with
      | none => rw [esStep_eq_of_none g h]; exact hacc
      | some t =>
          rw [esStep_eq_of_some g h]
          rw [lookup_append_none _ hacc]
          simp only [List.lookup]
          rw [show (v == u) = false from beq_eq_false_iff_ne.mpr hvu]

theorem esFold_stable (tasks : List FrTask) (g : DG Nat) {la : List Nat}
    (lb : List Nat) {acc : List (Nat × Int)} {v : Nat} {e : Int}
    (h : (la.foldl (esStep tasks g) acc).lookup v = some e) :
    ((la ++ lb).foldl (esStep tasks g) acc).lookup v = some e := by
  rw [List.foldl_append]
  obtain ⟨tl, htl⟩ := esFold_ext tasks g lb (la.foldl (esStep tasks g) acc)
  rw [htl]
  exact lookup_append_some h

/-- Value of a node's earliest start: the `esVal` computed from the state
after the preceding prefix of the topological order has been processed. -/
theorem esFold_value (tasks : List FrTask) (g : DG Nat) {l1 : List Nat} (v : Nat)
    (l2 : List Nat) (hv1 : v ∉ l1) {t : FrTask} (hsome : tmLookup tasks v = some t) :
    ((l1 ++ v :: l2).foldl (esStep tasks g) []).lookup v =
      some (esVal tasks g (l1.foldl (esStep tasks g) []) v) := by
  rw [List.foldl_append, List.foldl_cons]
  have h1 : (l1.foldl (esStep tasks g) []).lookup v = Option.none :=
    esFold_lookup_none tasks g l1 [] v hv1 (by simp [List.lookup])
  rw [esStep_eq_of_some g hsome]
  obtain ⟨tl, htl⟩ := esFold_ext tasks g l2 _
  rw [htl, List.append_assoc]
  rw [lookup_append_none _ h1]
  exact lookup_append_some (lookup_singleton_same v _)

end CriticalPathCalculator

namespace CriticalPathCalculator

theorem maxFold_cons (f : Nat → Option Int) (p : Nat) (l : List Nat) (m0 : Int) :
    maxFold f (p :: l) m0 =
      maxFold f l (match f p with | some t => max m0 t | Option.none => m0) := rfl

theorem maxFold_ge_init (f : Nat → Option Int) :
    ∀ (l : List Nat) (m0 : Int), m0 ≤ maxFold f l m0 := by
  intro l
  induction l with
  | nil => intro m0; exact le_refl m0
  | cons q l ih =>
      intro m0
      rw [maxFold_cons]
      cases hq : f q with
      | none => simp only; exact ih m0
      | some t => simp only; exact le_trans (le_max_left _ _) (ih _)

theorem maxFold_ge_term (f : Nat → Option Int) :
    ∀ (l : List Nat) (m0 : Int) (p : Nat) (t : Int), p ∈ l → f p = some t →
      t ≤ maxFold f l m0 := by
  intro l
  induction l with
  | nil => intro m0 p t h; cases h
  | cons q l ih =>
      intro m0 p t hp hf
      rw [maxFold_cons]
      rcases List.mem_cons.mp hp with rfl | hp
      · rw [hf]
        simp only
        exact le_trans (le_max_right _ _) (maxFold_ge_init f l _)
      · cases hq : f q
        · simp only; exact ih _ p t hp hf
        · simp only; exact ih _ p t hp hf

theorem maxFold_attain (f : Nat → Option Int) :
    ∀ (l : List Nat) (m0 : Int),
      maxFold f l m0 = m0 ∨ ∃ p ∈ l, f p = some (maxFold f l m0) := by
  intro l
  induction l with
  | nil => intro m0; left; rfl
  | cons q l ih =>
      intro m0
      rw [maxFold_cons]
      cases hq : f q with
      | none =>
          simp only
          rcases ih m0 with h | ⟨p, hp, hfp⟩
          · left; exact h
          · right; exact ⟨p, List.mem_cons_of_mem _ hp, hfp⟩
      | some t =>
          simp only
          rcases ih (max m0 t) with h | ⟨p, hp, hfp⟩
          · rw [h]
            rcases max_cases m0 t with ⟨he, _⟩ | ⟨he, _⟩
            · left; exact he
            · right; exact ⟨q, List.mem_cons_self q l, by rw [hq, he]⟩
          · right; exact ⟨p, List.mem_cons_of_mem _ hp, hfp⟩

theorem maxFold_le (f : Nat → Option Int) (l : List Nat) (m0 B : Int)
    (hterm : ∀ p ∈ l, ∀ t, f p = some t → t ≤ B) (hinit : m0 ≤ B) :
    maxFold f l m0 ≤ B := by
  rcases maxFold_attain f l m0 with h | ⟨p, hp, hfp⟩
  · rw [h]; exact hinit
  · exact hterm p hp _ hfp

theorem minFold_cons (f : Nat → Option Int) (s : Nat) (l : List Nat) (m0 : Option Int) :
    minFold f (s :: l) m0 =
      minFold f l (match f s with
        | some x => match m0 with
          | Option.none => some x
          | some mv => some (min mv x)
        | Option.none => m0) := rfl

theorem minFold_isSome_mono (f : Nat → Option Int) :
    ∀ (l : List Nat) (m0 : Option Int), m0.isSome → (minFold f l m0).isSome := by
  intro l
  induction l with
  | nil => intro m0 h; exact h
  | cons q l ih =>
      intro m0 h
      rw [minFold_cons]
      cases hq : f q with
      | none => simp only; exact ih m0 h
      | some x =>
          simp only
          cases m0 with
          | none => exact ih _ rfl
          | some mv => exact ih _ rfl

theorem minFold_isSome_of_mem (f : Nat → Option Int) :
    ∀ (l : List Nat) (m0 : Option Int) (s : Nat) (x : Int), s ∈ l → f s = some x →
      (minFold f l m0).isSome := by
  intro l
  induction l with
  | nil => intro m0 s x h; cases h
  | cons q l ih =>
      intro m0 s x hs hf
      rw [minFold_cons]
      rcases List.mem_cons.mp hs with rfl | hs
      · rw [hf]
        simp only
        cases m0 with
        | none => exact minFold_isSome_mono f l _ rfl
        | some mv => exact minFold_isSome_mono f l _ rfl
      · cases hq : f q
        · simp only; exact ih _ s x hs hf
        · simp only
          cases m0 with
          | none => exact ih _ s x hs hf
          | some mv => exact ih _ s x hs hf

theorem minFold_le_init (f : Nat → Option Int) :
    ∀ (l : List Nat) (m0 mv0 mv : Int), minFold f l (some m0) = some mv → m0 = mv0 →
      mv ≤ mv0 := by
  intro l
  induction l with
  | nil =>
      intro m0 mv0 mv h he
      simp only [minFold, List.foldl_nil] at h
      cases h
      exact le_of_eq he
  | cons q l ih =>
      intro m0 mv0 mv h he
      rw [minFold_cons] at h
      cases hq : f q with
      | none =>
          rw [hq] at h
          exact ih m0 mv0 mv h he
      | some x =>
          rw [hq] at h
          simp only at h
          have := ih (min m0 x) (min m0 x) mv h rfl
          exact le_trans this (le_trans (min_le_left _ _) (le_of_eq he))

theorem minFold_le_term (f : Nat → Option Int) :
    ∀ (l : List Nat) (m0 : Option Int) (mv : Int) (s : Nat) (x : Int),
      minFold f l m0 = some mv → s ∈ l → f s = some x → mv ≤ x := by
  intro l
  induction l with
  | nil => intro m0 mv s x _ h; cases h
  | cons q l ih =>
      intro m0 mv s x h hs hf
      rw [minFold_cons] at h
      rcases List.mem_cons.mp hs with rfl | hs
      · rw [hf] at h
        simp only at h
        cases m0 with
        | none => exact minFold_le_init f l x x mv h rfl
        | some mv0 =>
            exact le_trans (minFold_le_init f l (min mv0 x) (min mv0 x) mv h rfl)
              (min_le_right _ _)
      · cases hq : f q
        · rw [hq] at h; exact ih _ mv s x h hs hf
        · rw [hq] at h
          simp only at h
          cases m0 with
          | none => exact ih _ mv s x h hs hf
          | some mv0 => exact ih _ mv s x h hs hf

theorem minFold_ge (f : Nat → Option Int) :
    ∀ (l : List Nat) (m0 : Option Int) (mv B : Int),
      (∀ s ∈ l, ∀ x, f s = some x → B ≤ x) →
      (∀ mv0, m0 = some mv0 → B ≤ mv0) →
      minFold f l m0 = some mv → B ≤ mv := by
  intro l
  induction l with
  | nil =>
      intro m0 mv B _ hinit h
      simp only [minFold, List.foldl_nil] at h
      exact hinit mv h
  | cons q l ih =>
      intro m0 mv B hterm hinit h
      rw [minFold_cons] at h
      have hterm' : ∀ s ∈ l, ∀ x, f s = some x → B ≤ x :=
        fun s hs => hterm s (List.mem_cons_of_mem _ hs)
      cases hq : f q with
      | none =>
          rw [hq] at h
          exact ih _ mv B hterm' hinit h
      | some x =>
          rw [hq] at h
          simp only at h
          have hBx : B ≤ x := hterm q (List.mem_cons_self q l) x hq
          cases m0 with
          | none =>
              exact ih _ mv B hterm' (fun mv0 he => by cases he; exact hBx) h
          | some mv0 =>
              refine ih _ mv B hterm' (fun mv1 he => ?_) h
              cases he
              exact le_min (hinit mv0 rfl) hBx

theorem minFold_attain (f : Nat → Option Int) :
    ∀ (l : List Nat) (m0 : Option Int) (mv : Int), minFold f l m0 = some mv →
      m0 = some mv ∨ ∃ s ∈ l, f s = some mv := by
  intro l
  induction l with
  | nil =>
      intro m0 mv h
      simp only [minFold, List.foldl_nil] at h
      left; exact h
  | cons q l ih =>
      intro m0 mv h
      rw [minFold_cons] at h
      cases hq : f q with
      | none =>
          rw [hq] at h
          rcases ih _ mv h with h1 | ⟨s, hs, hfs⟩
          · left; exact h1
          · right; exact ⟨s, List.mem_cons_of_mem _ hs, hfs⟩
      | some x =>
          rw [hq] at h
          simp only at h
          cases m0 with
          | none =>
              rcases ih _ mv h with h1 | ⟨s, hs, hfs⟩
              · right
                refine ⟨q, List.mem_cons_self q l, ?_⟩
                cases h1
                exact hq
              · right; exact ⟨s, List.mem_cons_of_mem _ hs, hfs⟩
          | some mv0 =>
              rcases ih _ mv h with h1 | ⟨s, hs, hfs⟩
              · rw [Option.some_inj] at h1
                rcases min_cases mv0 x with ⟨he, _⟩ | ⟨he, _⟩
                · left; rw [← h1, he]
                · right
                  exact ⟨q, List.mem_cons_self q l, by rw [hq, ← h1, he]⟩
              · right; exact ⟨s, List.mem_cons_of_mem _ hs, hfs⟩

end CriticalPathCalculator

namespace CriticalPathCalculator

theorem lsStep_eq_of_none {tasks : List FrTask} (g : DG Nat)
    {v : Nat} (h : tmLookup tasks v = Option.none) (ls : List (Nat × Int)) :
    lsStep tasks g ls v = ls := by
  unfold lsStep
  rw [h]

theorem lsStep_eq_of_sink {tasks : List FrTask} (g : DG Nat)
    {v : Nat} {t : FrTask} (h : tmLookup tasks v = some t)
    (hsink : (g.successors v).isEmpty = true) (ls : List (Nat × Int)) :
    lsStep tasks g ls v = ls := by
  unfold lsStep
  rw [h]
  simp only [hsink, if_true]

theorem lsStep_eq_of_min {tasks : List FrTask} (g : DG Nat)
    {v : Nat} {t : FrTask} (h : tmLookup tasks v = some t)
    (hsink : (g.successors v).isEmpty = false) {ls : List (Nat × Int)} {mv : Int}
    (hmin : lsMin ls (g.successors v) = some mv) :
    lsStep tasks g ls v = ls ++ [(v, mv - (t.duree_estimee : Int))] := by
  unfold lsStep
  rw [h]
  simp only [hsink, if_false, Bool.false_eq_true, hmin]

theorem lsStep_eq_of_stall {tasks : List FrTask} (g : DG Nat)
    {v : Nat} {t : FrTask} (h : tmLookup tasks v = some t)
    {ls : List (Nat × Int)}
    (hmin : lsMin ls (g.successors v) = Option.none) :
    lsStep tasks g ls v = ls := by
  unfold lsStep
  rw [h]
  cases hsink : (g.successors v).isEmpty with
  | true => simp only [if_true]
  | false => simp only [if_false, Bool.false_eq_true, hmin]

theorem lsFold_ext (tasks : List FrTask) (g : DG Nat) :
    ∀ (l : List Nat) (acc : List (Nat × Int)),
      ∃ tl, l.foldl (lsStep tasks g) acc = acc ++ tl := by
  intro l
  induction l with
  | nil => exact fun acc => ⟨[], by simp⟩
  | cons v l ih =>
      intro acc
      rw [List.foldl_cons]
      cases h : tmLookup tasks v with
      | none => rw [lsStep_eq_of_none g h]; exact ih acc
      | some t =>
          cases hsink : (g.successors v).isEmpty with
          | true => rw [lsStep_eq_of_sink g h hsink]; exact ih acc
          | false =>
              cases hmin : lsMin acc (g.successors v) with
              | none => rw [lsStep_eq_of_stall g h hmin]; exact ih acc
              | some mv =>
                  rw [lsStep_eq_of_min g h hsink hmin]
                  obtain ⟨tl, htl⟩ := ih (acc ++ [(v, mv - (t.duree_estimee : Int))])
                  exact ⟨[(v, mv - (t.duree_estimee : Int))] ++ tl,
                    by rw [htl, List.append_assoc]⟩

theorem lsFold_lookup_none (tasks : List FrTask) (g : DG Nat) :
    ∀ (l : List Nat) (acc : List (Nat × Int)) (v : Nat), v ∉ l →
      acc.lookup v = Option.none →
      (l.foldl (lsStep tasks g) acc).lookup v = Option.none := by
  intro l
  induction l with
  | nil => intro acc v _ h; simpa using h
  | cons u l ih =>
      intro acc v hv hacc
      rw [List.foldl_cons]
      have hvu : v ≠ u := by intro h; exact hv (h ▸ List.mem_cons_self u l)
      have hvl : v ∉ l := fun h => hv (List.mem_cons_of_mem _ h)
      apply ih _ _ hvl
      cases h : tmLookup tasks u with
      | none => rw [lsStep_eq_of_none g h]; exact hacc
      | some t =>
          cases hsink : (g.successors u).isEmpty with
          | true => rw [lsStep_eq_of_sink g h hsink]; exact hacc
          | false =>
              cases hmin : lsMin acc (g.successors u) with
              | none => rw [lsStep_eq_of_stall g h hmin]; exact hacc
              | some mv =>
                  rw [lsStep_eq_of_min g h hsink hmin]
                  rw [lookup_append_none _ hacc]
                  simp only [List.lookup]
                  rw [show (v == u) = false from beq_eq_false_iff_ne.mpr hvu]

theorem lsFold_stable (tasks : List FrTask) (g : DG Nat) {la : List Nat}
    (lb : List Nat) {acc : List (Nat × Int)} {v : Nat} {e : Int}
    (h : (la.foldl (lsStep tasks g) acc).lookup v = some e) :
    ((la ++ lb).foldl (lsStep tasks g) acc).lookup v = some e := by
  rw [List.foldl_append]
  obtain ⟨tl, htl⟩ := lsFold_ext tasks g lb (la.foldl (lsStep tasks g) acc)
  rw [htl]
  exact lookup_append_some h

theorem lsInitStep_eq_of_sink {tasks : List FrTask} {g : DG Nat} (pf : Int)
    {v : Nat} (hsink : (g.successors v).isEmpty = true) (ls : List (Nat × Int)) :
    lsInitStep tasks g pf ls v = ls ++ [(v, pf - (durOf tasks v : Int))] := by
  unfold lsInitStep
  rw [if_pos hsink]

theorem lsInitStep_eq_of_nonsink {tasks : List FrTask} {g : DG Nat} (pf : Int)
    {v : Nat} (hsink : (g.successors v).isEmpty = false) (ls : List (Nat × Int)) :
    lsInitStep tasks g pf ls v = ls := by
  unfold lsInitStep
  rw [if_neg (show ¬ (g.successors v).isEmpty = true by rw [hsink]; simp)]

theorem lsInitFold_ext (tasks : List FrTask) (g : DG Nat) (pf : Int) :
    ∀ (l : List Nat) (acc : List (Nat × Int)),
      ∃ tl, l.foldl (lsInitStep tasks g pf) acc = acc ++ tl := by
  intro l
  induction l with
  | nil => exact fun acc => ⟨[], by simp⟩
  | cons v l ih =>
      intro acc
      rw [List.foldl_cons]
      cases hsink : (g.successors v).isEmpty with
      | false => rw [lsInitStep_eq_of_nonsink pf hsink]; exact ih acc
      | true =>
          rw [lsInitStep_eq_of_sink pf hsink]
          obtain ⟨tl, htl⟩ := ih (acc ++ [(v, pf - (durOf tasks v : Int))])
          exact ⟨[(v, pf - (durOf tasks v : Int))] ++ tl, by rw [htl, List.append_assoc]⟩

theorem lsInitFold_lookup_none (tasks : List FrTask) (g : DG Nat) (pf : Int) :
    ∀ (l : List Nat) (acc : List (Nat × Int)) (v : Nat),
      v ∉ l ∨ (g.successors v).isEmpty = false →
      acc.lookup v = Option.none →
      (l.foldl (lsInitStep tasks g pf) acc).lookup v = Option.none := by
  intro l
  induction l with
  | nil => intro acc v _ h; simpa using h
  | cons u l ih =>
      intro acc v hv hacc
      rw [List.foldl_cons]
      have hvl : v ∉ l ∨ (g.successors v).isEmpty = false := by
        rcases hv with hv | hv
        · exact Or.inl (fun h => hv (List.mem_cons_of_mem _ h))
        · exact Or.inr hv
      apply ih _ _ hvl
      cases hsink : (g.successors u).isEmpty with
      | false => rw [lsInitStep_eq_of_nonsink pf hsink]; exact hacc
      | true =>
          rw [lsInitStep_eq_of_sink pf hsink]
          rw [lookup_append_none _ hacc]
          simp only [List.lookup]
          have hvu : v ≠ u := by
            rcases hv with hv | hv
            · intro h; exact hv (h ▸ List.mem_cons_self u l)
            · intro h; rw [h, hsink] at hv; cases hv
          rw [show (v == u) = false from beq_eq_false_iff_ne.mpr hvu]

/-- A sink present in the key order receives `project_finish - duration` in
the backward-pass initialization. -/
theorem lsInit_lookup_sink (tasks : List FrTask) (g : DG Nat) (pf : Int)
    {l1 : List Nat} (v : Nat) (l2 : List Nat) (hv1 : v ∉ l1)
    (hkeys : tmKeys tasks = l1 ++ v :: l2)
    (hsink : (g.successors v).isEmpty = true) :
    (lsInit tasks g pf).lookup v = some (pf - (durOf tasks v : Int)) := by
  unfold lsInit
  rw [hkeys, List.foldl_append, List.foldl_cons]
  have h1 : (l1.foldl (lsInitStep tasks g pf) []).lookup v = Option.none :=
    lsInitFold_lookup_none tasks g pf l1 [] v (Or.inl hv1) (by simp [List.lookup])
  rw [lsInitStep_eq_of_sink pf hsink]
  obtain ⟨tl, htl⟩ := lsInitFold_ext tasks g pf l2 _
  rw [htl, List.append_assoc]
  rw [lookup_append_none _ h1]
  exact lookup_append_some (lookup_singleton_same v _)

/-- A non-sink has no entry in the backward-pass initialization. -/
theorem lsInit_lookup_nonsink (tasks : List FrTask) (g : DG Nat) (pf : Int)
    (v : Nat) (hsink : (g.successors v).isEmpty = false) :
    (lsInit tasks g pf).lookup v = Option.none := by
  unfold lsInit
  exact lsInitFold_lookup_none tasks g pf (tmKeys tasks) [] v (Or.inr hsink)
    (by simp [List.lookup])

end CriticalPathCalculator

theorem lookup_mem {β : Type} : ∀ {l : List (Nat × β)} {v : Nat} {e : β},
    l.lookup v = some e → (v, e) ∈ l := by
  intro l
  induction l with
  | nil => intro v e h; simp [List.lookup] at h
  | cons p l ih =>
      intro v e h
      obtain ⟨k, b⟩ := p
      simp only [List.lookup] at h
      cases hb : (v == k) with
      | true =>
          rw [hb] at h
          simp only at h
          cases h
          have : v = k := by simpa using hb
          subst this
          exact List.mem_cons_self _ _
      | false =>
          rw [hb] at h
          simp only at h
          exact List.mem_cons_of_mem _ (ih h)

/-- In a duplicate-free list, anything placed before an occurrence of `w` is
strictly before every later occurrence: if `v` sits in the part before `w`,
then `w` sits in the part after `v`. -/
theorem nodup_split_mem {α : Type} {v w : α} :
    ∀ {m1 l1 : List α} {l2 m2 : List α},
      (l1 ++ v :: l2).Nodup → l1 ++ v :: l2 = m1 ++ w :: m2 → v ∈ m1 → w ∈ l2 := by
  intro m1
  induction m1 with
  | nil => intro l1 l2 m2 _ _ hv; cases hv
  | cons a m1 ih =>
      intro l1 l2 m2 hnd heq hv
      cases l1 with
      | nil =>
          simp only [List.nil_append, List.cons_append] at heq
          have hva : v = a := (List.cons.injEq _ _ _ _).mp heq |>.1
          have hl2 : l2 = m1 ++ w :: m2 := (List.cons.injEq _ _ _ _).mp heq |>.2
          rw [hl2]
          exact List.mem_append_right m1 (List.mem_cons_self _ _)
      | cons b l1 =>
          simp only [List.cons_append] at heq
          have hba : b = a := (List.cons.injEq _ _ _ _).mp heq |>.1
          have htl : l1 ++ v :: l2 = m1 ++ w :: m2 := (List.cons.injEq _ _ _ _).mp heq |>.2
          have hnd' : (l1 ++ v :: l2).Nodup := by
            rw [List.cons_append] at hnd
            exact hnd.of_cons
          rcases List.mem_cons.mp hv with hv | hv
          · exfalso
            rw [List.cons_append] at hnd
            have hbmem : b ∉ l1 ++ v :: l2 := (List.nodup_cons.mp hnd).1
            apply hbmem
            rw [hba, ← hv]
            exact List.mem_append_right l1 (List.mem_cons_self _ _)
          · exact ih hnd' htl hv

namespace CriticalPathCalculator

theorem ces_eq_fold (tasks : List FrTask)
    (hacy : DG.simple_cycles (build_graph tasks) = [])
    {ord : List Nat} (hord : DG.topoSort (build_graph tasks) = some ord) :
    calculate_earliest_start_times tasks =
      ord.foldl (esStep tasks (build_graph tasks)) [] := by
  unfold calculate_earliest_start_times
  rw [effectiveGraph_of_acyclic hacy]
  show (match (build_graph tasks).topoSort with
    | Option.none => []
    | some o => o.foldl (esStep tasks (build_graph tasks)) []) = _
  rw [hord]

theorem cls_eq_fold (tasks : List FrTask) (es : List (Nat × Int))
    (hacy : DG.simple_cycles (build_graph tasks) = [])
    {ord : List Nat} (hord : DG.topoSort (build_graph tasks) = some ord) :
    calculate_latest_start_times tasks es =
      ord.reverse.foldl (lsStep tasks (build_graph tasks))
        (lsInit tasks (build_graph tasks) (project_finish_of tasks es)) := by
  unfold calculate_latest_start_times
  rw [effectiveGraph_of_acyclic hacy]
  show (match (build_graph tasks).topoSort with
    | Option.none => []
    | some o =>
        o.reverse.foldl (lsStep tasks (build_graph tasks))
          (lsInit tasks (build_graph tasks) (project_finish_of tasks es))) = _
  rw [hord]

theorem ord_nodup (tasks : List FrTask)
    {ord : List Nat} (hord : DG.topoSort (build_graph tasks) = some ord) :
    ord.Nodup :=
  (DG.topoSort_perm hord).nodup_iff.mpr (build_graph_nodup tasks)

theorem mem_ord_iff (tasks : List FrTask)
    {ord : List Nat} (hord : DG.topoSort (build_graph tasks) = some ord) (v : Nat) :
    v ∈ ord ↔ v ∈ (build_graph tasks).nodes :=
  (DG.topoSort_perm hord).mem_iff

/-- Earliest-start values are never negative. -/
theorem esFold_values_nonneg (tasks : List FrTask) (g : DG Nat) :
    ∀ (l : List Nat) (acc : List (Nat × Int)), (∀ p ∈ acc, 0 ≤ p.2) →
      ∀ p ∈ l.foldl (esStep tasks g) acc, 0 ≤ p.2 := by
  intro l
  induction l with
  | nil => intro acc h; simpa using h
  | cons v l ih =>
      intro acc hacc
      rw [List.foldl_cons]
      apply ih
      cases h : tmLookup tasks v with
      | none => rw [esStep_eq_of_none g h]; exact hacc
      | some t =>
          rw [esStep_eq_of_some g h]
          intro p hp
          rcases List.mem_append.mp hp with hp | hp
          · exact hacc p hp
          · rcases List.mem_singleton.mp hp with rfl
            exact maxFold_ge_init _ _ _

theorem ces_nonneg (tasks : List FrTask)
    (hacy : DG.simple_cycles (build_graph tasks) = [])
    {ord : List Nat} (hord : DG.topoSort (build_graph tasks) = some ord)
    {v : Nat} {e : Int} (h : (calculate_earliest_start_times tasks).lookup v = some e) :
    0 ≤ e := by
  rw [ces_eq_fold tasks hacy hord] at h
  exact esFold_values_nonneg tasks (build_graph tasks) ord [] (by simp) (v, e)
    (lookup_mem h)

/-- The earliest start of a node as the `esVal` of the prefix state. -/
theorem ces_lookup_value (tasks : List FrTask)
    (hacy : DG.simple_cycles (build_graph tasks) = [])
    {ord : List Nat} (hord : DG.topoSort (build_graph tasks) = some ord)
    {l1 l2 : List Nat} {v : Nat} (hsplit : ord = l1 ++ v :: l2)
    {t : FrTask} (ht : tmLookup tasks v = some t) :
    (calculate_earliest_start_times tasks).lookup v =
      some (esVal tasks (build_graph tasks)
        (l1.foldl (esStep tasks (build_graph tasks)) []) v) := by
  rw [ces_eq_fold tasks hacy hord, hsplit]
  have hnd : (l1 ++ v :: l2).Nodup := hsplit ▸ ord_nodup tasks hord
  have hv1 : v ∉ l1 := by
    rcases List.nodup_append.mp hnd with ⟨_, _, hdisj⟩
    intro hmem
    exact hdisj hmem (List.mem_cons_self _ _)
  exact esFold_value tasks (build_graph tasks) v l2 hv1 ht

/-- A node already processed has a (stable) entry in the prefix state. -/
theorem es_prefix_lookup (tasks : List FrTask) (g : DG Nat)
    {l1 : List Nat} (hnd : l1.Nodup) {u : Nat} (hu : u ∈ l1)
    {t : FrTask} (ht : tmLookup tasks u = some t) :
    ∃ x, (l1.foldl (esStep tasks g) []).lookup u = some x := by
  obtain ⟨a, b, rfl⟩ := List.append_of_mem hu
  have hu1 : u ∉ a := by
    rcases List.nodup_append.mp hnd with ⟨_, _, hdisj⟩
    intro hmem
    exact hdisj hmem (List.mem_cons_self _ _)
  exact ⟨_, esFold_value tasks g u b hu1 ht⟩

/-- Totality of the earliest-start map over the graph's nodes. -/
theorem ces_total (tasks : List FrTask)
    (hacy : DG.simple_cycles (build_graph tasks) = [])
    {ord : List Nat} (hord : DG.topoSort (build_graph tasks) = some ord)
    {v : Nat} (hv : v ∈ (build_graph tasks).nodes) :
    ∃ e, (calculate_earliest_start_times tasks).lookup v = some e := by
  obtain ⟨l1, l2, hsplit⟩ := List.append_of_mem ((mem_ord_iff tasks hord v).mpr hv)
  have hv' : v ∈ tmKeys tasks := (mem_nodes_iff_tmKeys tasks v).mp hv
  obtain ⟨t, ht⟩ := Option.isSome_iff_exists.mp
    ((tmLookup_isSome_iff tasks v).mpr ((mem_tmKeys tasks v).mp hv'))
  exact ⟨_, ces_lookup_value tasks hacy hord hsplit ht⟩

/-- Along an edge the earliest start grows by at least the source's
duration. -/
theorem ces_edge_mono (tasks : List FrTask)
    (hacy : DG.simple_cycles (build_graph tasks) = [])
    {ord : List Nat} (hord : DG.topoSort (build_graph tasks) = some ord)
    {u v : Nat} (he : (u, v) ∈ (build_graph tasks).edges)
    {eu ev : Int}
    (hu : (calculate_earliest_start_times tasks).lookup u = some eu)
    (hv : (calculate_earliest_start_times tasks).lookup v = some ev) :
    eu + (durOf tasks u : Int) ≤ ev := by
  have hun : u ∈ (build_graph tasks).nodes := (build_graph_edge_mem_nodes tasks he).1
  have hvn : v ∈ (build_graph tasks).nodes := (build_graph_edge_mem_nodes tasks he).2
  obtain ⟨l1, l2, hsplit⟩ := List.append_of_mem ((mem_ord_iff tasks hord v).mpr hvn)
  obtain ⟨tv, htv⟩ := Option.isSome_iff_exists.mp
    ((tmLookup_isSome_iff tasks v).mpr
      ((mem_tmKeys tasks v).mp ((mem_nodes_iff_tmKeys tasks v).mp hvn)))
  obtain ⟨tu, htu⟩ := Option.isSome_iff_exists.mp
    ((tmLookup_isSome_iff tasks u).mpr
      ((mem_tmKeys tasks u).mp ((mem_nodes_iff_tmKeys tasks u).mp hun)))
  have hul1 : u ∈ l1 := DG.topoSort_edge_before hord he hun hsplit
  have hndord : ord.Nodup := ord_nodup tasks hord
  have hndl1 : l1.Nodup := by
    rw [hsplit] at hndord
    exact (List.nodup_append.mp hndord).1
  obtain ⟨x, hx⟩ := es_prefix_lookup tasks (build_graph tasks) hndl1 hul1 htu
  have hxfull : (calculate_earliest_start_times tasks).lookup u = some x := by
    rw [ces_eq_fold tasks hacy hord, hsplit]
    have := esFold_stable tasks (build_graph tasks) (v :: l2) hx
    exact this
  have hxe : x = eu := by
    rw [hxfull] at hu
    exact (Option.some_inj.mp hu)
  subst hxe
  have hvval := ces_lookup_value tasks hacy hord hsplit htv
  rw [hvval] at hv
  have hev : ev = esVal tasks (build_graph tasks)
      (l1.foldl (esStep tasks (build_graph tasks)) []) v := (Option.some_inj.mp hv).symm
  rw [hev]
  unfold esVal
  apply maxFold_ge_term
  · exact DG.mem_predecessors.mpr he
  · unfold esTerm
    rw [hx, htu, durOf_eq htu]

/-- Project finish dominates every earliest finish. -/
theorem pf_ge (tasks : List FrTask) (es : List (Nat × Int))
    {v : Nat} (hv : v ∈ tmKeys tasks) {e : Int} (he : es.lookup v = some e) :
    e + (durOf tasks v : Int) ≤ project_finish_of tasks es := by
  unfold project_finish_of
  apply maxFold_ge_term _ _ _ v
  · exact hv
  · rw [he]

theorem pf_nonneg (tasks : List FrTask) (es : List (Nat × Int)) :
    0 ≤ project_finish_of tasks es :=
  maxFold_ge_init _ _ _

end CriticalPathCalculator

namespace CriticalPathCalculator

theorem lsFold_preserve (tasks : List FrTask) (g : DG Nat) (l : List Nat)
    {acc : List (Nat × Int)} {v : Nat} {e : Int} (h : acc.lookup v = some e) :
    (l.foldl (lsStep tasks g) acc).lookup v = some e := by
  obtain ⟨tl, htl⟩ := lsFold_ext tasks g l acc
  rw [htl]
  exact lookup_append_some h

/-- A sink keeps its initialization entry through any backward-pass fold. -/
theorem ls_sink_entry (tasks : List FrTask) (g : DG Nat) (pf : Int)
    {v : Nat} (hv : v ∈ tmKeys tasks) (hsink : (g.successors v).isEmpty = true)
    (l : List Nat) :
    (l.foldl (lsStep tasks g) (lsInit tasks g pf)).lookup v =
      some (pf - (durOf tasks v : Int)) := by
  obtain ⟨a, b, hsplit⟩ := List.append_of_mem hv
  have hva : v ∉ a := by
    have hnd : (a ++ v :: b).Nodup := hsplit ▸ tmKeys_nodup tasks
    rcases List.nodup_append.mp hnd with ⟨_, _, hdisj⟩
    intro hmem
    exact hdisj hmem (List.mem_cons_self _ _)
  exact lsFold_preserve tasks g l (lsInit_lookup_sink tasks g pf v b hva hsplit hsink)

/-- Right after a node's own backward-pass step, it has an entry (by strong
induction on its distance from the end of the topological order). -/
theorem ls_processed (tasks : List FrTask)
    (hacy : DG.simple_cycles (build_graph tasks) = [])
    {ord : List Nat} (hord : DG.topoSort (build_graph tasks) = some ord) (pf : Int) :
    ∀ (n : Nat) (l1 : List Nat) (v : Nat) (l2 : List Nat), ord = l1 ++ v :: l2 →
      l2.length < n →
      ∃ x, ((l2.reverse ++ [v]).foldl (lsStep tasks (build_graph tasks))
        (lsInit tasks (build_graph tasks) pf)).lookup v = some x := by
  intro n
  induction n with
  | zero => intro l1 v l2 _ h; exact absurd h (Nat.not_lt_zero _)
  | succ n ih =>
      intro l1 v l2 hsplit hlen
      have hvord : v ∈ ord := hsplit ▸ List.mem_append_right l1 (List.mem_cons_self _ _)
      have hvn : v ∈ (build_graph tasks).nodes := (mem_ord_iff tasks hord v).mp hvord
      have hvk : v ∈ tmKeys tasks := (mem_nodes_iff_tmKeys tasks v).mp hvn
      cases hsink : ((build_graph tasks).successors v).isEmpty with
      | true =>
          exact ⟨_, ls_sink_entry tasks (build_graph tasks) pf hvk hsink _⟩
      | false =>
          cases hsuccs : (build_graph tasks).successors v with
          | nil => rw [hsuccs] at hsink; simp at hsink
          | cons w ws =>
              have hwsucc : w ∈ (build_graph tasks).successors v := by
                rw [hsuccs]; exact List.mem_cons_self _ _
              have he : (v, w) ∈ (build_graph tasks).edges := DG.mem_successors.mp hwsucc
              have hwn : w ∈ (build_graph tasks).nodes :=
                (build_graph_edge_mem_nodes tasks he).2
              have hword : w ∈ ord := (mem_ord_iff tasks hord w).mpr hwn
              obtain ⟨m1, m2, hm⟩ := List.append_of_mem hword
              have hvm1 : v ∈ m1 := DG.topoSort_edge_before hord he hvn hm
              have hwl2 : w ∈ l2 :=
                nodup_split_mem (hsplit ▸ ord_nodup tasks hord)
                  (hsplit.symm.trans hm) hvm1
              obtain ⟨a, b, hab⟩ := List.append_of_mem hwl2
              have hordw : ord = (l1 ++ v :: a) ++ w :: b := by
                rw [hsplit, hab]; simp
              have hblen : b.length < n := by
                have : l2.length = a.length + (b.length + 1) := by
                  rw [hab]; simp [List.length_append]
                omega
              obtain ⟨xw, hxw⟩ := ih (l1 ++ v :: a) w b hordw hblen
              have hrev : l2.reverse = (b.reverse ++ [w]) ++ a.reverse := by
                rw [hab]; simp
              have hls1w : ((l2.reverse).foldl (lsStep tasks (build_graph tasks))
                  (lsInit tasks (build_graph tasks) pf)).lookup w = some xw := by
                rw [hrev, List.foldl_append]
                exact lsFold_preserve tasks (build_graph tasks) _ hxw
              have hminsome : (lsMin ((l2.reverse).foldl (lsStep tasks (build_graph tasks))
                  (lsInit tasks (build_graph tasks) pf))
                  ((build_graph tasks).successors v)).isSome := by
                unfold lsMin
                exact minFold_isSome_of_mem _ _ _ w xw hwsucc hls1w
              obtain ⟨mv, hmv⟩ := Option.isSome_iff_exists.mp hminsome
              obtain ⟨t, ht⟩ := Option.isSome_iff_exists.mp
                ((tmLookup_isSome_iff tasks v).mpr ((mem_tmKeys tasks v).mp hvk))
              rw [List.foldl_append, List.foldl_cons, List.foldl_nil]
              rw [lsStep_eq_of_min (build_graph tasks) ht hsink hmv]
              cases hv1 : ((l2.reverse).foldl (lsStep tasks (build_graph tasks))
                  (lsInit tasks (build_graph tasks) pf)).lookup v with
              | some y => exact ⟨y, lookup_append_some hv1⟩
              | none =>
                  refine ⟨mv - (t.duree_estimee : Int), ?_⟩
                  rw [lookup_append_none _ hv1]
                  exact lookup_singleton_same v _

end CriticalPathCalculator

namespace CriticalPathCalculator

theorem cls_total (tasks : List FrTask) (es : List (Nat × Int))
    (hacy : DG.simple_cycles (build_graph tasks) = [])
    {ord : List Nat} (hord : DG.topoSort (build_graph tasks) = some ord)
    {v : Nat} (hv : v ∈ (build_graph tasks).nodes) :
    ∃ x, (calculate_latest_start_times tasks es).lookup v = some x := by
  obtain ⟨l1, l2, hsplit⟩ := List.append_of_mem ((mem_ord_iff tasks hord v).mpr hv)
  obtain ⟨x, hx⟩ := ls_processed tasks hacy hord (project_finish_of tasks es)
    (l2.length + 1) l1 v l2 hsplit (Nat.lt_succ_self _)
  refine ⟨x, ?_⟩
  rw [cls_eq_fold tasks es hacy hord]
  have hrev : ord.reverse = (l2.reverse ++ [v]) ++ l1.reverse := by
    rw [hsplit]; simp
  rw [hrev, List.foldl_append]
  exact lsFold_preserve tasks (build_graph tasks) _ hx

theorem cls_value_sink (tasks : List FrTask) (es : List (Nat × Int))
    (hacy : DG.simple_cycles (build_graph tasks) = [])
    {ord : List Nat} (hord : DG.topoSort (build_graph tasks) = some ord)
    {v : Nat} (hvk : v ∈ tmKeys tasks)
    (hsink : ((build_graph tasks).successors v).isEmpty = true) :
    (calculate_latest_start_times tasks es).lookup v =
      some (project_finish_of tasks es - (durOf tasks v : Int)) := by
  rw [cls_eq_fold tasks es hacy hord]
  exact ls_sink_entry tasks (build_graph tasks) _ hvk hsink _

theorem cls_value_nonsink (tasks : List FrTask) (es : List (Nat × Int))
    (hacy : DG.simple_cycles (build_graph tasks) = [])
    {ord : List Nat} (hord : DG.topoSort (build_graph tasks) = some ord)
    {l1 l2 : List Nat} {v : Nat} (hsplit : ord = l1 ++ v :: l2)
    {t : FrTask} (ht : tmLookup tasks v = some t)
    (hsink : ((build_graph tasks).successors v).isEmpty = false)
    {x : Int} (hx : (calculate_latest_start_times tasks es).lookup v = some x) :
    ∃ mv, lsMin ((l2.reverse).foldl (lsStep tasks (build_graph tasks))
        (lsInit tasks (build_graph tasks) (project_finish_of tasks es)))
        ((build_graph tasks).successors v) = some mv ∧
      x = mv - (t.duree_estimee : Int) := by
  have hndord : (l1 ++ v :: l2).Nodup := hsplit ▸ ord_nodup tasks hord
  have hvl2 : v ∉ l2 := by
    rcases List.nodup_append.mp hndord with ⟨_, hnd2, _⟩
    exact (List.nodup_cons.mp hnd2).1
  have hvl1 : v ∉ l1 := by
    rcases List.nodup_append.mp hndord with ⟨_, _, hdisj⟩
    intro hmem
    exact hdisj hmem (List.mem_cons_self _ _)
  have h0 : (lsInit tasks (build_graph tasks) (project_finish_of tasks es)).lookup v =
      Option.none :=
    lsInit_lookup_nonsink tasks (build_graph tasks) _ v hsink
  have hls1v : ((l2.reverse).foldl (lsStep tasks (build_graph tasks))
      (lsInit tasks (build_graph tasks) (project_finish_of tasks es))).lookup v =
      Option.none :=
    lsFold_lookup_none tasks (build_graph tasks) l2.reverse _ v (by simpa using hvl2) h0
  rw [cls_eq_fold tasks es hacy hord] at hx
  have hrev : ord.reverse = (l2.reverse ++ [v]) ++ l1.reverse := by
    rw [hsplit]; simp
  rw [hrev, List.foldl_append, List.foldl_append, List.foldl_cons, List.foldl_nil] at hx
  cases hmv : lsMin ((l2.reverse).foldl (lsStep tasks (build_graph tasks))
      (lsInit tasks (build_graph tasks) (project_finish_of tasks es)))
      ((build_graph tasks).successors v) with
  | none =>
      rw [lsStep_eq_of_stall (build_graph tasks) ht hmv] at hx
      rw [lsFold_lookup_none tasks (build_graph tasks) l1.reverse _ v
        (by simpa using hvl1) hls1v] at hx
      cases hx
  | some mv =>
      rw [lsStep_eq_of_min (build_graph tasks) ht hsink hmv] at hx
      have hone : (((l2.reverse).foldl (lsStep tasks (build_graph tasks))
          (lsInit tasks (build_graph tasks) (project_finish_of tasks es))) ++
          [(v, mv - (t.duree_estimee : Int))]).lookup v =
          some (mv - (t.duree_estimee : Int)) := by
        rw [lookup_append_none _ hls1v]
        exact lookup_singleton_same v _
      rw [lsFold_preserve tasks (build_graph tasks) l1.reverse hone] at hx
      exact ⟨mv, rfl, (Option.some_inj.mp hx).symm⟩

theorem cls_partial_lookup (tasks : List FrTask) (es : List (Nat × Int))
    (hacy : DG.simple_cycles (build_graph tasks) = [])
    {ord : List Nat} (hord : DG.topoSort (build_graph tasks) = some ord)
    {l1 l2 : List Nat} {v : Nat} (hsplit : ord = l1 ++ v :: l2)
    {w : Nat} (hw : w ∈ l2) :
    ∃ y, ((l2.reverse).foldl (lsStep tasks (build_graph tasks))
        (lsInit tasks (build_graph tasks) (project_finish_of tasks es))).lookup w =
        some y ∧
      (calculate_latest_start_times tasks es).lookup w = some y := by
  obtain ⟨a, b, hab⟩ := List.append_of_mem hw
  have hordw : ord = (l1 ++ v :: a) ++ w :: b := by rw [hsplit, hab]; simp
  obtain ⟨y, hy⟩ := ls_processed tasks hacy hord (project_finish_of tasks es)
    (b.length + 1) _ w b hordw (Nat.lt_succ_self _)
  have hrev : l2.reverse = (b.reverse ++ [w]) ++ a.reverse := by rw [hab]; simp
  have hls1 : ((l2.reverse).foldl (lsStep tasks (build_graph tasks))
      (lsInit tasks (build_graph tasks) (project_finish_of tasks es))).lookup w =
      some y := by
    rw [hrev, List.foldl_append]
    exact lsFold_preserve tasks (build_graph tasks) _ hy
  refine ⟨y, hls1, ?_⟩
  rw [cls_eq_fold tasks es hacy hord]
  have hrev2 : ord.reverse = l2.reverse ++ (v :: l1.reverse) := by rw [hsplit]; simp
  rw [hrev2, List.foldl_append]
  exact lsFold_preserve tasks (build_graph tasks) _ hls1

end CriticalPathCalculator

namespace CriticalPathCalculator

/-- The latest start of every node dominates its earliest start (slack is
non-negative), by strong induction on distance from the end of the
topological order. -/
theorem cls_ge_ces (tasks : List FrTask)
    (hacy : DG.simple_cycles (build_graph tasks) = [])
    {ord : List Nat} (hord : DG.topoSort (build_graph tasks) = some ord) :
    ∀ (n : Nat) (l1 : List Nat) (v : Nat) (l2 : List Nat), ord = l1 ++ v :: l2 →
      l2.length < n →
      ∀ e x, (calculate_earliest_start_times tasks).lookup v = some e →
        (calculate_latest_start_times tasks
          (calculate_earliest_start_times tasks)).lookup v = some x →
        e ≤ x := by
  intro n
  induction n with
  | zero => intro l1 v l2 _ h; exact absurd h (Nat.not_lt_zero _)
  | succ n ih =>
      intro l1 v l2 hsplit hlen e x he hx
      have hvord : v ∈ ord := hsplit ▸ List.mem_append_right l1 (List.mem_cons_self _ _)
      have hvn : v ∈ (build_graph tasks).nodes := (mem_ord_iff tasks hord v).mp hvord
      have hvk : v ∈ tmKeys tasks := (mem_nodes_iff_tmKeys tasks v).mp hvn
      obtain ⟨t, ht⟩ := Option.isSome_iff_exists.mp
        ((tmLookup_isSome_iff tasks v).mpr ((mem_tmKeys tasks v).mp hvk))
      cases hsink : ((build_graph tasks).successors v).isEmpty with
      | true =>
          have hxval := cls_value_sink tasks (calculate_earliest_start_times tasks)
            hacy hord hvk hsink
          rw [hx] at hxval
          have hxe := Option.some_inj.mp hxval
          have hpf := pf_ge tasks (calculate_earliest_start_times tasks) hvk he
          omega
      | false =>
          obtain ⟨mv, hmv, hxmv⟩ :=
            cls_value_nonsink tasks (calculate_earliest_start_times tasks)
              hacy hord hsplit ht hsink hx
          have hbound : e + (t.duree_estimee : Int) ≤ mv := by
            unfold lsMin at hmv
            refine minFold_ge _ _ _ _ _ ?_ ?_ hmv
            · intro s hs y hy
              have hy' : ((l2.reverse).foldl (lsStep tasks (build_graph tasks))
                  (lsInit tasks (build_graph tasks)
                    (project_finish_of tasks
                      (calculate_earliest_start_times tasks)))).lookup s = some y := hy
              have hes : (v, s) ∈ (build_graph tasks).edges := DG.mem_successors.mp hs
              have hsn : s ∈ (build_graph tasks).nodes :=
                (build_graph_edge_mem_nodes tasks hes).2
              have hsord : s ∈ ord := (mem_ord_iff tasks hord s).mpr hsn
              obtain ⟨m1, m2, hm⟩ := List.append_of_mem hsord
              have hvm1 : v ∈ m1 := DG.topoSort_edge_before hord hes hvn hm
              have hsl2 : s ∈ l2 :=
                nodup_split_mem (hsplit ▸ ord_nodup tasks hord)
                  (hsplit.symm.trans hm) hvm1
              obtain ⟨y2, hy2p, hy2f⟩ :=
                cls_partial_lookup tasks (calculate_earliest_start_times tasks)
                  hacy hord hsplit hsl2
              have hyy : y = y2 := by
                rw [hy'] at hy2p
                exact Option.some_inj.mp hy2p
              obtain ⟨es_s, hes_s⟩ := ces_total tasks hacy hord hsn
              have hmono := ces_edge_mono tasks hacy hord hes he hes_s
              obtain ⟨a, b, hab⟩ := List.append_of_mem hsl2
              have hords : ord = (l1 ++ v :: a) ++ s :: b := by rw [hsplit, hab]; simp
              have hblen : b.length < n := by
                have : l2.length = a.length + (b.length + 1) := by
                  rw [hab]; simp [List.length_append]
                omega
              have hih := ih (l1 ++ v :: a) s b hords hblen es_s y2 hes_s hy2f
              rw [durOf_eq ht] at hmono
              omega
            · intro mv0 h0; cases h0
          omega

end CriticalPathCalculator

namespace CriticalPathCalculator

theorem slackStep_eq_of_both {es ls : List (Nat × Int)} {v : Nat} {e x : Int}
    (he : es.lookup v = some e) (hx : ls.lookup v = some x) (sl : List (Nat × Int)) :
    slackStep es ls sl v = sl ++ [(v, x - e)] := by
  unfold slackStep
  rw [he, hx]

theorem slackStep_eq_of_esnone {es ls : List (Nat × Int)} {v : Nat}
    (he : es.lookup v = Option.none) (sl : List (Nat × Int)) :
    slackStep es ls sl v = sl := by
  unfold slackStep
  rw [he]

theorem slackStep_eq_of_lsnone {es ls : List (Nat × Int)} {v : Nat}
    (hx : ls.lookup v = Option.none) (sl : List (Nat × Int)) :
    slackStep es ls sl v = sl := by
  unfold slackStep
  cases he : es.lookup v with
  | none => rfl
  | some e => rw [hx]

theorem slackFold_ext (es ls : List (Nat × Int)) :
    ∀ (l : List Nat) (acc : List (Nat × Int)),
      ∃ tl, l.foldl (slackStep es ls) acc = acc ++ tl := by
  intro l
  induction l with
  | nil => exact fun acc => ⟨[], by simp⟩
  | cons v l ih =>
      intro acc
      rw [List.foldl_cons]
      cases he : es.lookup v with
      | none => rw [slackStep_eq_of_esnone he]; exact ih acc
      | some e =>
          cases hx : ls.lookup v with
          | none => rw [slackStep_eq_of_lsnone hx]; exact ih acc
          | some x =>
              rw [slackStep_eq_of_both he hx]
              obtain ⟨tl, htl⟩ := ih (acc ++ [(v, x - e)])
              exact ⟨[(v, x - e)] ++ tl, by rw [htl, List.append_assoc]⟩

theorem slackFold_lookup_none (es ls : List (Nat × Int)) :
    ∀ (l : List Nat) (acc : List (Nat × Int)) (v : Nat), v ∉ l →
      acc.lookup v = Option.none →
      (l.foldl (slackStep es ls) acc).lookup v = Option.none := by
  intro l
  induction l with
  | nil => intro acc v _ h; simpa using h
  | cons u l ih =>
      intro acc v hv hacc
      rw [List.foldl_cons]
      have hvu : v ≠ u := by intro h; exact hv (h ▸ List.mem_cons_self u l)
      have hvl : v ∉ l := fun h => hv (List.mem_cons_of_mem _ h)
      apply ih _ _ hvl
      cases he : es.lookup u with
      | none => rw [slackStep_eq_of_esnone he]; exact hacc
      | some e =>
          cases hx : ls.lookup u with
          | none => rw [slackStep_eq_of_lsnone hx]; exact hacc
          | some x =>
              rw [slackStep_eq_of_both he hx]
              rw [lookup_append_none _ hacc]
              simp only [List.lookup]
              rw [show (v == u) = false from beq_eq_false_iff_ne.mpr hvu]

theorem slackFold_value (es ls : List (Nat × Int)) {l1 : List Nat} (v : Nat)
    (l2 : List Nat) (hv1 : v ∉ l1) {e x : Int}
    (he : es.lookup v = some e) (hx : ls.lookup v = some x) :
    ((l1 ++ v :: l2).foldl (slackStep es ls) []).lookup v = some (x - e) := by
  rw [List.foldl_append, List.foldl_cons]
  have h1 : (l1.foldl (slackStep es ls) []).lookup v = Option.none :=
    slackFold_lookup_none es ls l1 [] v hv1 (by simp [List.lookup])
  rw [slackStep_eq_of_both he hx]
  obtain ⟨tl, htl⟩ := slackFold_ext es ls l2 _
  rw [htl, List.append_assoc]
  rw [lookup_append_none _ h1]
  exact lookup_append_some (lookup_singleton_same v _)

theorem slackFold_mem (es ls : List (Nat × Int)) :
    ∀ (l : List Nat) (acc : List (Nat × Int)) (p : Nat × Int),
      p ∈ l.foldl (slackStep es ls) acc →
      p ∈ acc ∨ ∃ v e x, es.lookup v = some e ∧ ls.lookup v = some x ∧
        p = (v, x - e) := by
  intro l
  induction l with
  | nil => intro acc p h; exact Or.inl (by simpa using h)
  | cons u l ih =>
      intro acc p h
      rw [List.foldl_cons] at h
      cases he : es.lookup u with
      | none =>
          rw [slackStep_eq_of_esnone he] at h
          exact ih acc p h
      | some e =>
          cases hx : ls.lookup u with
          | none =>
              rw [slackStep_eq_of_lsnone hx] at h
              exact ih acc p h
          | some x =>
              rw [slackStep_eq_of_both he hx] at h
              rcases ih _ p h with hm | hm
              · rcases List.mem_append.mp hm with hm | hm
                · exact Or.inl hm
                · rcases List.mem_singleton.mp hm with rfl
                  exact Or.inr ⟨u, e, x, he, hx, rfl⟩
              · exact Or.inr hm

theorem cst_eq_fold (tasks : List FrTask) :
    calculate_slack_times tasks =
      (tmKeys tasks).foldl
        (slackStep (calculate_earliest_start_times tasks)
          (calculate_latest_start_times tasks
            (calculate_earliest_start_times tasks))) [] := rfl

theorem cst_lookup (tasks : List FrTask) {v : Nat} (hvk : v ∈ tmKeys tasks)
    {e x : Int}
    (he : (calculate_earliest_start_times tasks).lookup v = some e)
    (hx : (calculate_latest_start_times tasks
      (calculate_earliest_start_times tasks)).lookup v = some x) :
    (calculate_slack_times tasks).lookup v = some (x - e) := by
  rw [cst_eq_fold]
  obtain ⟨a, b, hsplit⟩ := List.append_of_mem hvk
  have hva : v ∉ a := by
    have hnd : (a ++ v :: b).Nodup := hsplit ▸ tmKeys_nodup tasks
    rcases List.nodup_append.mp hnd with ⟨_, _, hdisj⟩
    intro hmem
    exact hdisj hmem (List.mem_cons_self _ _)
  rw [hsplit]
  exact slackFold_value _ _ v b hva he hx

theorem ces_lookup_mem (tasks : List FrTask)
    (hacy : DG.simple_cycles (build_graph tasks) = [])
    {ord : List Nat} (hord : DG.topoSort (build_graph tasks) = some ord)
    {v : Nat} {e : Int}
    (h : (calculate_earliest_start_times tasks).lookup v = some e) : v ∈ ord := by
  by_contra hv
  rw [ces_eq_fold tasks hacy hord] at h
  rw [esFold_lookup_none tasks _ ord [] v hv (by simp [List.lookup])] at h
  cases h

/-- Every computed slack is non-negative over an acyclic dependency graph. -/
theorem cst_nonneg (tasks : List FrTask)
    (hacy : DG.simple_cycles (build_graph tasks) = []) :
    ∀ p ∈ calculate_slack_times tasks, 0 ≤ p.2 := by
  obtain ⟨ord, hord⟩ :=
    DG.topoSort_isSome_of_no_cycles hacy (build_graph_nodup tasks)
  intro p hp
  rw [cst_eq_fold] at hp
  rcases slackFold_mem _ _ _ _ p hp with hm | ⟨v, e, x, he, hx, rfl⟩
  · simp at hm
  · have hvord : v ∈ ord := ces_lookup_mem tasks hacy hord he
    obtain ⟨l1, l2, hsplit⟩ := List.append_of_mem hvord
    have := cls_ge_ces tasks hacy hord (l2.length + 1) l1 v l2 hsplit
      (Nat.lt_succ_self _) e x he hx
    simpa using this

end CriticalPathCalculator

namespace CriticalPathCalculator

theorem path_weight_nil (tasks : List FrTask) : path_weight tasks [] = 0 := rfl

theorem path_weight_cons (tasks : List FrTask) (v : Nat) (p : List Nat) :
    path_weight tasks (v :: p) = durOf tasks v + path_weight tasks p := by
  unfold path_weight
  simp

theorem path_weight_append (tasks : List FrTask) (p q : List Nat) :
    path_weight tasks (p ++ q) = path_weight tasks p + path_weight tasks q := by
  unfold path_weight
  simp

theorem path_weight_singleton (tasks : List FrTask) (v : Nat) :
    path_weight tasks [v] = durOf tasks v := by
  unfold path_weight
  simp

/-- Along a dependency chain starting at a graph node, every element is a
graph node. -/
theorem bg_chain_mem_nodes (tasks : List FrTask) :
    ∀ (p : List Nat) (s : Nat), p.head? = some s → s ∈ (build_graph tasks).nodes →
      List.Chain' (fun a b => (a, b) ∈ (build_graph tasks).edges) p →
      ∀ x ∈ p, x ∈ (build_graph tasks).nodes := by
  intro p
  induction p with
  | nil => intro s h; cases h
  | cons a p ih =>
      intro s hh hs hch x hx
      have ha : a = s := by simpa using hh
      subst ha
      rcases List.mem_cons.mp hx with rfl | hx
      · exact hs
      · cases p with
        | nil => cases hx
        | cons b q =>
            have hedge : (a, b) ∈ (build_graph tasks).edges :=
              (List.chain'_cons.mp hch).1
            have hb : b ∈ (build_graph tasks).nodes :=
              (build_graph_edge_mem_nodes tasks hedge).2
            exact ih b rfl hb (List.chain'_cons.mp hch).2 x hx

/-- Outcome of `get_critical_path`: empty, or a maximal-weight candidate. -/
theorem gcp_cases (tasks : List FrTask) :
    get_critical_path tasks = [] ∨
    ∃ pw ∈ candidate_paths tasks (effectiveGraph tasks),
      get_critical_path tasks = pw.1 ∧
      ∀ q ∈ candidate_paths tasks (effectiveGraph tasks), q.2 ≤ pw.2 := by
  unfold get_critical_path
  by_cases h1 : tasks.isEmpty = true
  · rw [if_pos h1]; exact Or.inl rfl
  · rw [if_neg h1]
    show (if (start_nodes (effectiveGraph tasks)).isEmpty ∨
        (end_nodes (effectiveGraph tasks)).isEmpty then []
      else
        match candidate_paths tasks (effectiveGraph tasks) with
        | [] => []
        | p :: ps =>
            (ps.foldl (fun best q => if q.2 > best.2 then q else best) p).1) = [] ∨ _
    by_cases h2 : (start_nodes (effectiveGraph tasks)).isEmpty ∨
        (end_nodes (effectiveGraph tasks)).isEmpty
    · rw [if_pos h2]; exact Or.inl rfl
    · rw [if_neg h2]
      cases hcp : candidate_paths tasks (effectiveGraph tasks) with
      | nil => exact Or.inl rfl
      | cons p ps =>
          obtain ⟨hmem, hp, hps⟩ := max_fold_spec p ps
          refine Or.inr ⟨ps.foldl (fun best q => if q.2 > best.2 then q else best) p,
            ?_, rfl, ?_⟩
          · exact hmem
          · intro q hq
            rcases List.mem_cons.mp hq with rfl | hq
            · exact hp
            · exact hps q hq

theorem mem_candidate_paths {tasks : List FrTask} {g : DG Nat}
    {pw : List Nat × Nat} (h : pw ∈ candidate_paths tasks g) :
    ∃ s t, s ∈ start_nodes g ∧ t ∈ end_nodes g ∧
      pw.1 ∈ DG.all_simple_paths g s t ∧ pw.2 = path_weight tasks pw.1 := by
  unfold candidate_paths at h
  rcases List.mem_flatMap.mp h with ⟨s, hs, h⟩
  rcases List.mem_flatMap.mp h with ⟨t, ht, h⟩
  rcases List.mem_map.mp h with ⟨p, hp, rfl⟩
  exact ⟨s, t, hs, ht, hp, rfl⟩

theorem mem_candidate_paths_intro {tasks : List FrTask} {g : DG Nat}
    {s t : Nat} {p : List Nat} (hs : s ∈ start_nodes g) (ht : t ∈ end_nodes g)
    (hp : p ∈ DG.all_simple_paths g s t) :
    (p, path_weight tasks p) ∈ candidate_paths tasks g := by
  unfold candidate_paths
  refine List.mem_flatMap.mpr ⟨s, hs, ?_⟩
  refine List.mem_flatMap.mpr ⟨t, ht, ?_⟩
  exact List.mem_map.mpr ⟨p, hp, rfl⟩

theorem mem_start_nodes {g : DG Nat} {v : Nat} :
    v ∈ start_nodes g ↔ v ∈ g.nodes ∧ g.inDegree v = 0 := by
  unfold start_nodes
  rw [List.mem_filter]
  simp

theorem mem_end_nodes {g : DG Nat} {v : Nat} :
    v ∈ end_nodes g ↔ v ∈ g.nodes ∧ g.outDegree v = 0 := by
  unfold end_nodes
  rw [List.mem_filter]
  simp

/-- Along an edge, the latest start of the source plus its duration is at
most the latest start of the target. -/
theorem cls_edge_upper (tasks : List FrTask) (es : List (Nat × Int))
    (hacy : DG.simple_cycles (build_graph tasks) = [])
    {ord : List Nat} (hord : DG.topoSort (build_graph tasks) = some ord)
    {v w : Nat} (he : (v, w) ∈ (build_graph tasks).edges)
    {x xw : Int}
    (hx : (calculate_latest_start_times tasks es).lookup v = some x)
    (hxw : (calculate_latest_start_times tasks es).lookup w = some xw) :
    x + (durOf tasks v : Int) ≤ xw := by
  have hvn : v ∈ (build_graph tasks).nodes := (build_graph_edge_mem_nodes tasks he).1
  have hwn : w ∈ (build_graph tasks).nodes := (build_graph_edge_mem_nodes tasks he).2
  obtain ⟨l1, l2, hsplit⟩ := List.append_of_mem ((mem_ord_iff tasks hord v).mpr hvn)
  obtain ⟨t, ht⟩ := Option.isSome_iff_exists.mp
    ((tmLookup_isSome_iff tasks v).mpr
      ((mem_tmKeys tasks v).mp ((mem_nodes_iff_tmKeys tasks v).mp hvn)))
  have hwsucc : w ∈ (build_graph tasks).successors v := DG.mem_successors.mpr he
  have hsink : ((build_graph tasks).successors v).isEmpty = false := by
    cases hs : ((build_graph tasks).successors v).isEmpty with
    | false => rfl
    | true =>
        rw [List.isEmpty_iff] at hs
        rw [hs] at hwsucc
        cases hwsucc
  obtain ⟨mv, hmv, hxmv⟩ := cls_value_nonsink tasks es hacy hord hsplit ht hsink hx
  obtain ⟨m1, m2, hm⟩ := List.append_of_mem ((mem_ord_iff tasks hord w).mpr hwn)
  have hvm1 : v ∈ m1 := DG.topoSort_edge_before hord he hvn hm
  have hwl2 : w ∈ l2 :=
    nodup_split_mem (hsplit ▸ ord_nodup tasks hord) (hsplit.symm.trans hm) hvm1
  obtain ⟨y, hyp, hyf⟩ := cls_partial_lookup tasks es hacy hord hsplit hwl2
  have hyxw : y = xw := by
    rw [hyf] at hxw
    exact Option.some_inj.mp hxw
  have hmvy : mv ≤ y := by
    unfold lsMin at hmv
    exact minFold_le_term _ _ _ _ w y hmv hwsucc hyp
  rw [durOf_eq ht]
  omega

end CriticalPathCalculator

namespace CriticalPathCalculator

/-- The earliest start of a chain's endpoint dominates the weight of the
chain before it. -/
theorem ces_ge_prefix_weight (tasks : List FrTask)
    (hacy : DG.simple_cycles (build_graph tasks) = [])
    {ord : List Nat} (hord : DG.topoSort (build_graph tasks) = some ord) :
    ∀ (A : List Nat) (v : Nat) (e : Int),
      List.Chain' (fun a b => (a, b) ∈ (build_graph tasks).edges) (A ++ [v]) →
      (∀ x ∈ A, x ∈ (build_graph tasks).nodes) →
      (calculate_earliest_start_times tasks).lookup v = some e →
      (path_weight tasks A : Int) ≤ e := by
  intro A
  induction A using List.reverseRecOn with
  | nil =>
      intro v e _ _ he
      rw [path_weight_nil]
      simpa using ces_nonneg tasks hacy hord he
  | append_singleton A u ih =>
      intro v e hch hmem he
      rcases List.chain'_append.mp hch with ⟨hch1, _, hlink⟩
      have hedge : (u, v) ∈ (build_graph tasks).edges := by
        apply hlink u _ v _
        · rw [List.getLast?_concat]; rfl
        · rfl
      have hun : u ∈ (build_graph tasks).nodes :=
        hmem u (List.mem_append_right A (List.mem_singleton.mpr rfl))
      obtain ⟨eu, heu⟩ := ces_total tasks hacy hord hun
      have hmono := ces_edge_mono tasks hacy hord hedge heu he
      have hih := ih u eu hch1 (fun x hx => hmem x (List.mem_append_left _ hx)) heu
      rw [path_weight_append, path_weight_singleton]
      push_cast
      omega

/-- The latest start of a chain's head, plus the remaining chain weight, is
bounded by the project finish when the chain ends at an end node. -/
theorem cls_le_suffix (tasks : List FrTask) (es : List (Nat × Int))
    (hacy : DG.simple_cycles (build_graph tasks) = [])
    {ord : List Nat} (hord : DG.topoSort (build_graph tasks) = some ord) :
    ∀ (B : List Nat) (v : Nat) (x : Int) (tl : Nat),
      List.Chain' (fun a b => (a, b) ∈ (build_graph tasks).edges) (v :: B) →
      (∀ z ∈ v :: B, z ∈ (build_graph tasks).nodes) →
      (v :: B).getLast? = some tl → (build_graph tasks).outDegree tl = 0 →
      (calculate_latest_start_times tasks es).lookup v = some x →
      x + (durOf tasks v : Int) + (path_weight tasks B : Int) ≤
        project_finish_of tasks es := by
  intro B
  induction B with
  | nil =>
      intro v x tl _ hmem hlast hout hx
      have htlv : v = tl := by simpa using hlast
      subst htlv
      have hsink : ((build_graph tasks).successors v).isEmpty = true := by
        rw [List.isEmpty_iff, DG.successors_eq_nil_iff]
        exact DG.outDegree_eq_zero_iff.mp hout
      have hvk : v ∈ tmKeys tasks :=
        (mem_nodes_iff_tmKeys tasks v).mp (hmem v (List.mem_cons_self _ _))
      have hval := cls_value_sink tasks es hacy hord hvk hsink
      rw [hx] at hval
      have hxe := Option.some_inj.mp hval
      rw [path_weight_nil]
      push_cast
      omega
  | cons w B ih =>
      intro v x tl hch hmem hlast hout hx
      have hedge : (v, w) ∈ (build_graph tasks).edges := (List.chain'_cons.mp hch).1
      have hch' := (List.chain'_cons.mp hch).2
      have hlast' : (w :: B).getLast? = some tl := by
        rw [List.getLast?_cons_cons] at hlast
        exact hlast
      have hwn : w ∈ (build_graph tasks).nodes :=
        hmem w (List.mem_cons_of_mem _ (List.mem_cons_self _ _))
      obtain ⟨xw, hxw⟩ := cls_total tasks es hacy hord hwn
      have hup := cls_edge_upper tasks es hacy hord hedge hx hxw
      have hih := ih w xw tl hch' (fun z hz => hmem z (List.mem_cons_of_mem _ hz))
        hlast' hout hxw
      rw [path_weight_cons]
      push_cast
      omega

end CriticalPathCalculator

theorem head?_append_of_ne_nil {α : Type} {l : List α} (l2 : List α) {s : α}
    (h : l.head? = some s) : (l ++ l2).head? = some s := by
  cases l with
  | nil => cases h
  | cons a t => simpa using h

namespace CriticalPathCalculator

/-- Every earliest-start value is realized by a chain from some start node
(strong induction on distance from the beginning of the topological
order). -/
theorem ces_realized (tasks : List FrTask)
    (hacy : DG.simple_cycles (build_graph tasks) = [])
    {ord : List Nat} (hord : DG.topoSort (build_graph tasks) = some ord) :
    ∀ (n : Nat) (l1 : List Nat) (v : Nat) (l2 : List Nat), ord = l1 ++ v :: l2 →
      l1.length < n →
      ∀ e, (calculate_earliest_start_times tasks).lookup v = some e →
      ∃ (Q : List Nat) (s : Nat),
        Q.head? = some s ∧ Q.getLast? = some v ∧
        List.Chain' (fun a b => (a, b) ∈ (build_graph tasks).edges) Q ∧
        (∀ x ∈ Q, x ∈ (build_graph tasks).nodes) ∧
        (build_graph tasks).inDegree s = 0 ∧
        (path_weight tasks Q : Int) = e + (durOf tasks v : Int) := by
  intro n
  induction n with
  | zero => intro l1 v l2 _ h; exact absurd h (Nat.not_lt_zero _)
  | succ n ih =>
      intro l1 v l2 hsplit hlen e he
      have hvord : v ∈ ord := hsplit ▸ List.mem_append_right l1 (List.mem_cons_self _ _)
      have hvn : v ∈ (build_graph tasks).nodes := (mem_ord_iff tasks hord v).mp hvord
      obtain ⟨t, ht⟩ := Option.isSome_iff_exists.mp
        ((tmLookup_isSome_iff tasks v).mpr
          ((mem_tmKeys tasks v).mp ((mem_nodes_iff_tmKeys tasks v).mp hvn)))
      have hval := ces_lookup_value tasks hacy hord hsplit ht
      rw [he] at hval
      have hee := Option.some_inj.mp hval
      have hndl1 : l1.Nodup := by
        have hnd : (l1 ++ v :: l2).Nodup := hsplit ▸ ord_nodup tasks hord
        exact (List.nodup_append.mp hnd).1
      by_cases h0 : (build_graph tasks).inDegree v = 0
      · have hpred : (build_graph tasks).predecessors v = [] :=
          List.eq_nil_iff_forall_not_mem.mpr
            (fun u hu => (DG.inDegree_eq_zero_iff.mp h0) u (DG.mem_predecessors.mp hu))
        have he0 : e = 0 := by
          rw [hee]
          unfold esVal
          rw [hpred]
          rfl
        refine ⟨[v], v, rfl, by simp, List.chain'_singleton v, ?_, h0, ?_⟩
        · intro x hx
          rcases List.mem_singleton.mp hx with rfl
          exact hvn
        · rw [path_weight_singleton, he0]
          omega
      · have hex : ∃ u, (u, v) ∈ (build_graph tasks).edges := by
          by_contra hno
          push_neg at hno
          exact h0 (DG.inDegree_eq_zero_iff.mpr hno)
        have hmain : ∃ u, (u, v) ∈ (build_graph tasks).edges ∧
            ∃ eu, (calculate_earliest_start_times tasks).lookup u = some eu ∧
              eu + (durOf tasks u : Int) = e := by
          rcases maxFold_attain
              (esTerm tasks (l1.foldl (esStep tasks (build_graph tasks)) []))
              ((build_graph tasks).predecessors v) 0 with hinit | ⟨p, hp, hfp⟩
          · obtain ⟨u, hu⟩ := hex
            have hupred : u ∈ (build_graph tasks).predecessors v :=
              DG.mem_predecessors.mpr hu
            have hun : u ∈ (build_graph tasks).nodes :=
              (build_graph_edge_mem_nodes tasks hu).1
            obtain ⟨tu, htu⟩ := Option.isSome_iff_exists.mp
              ((tmLookup_isSome_iff tasks u).mpr
                ((mem_tmKeys tasks u).mp ((mem_nodes_iff_tmKeys tasks u).mp hun)))
            have hul1 : u ∈ l1 := DG.topoSort_edge_before hord hu hun hsplit
            obtain ⟨pes, hpes⟩ :=
              es_prefix_lookup tasks (build_graph tasks) hndl1 hul1 htu
            have hterm : esTerm tasks
                (l1.foldl (esStep tasks (build_graph tasks)) []) u =
                some (pes + (tu.duree_estimee : Int)) := by
              unfold esTerm
              rw [hpes, htu]
            have hge := maxFold_ge_term
              (esTerm tasks (l1.foldl (esStep tasks (build_graph tasks)) []))
              ((build_graph tasks).predecessors v) 0 u _ hupred hterm
            have hfull : (calculate_earliest_start_times tasks).lookup u = some pes := by
              rw [ces_eq_fold tasks hacy hord, hsplit]
              exact esFold_stable tasks (build_graph tasks) (v :: l2) hpes
            have hpes0 : 0 ≤ pes := ces_nonneg tasks hacy hord hfull
            have hevval : esVal tasks (build_graph tasks)
                (l1.foldl (esStep tasks (build_graph tasks)) []) v = 0 := by
              unfold esVal
              rw [hinit]
            rw [← hee] at hevval
            refine ⟨u, hu, pes, hfull, ?_⟩
            rw [durOf_eq htu]
            have hgev : pes + (tu.duree_estimee : Int) ≤ 0 := le_trans hge (le_of_eq hinit)
            omega
          · have hpn : p ∈ (build_graph tasks).nodes := by
              have hedge : (p, v) ∈ (build_graph tasks).edges :=
                DG.mem_predecessors.mp hp
              exact (build_graph_edge_mem_nodes tasks hedge).1
            refine ⟨p, DG.mem_predecessors.mp hp, ?_⟩
            cases hpes : (l1.foldl (esStep tasks (build_graph tasks)) []).lookup p with
            | none =>
                have hnone : esTerm tasks
                    (l1.foldl (esStep tasks (build_graph tasks)) []) p =
                    Option.none := by
                  unfold esTerm
                  rw [hpes]
                rw [hnone] at hfp
                cases hfp
            | some pes =>
                cases htp : tmLookup tasks p with
                | none =>
                    have hnone : esTerm tasks
                        (l1.foldl (esStep tasks (build_graph tasks)) []) p =
                        Option.none := by
                      unfold esTerm
                      rw [hpes, htp]
                    rw [hnone] at hfp
                    cases hfp
                | some pt =>
                    have hterm : esTerm tasks
                        (l1.foldl (esStep tasks (build_graph tasks)) []) p =
                        some (pes + (pt.duree_estimee : Int)) := by
                      unfold esTerm
                      rw [hpes, htp]
                    rw [hterm] at hfp
                    have hcast := Option.some_inj.mp hfp
                    have hfull : (calculate_earliest_start_times tasks).lookup p =
                        some pes := by
                      rw [ces_eq_fold tasks hacy hord, hsplit]
                      exact esFold_stable tasks (build_graph tasks) (v :: l2) hpes
                    refine ⟨pes, hfull, ?_⟩
                    rw [durOf_eq htp]
                    have hev : esVal tasks (build_graph tasks)
                        (l1.foldl (esStep tasks (build_graph tasks)) []) v =
                        maxFold (esTerm tasks
                          (l1.foldl (esStep tasks (build_graph tasks)) []))
                          ((build_graph tasks).predecessors v) 0 := rfl
                    rw [hee, hev, ← hcast]
        obtain ⟨u, hu, eu, heu, heue⟩ := hmain
        have hun : u ∈ (build_graph tasks).nodes :=
          (build_graph_edge_mem_nodes tasks hu).1
        have hul1 : u ∈ l1 := DG.topoSort_edge_before hord hu hun hsplit
        obtain ⟨a, b, hab⟩ := List.append_of_mem hul1
        have hordu : ord = a ++ u :: (b ++ v :: l2) := by rw [hsplit, hab]; simp
        have halen : a.length < n := by
          have h1 : l1.length = a.length + (b.length + 1) := by
            rw [hab]; simp [List.length_append]
          omega
        obtain ⟨Q, s, hQh, hQl, hQc, hQm, hQs, hQw⟩ := ih a u (b ++ v :: l2) hordu halen eu heu
        refine ⟨Q ++ [v], s, head?_append_of_ne_nil [v] hQh, List.getLast?_concat _, ?_, ?_, hQs, ?_⟩
        · refine List.chain'_append.mpr ⟨hQc, List.chain'_singleton v, ?_⟩
          intro x hx y hy
          rw [hQl] at hx
          have hxu : u = x := Option.some_inj.mp (Option.mem_def.mp hx)
          have hyv : v = y := by simpa using Option.mem_def.mp hy
          rw [← hxu, ← hyv]
          exact hu
        · intro x hx
          rcases List.mem_append.mp hx with hx | hx
          · exact hQm x hx
          · rcases List.mem_singleton.mp hx with rfl
            exact hvn
        · rw [path_weight_append, path_weight_singleton]
          push_cast
          omega

end CriticalPathCalculator

namespace CriticalPathCalculator

/-- Every latest finish is bounded by the project finish. -/
theorem cls_add_dur_le_pf (tasks : List FrTask) (es : List (Nat × Int))
    (hacy : DG.simple_cycles (build_graph tasks) = [])
    {ord : List Nat} (hord : DG.topoSort (build_graph tasks) = some ord) :
    ∀ (n : Nat) (l1 : List Nat) (v : Nat) (l2 : List Nat), ord = l1 ++ v :: l2 →
      l2.length < n →
      ∀ x, (calculate_latest_start_times tasks es).lookup v = some x →
      x + (durOf tasks v : Int) ≤ project_finish_of tasks es := by
  intro n
  induction n with
  | zero => intro l1 v l2 _ h; exact absurd h (Nat.not_lt_zero _)
  | succ n ih =>
      intro l1 v l2 hsplit hlen x hx
      have hvord : v ∈ ord := hsplit ▸ List.mem_append_right l1 (List.mem_cons_self _ _)
      have hvn : v ∈ (build_graph tasks).nodes := (mem_ord_iff tasks hord v).mp hvord
      have hvk : v ∈ tmKeys tasks := (mem_nodes_iff_tmKeys tasks v).mp hvn
      obtain ⟨t, ht⟩ := Option.isSome_iff_exists.mp
        ((tmLookup_isSome_iff tasks v).mpr ((mem_tmKeys tasks v).mp hvk))
      cases hsink : ((build_graph tasks).successors v).isEmpty with
      | true =>
          have hval := cls_value_sink tasks es hacy hord hvk hsink
          rw [hx] at hval
          have hxe := Option.some_inj.mp hval
          omega
      | false =>
          obtain ⟨mv, hmv, hxmv⟩ :=
            cls_value_nonsink tasks es hacy hord hsplit ht hsink hx
          unfold lsMin at hmv
          rcases minFold_attain _ _ _ _ hmv with h0 | ⟨w, hw, hfw⟩
          · cases h0
          · have hy : ((l2.reverse).foldl (lsStep tasks (build_graph tasks))
                (lsInit tasks (build_graph tasks)
                  (project_finish_of tasks es))).lookup w = some mv := hfw
            have hedge : (v, w) ∈ (build_graph tasks).edges := DG.mem_successors.mp hw
            have hwn : w ∈ (build_graph tasks).nodes :=
              (build_graph_edge_mem_nodes tasks hedge).2
            obtain ⟨m1, m2, hm⟩ :=
              List.append_of_mem ((mem_ord_iff tasks hord w).mpr hwn)
            have hvm1 : v ∈ m1 := DG.topoSort_edge_before hord hedge hvn hm
            have hwl2 : w ∈ l2 :=
              nodup_split_mem (hsplit ▸ ord_nodup tasks hord)
                (hsplit.symm.trans hm) hvm1
            obtain ⟨y, hyp, hyf⟩ := cls_partial_lookup tasks es hacy hord hsplit hwl2
            have hyy : y = mv := by
              rw [hy] at hyp
              exact (Option.some_inj.mp hyp).symm
            subst hyy
            obtain ⟨a, b, hab⟩ := List.append_of_mem hwl2
            have hords : ord = (l1 ++ v :: a) ++ w :: b := by rw [hsplit, hab]; simp
            have hblen : b.length < n := by
              have : l2.length = a.length + (b.length + 1) := by
                rw [hab]; simp [List.length_append]
              omega
            have hih := ih (l1 ++ v :: a) w b hords hblen y hyf
            have hdw : (0 : Int) ≤ (durOf tasks w : Int) := by positivity
            rw [durOf_eq ht]
            omega

/-- Every latest-start value is realized by a chain to some end node. -/
theorem cls_realized (tasks : List FrTask) (es : List (Nat × Int))
    (hacy : DG.simple_cycles (build_graph tasks) = [])
    {ord : List Nat} (hord : DG.topoSort (build_graph tasks) = some ord) :
    ∀ (n : Nat) (l1 : List Nat) (v : Nat) (l2 : List Nat), ord = l1 ++ v :: l2 →
      l2.length < n →
      ∀ x, (calculate_latest_start_times tasks es).lookup v = some x →
      ∃ (R : List Nat) (tl : Nat),
        R.head? = some v ∧ R.getLast? = some tl ∧
        List.Chain' (fun a b => (a, b) ∈ (build_graph tasks).edges) R ∧
        (∀ z ∈ R, z ∈ (build_graph tasks).nodes) ∧
        (build_graph tasks).outDegree tl = 0 ∧
        (path_weight tasks R : Int) = project_finish_of tasks es - x := by
  intro n
  induction n with
  | zero => intro l1 v l2 _ h; exact absurd h (Nat.not_lt_zero _)
  | succ n ih =>
      intro l1 v l2 hsplit hlen x hx
      have hvord : v ∈ ord := hsplit ▸ List.mem_append_right l1 (List.mem_cons_self _ _)
      have hvn : v ∈ (build_graph tasks).nodes := (mem_ord_iff tasks hord v).mp hvord
      have hvk : v ∈ tmKeys tasks := (mem_nodes_iff_tmKeys tasks v).mp hvn
      obtain ⟨t, ht⟩ := Option.isSome_iff_exists.mp
        ((tmLookup_isSome_iff tasks v).mpr ((mem_tmKeys tasks v).mp hvk))
      cases hsink : ((build_graph tasks).successors v).isEmpty with
      | true =>
          have hval := cls_value_sink tasks es hacy hord hvk hsink
          rw [hx] at hval
          have hxe := Option.some_inj.mp hval
          have hout : (build_graph tasks).outDegree v = 0 := by
            apply DG.outDegree_eq_zero_iff.mpr
            apply DG.successors_eq_nil_iff.mp
            exact List.isEmpty_iff.mp hsink
          refine ⟨[v], v, rfl, by simp, List.chain'_singleton v, ?_, hout, ?_⟩
          · intro z hz
            rcases List.mem_singleton.mp hz with rfl
            exact hvn
          · rw [path_weight_singleton]
            omega
      | false =>
          obtain ⟨mv, hmv, hxmv⟩ :=
            cls_value_nonsink tasks es hacy hord hsplit ht hsink hx
          unfold lsMin at hmv
          rcases minFold_attain _ _ _ _ hmv with h0 | ⟨w, hw, hfw⟩
          · cases h0
          · have hy : ((l2.reverse).foldl (lsStep tasks (build_graph tasks))
                (lsInit tasks (build_graph tasks)
                  (project_finish_of tasks es))).lookup w = some mv := hfw
            have hedge : (v, w) ∈ (build_graph tasks).edges := DG.mem_successors.mp hw
            have hwn : w ∈ (build_graph tasks).nodes :=
              (build_graph_edge_mem_nodes tasks hedge).2
            obtain ⟨m1, m2, hm⟩ :=
              List.append_of_mem ((mem_ord_iff tasks hord w).mpr hwn)
            have hvm1 : v ∈ m1 := DG.topoSort_edge_before hord hedge hvn hm
            have hwl2 : w ∈ l2 :=
              nodup_split_mem (hsplit ▸ ord_nodup tasks hord)
                (hsplit.symm.trans hm) hvm1
            obtain ⟨y, hyp, hyf⟩ := cls_partial_lookup tasks es hacy hord hsplit hwl2
            have hyy : y = mv := by
              rw [hy] at hyp
              exact (Option.some_inj.mp hyp).symm
            subst hyy
            obtain ⟨a, b, hab⟩ := List.append_of_mem hwl2
            have hords : ord = (l1 ++ v :: a) ++ w :: b := by rw [hsplit, hab]; simp
            have hblen : b.length < n := by
              have : l2.length = a.length + (b.length + 1) := by
                rw [hab]; simp [List.length_append]
              omega
            obtain ⟨R, tl, hRh, hRl, hRc, hRm, hRo, hRw⟩ :=
              ih (l1 ++ v :: a) w b hords hblen y hyf
            have hRne : R ≠ [] := by
              intro h0
              rw [h0] at hRh
              cases hRh
            refine ⟨v :: R, tl, rfl, ?_, ?_, ?_, hRo, ?_⟩
            · rw [DG.getLast?_cons_of_ne_nil hRne]
              exact hRl
            · apply List.chain'_cons'.mpr
              refine ⟨?_, hRc⟩
              intro z hz
              rw [hRh] at hz
              have : w = z := Option.some_inj.mp (Option.mem_def.mp hz)
              rw [← this]
              exact hedge
            · intro z hz
              rcases List.mem_cons.mp hz with rfl | hz
              · exact hvn
              · exact hRm z hz
            · rw [path_weight_cons]
              push_cast
              rw [durOf_eq ht]
              omega

end CriticalPathCalculator

theorem getLast?_cons_right {α : Type} {a : α} {l : List α} (h : l ≠ []) :
    (a :: l).getLast? = l.getLast? := by
  cases l with
  | nil => exact absurd rfl h
  | cons b t => simp [List.getLast?_cons_cons]

theorem getLast?_append_right {α : Type} :
    ∀ (l1 : List α) {l2 : List α}, l2 ≠ [] →
      (l1 ++ l2).getLast? = l2.getLast? := by
  intro l1
  induction l1 with
  | nil => intro l2 _; simp
  | cons a t ih =>
      intro l2 h
      rw [List.cons_append]
      have htl2 : t ++ l2 ≠ [] := by
        intro h0
        rcases List.append_eq_nil.mp h0 with ⟨_, h2⟩
        exact h h2
      rw [getLast?_cons_right htl2]
      exact ih h

theorem mem_of_head? {α : Type} {l : List α} {a : α} (h : l.head? = some a) :
    a ∈ l := by
  cases l with
  | nil => cases h
  | cons b t =>
      have : b = a := by simpa using h
      exact this ▸ List.mem_cons_self _ _

namespace CriticalPathCalculator

/-- The maximal candidate-path weight dominates the project finish. -/
theorem pf_le_gcp_weight (tasks : List FrTask)
    (hacy : DG.simple_cycles (build_graph tasks) = [])
    {ord : List Nat} (hord : DG.topoSort (build_graph tasks) = some ord)
    {pw : List Nat × Nat} (hpw : pw ∈ candidate_paths tasks (effectiveGraph tasks))
    (hmax : ∀ q ∈ candidate_paths tasks (effectiveGraph tasks), q.2 ≤ pw.2) :
    project_finish_of tasks (calculate_earliest_start_times tasks) ≤ (pw.2 : Int) := by
  rcases maxFold_attain (fun v =>
      match (calculate_earliest_start_times tasks).lookup v with
      | some e => some (e + (durOf tasks v : Int))
      | Option.none => Option.none) (tmKeys tasks) 0 with h0 | ⟨v, hv, hfv⟩
  · have hpf : project_finish_of tasks (calculate_earliest_start_times tasks) = 0 := h0
    rw [hpf]
    positivity
  · have hfv' : (match (calculate_earliest_start_times tasks).lookup v with
        | some e => some (e + (durOf tasks v : Int))
        | Option.none => Option.none) =
        some (project_finish_of tasks (calculate_earliest_start_times tasks)) := hfv
    cases he : (calculate_earliest_start_times tasks).lookup v with
    | none => rw [he] at hfv'; cases hfv'
    | some e =>
    rw [he] at hfv'
    have hepf : e + (durOf tasks v : Int) =
        project_finish_of tasks (calculate_earliest_start_times tasks) :=
      Option.some_inj.mp hfv'
    have hvn : v ∈ (build_graph tasks).nodes := (mem_nodes_iff_tmKeys tasks v).mpr hv
    obtain ⟨l1, l2, hsplit⟩ := List.append_of_mem ((mem_ord_iff tasks hord v).mpr hvn)
    obtain ⟨Q, s, hQh, hQl, hQc, hQm, hQs, hQw⟩ :=
      ces_realized tasks hacy hord (l1.length + 1) l1 v l2 hsplit
        (Nat.lt_succ_self _) e he
    obtain ⟨x, hx⟩ :=
      cls_total tasks (calculate_earliest_start_times tasks) hacy hord hvn
    obtain ⟨R, tl, hRh, hRl, hRc, hRm, hRo, hRw⟩ :=
      cls_realized tasks (calculate_earliest_start_times tasks) hacy hord
        (l2.length + 1) l1 v l2 hsplit (Nat.lt_succ_self _) x hx
    have hU1 := cls_add_dur_le_pf tasks (calculate_earliest_start_times tasks)
      hacy hord (l2.length + 1) l1 v l2 hsplit (Nat.lt_succ_self _) x hx
    obtain ⟨R', hR'⟩ : ∃ R', R = v :: R' := by
      cases R with
      | nil => cases hRh
      | cons r0 R' =>
          have : r0 = v := by simpa using hRh
          exact ⟨R', by rw [this]⟩
    subst hR'
    have hQne : Q ≠ [] := by
      intro h0
      rw [h0] at hQh
      cases hQh
    have hWc : List.Chain' (fun a b => (a, b) ∈ (build_graph tasks).edges) (Q ++ R') := by
      apply List.chain'_append.mpr
      refine ⟨hQc, (List.chain'_cons'.mp hRc).2, ?_⟩
      intro p hp y hy
      rw [hQl] at hp
      have hpv : v = p := Option.some_inj.mp (Option.mem_def.mp hp)
      rw [← hpv]
      exact (List.chain'_cons'.mp hRc).1 y hy
    have hWm : ∀ z ∈ Q ++ R', z ∈ (build_graph tasks).nodes := by
      intro z hz
      rcases List.mem_append.mp hz with hz | hz
      · exact hQm z hz
      · exact hRm z (List.mem_cons_of_mem _ hz)
    have hWnd : (Q ++ R').Nodup :=
      DG.nodup_of_chain' hacy (build_graph_nodup tasks) hWm hWc
    have hWh : (Q ++ R').head? = some s := head?_append_of_ne_nil R' hQh
    have hWl : (Q ++ R').getLast? = some tl := by
      cases hR'nil : R' with
      | nil =>
          rw [hR'nil] at hRl
          have : v = tl := by simpa using hRl
          rw [List.append_nil, hQl, this]
      | cons r1 R'' =>
          rw [← hR'nil]
          have hR'ne : R' ≠ [] := by rw [hR'nil]; simp
          rw [getLast?_append_right Q hR'ne, ← getLast?_cons_right hR'ne]
          exact hRl
    have hsn : s ∈ (build_graph tasks).nodes := hQm s (mem_of_head? hQh)
    have htln : tl ∈ (build_graph tasks).nodes := by
      cases hR'nil : R' with
      | nil =>
          rw [hR'nil] at hRl
          have : v = tl := by simpa using hRl
          exact this ▸ hvn
      | cons r1 R'' =>
          have hR'ne : R' ≠ [] := by rw [hR'nil]; simp
          have : tl ∈ v :: R' := by
            have := List.mem_of_mem_getLast? hRl
            exact this
          rcases List.mem_cons.mp this with rfl | hmem
          · exact hvn
          · exact hRm tl (List.mem_cons_of_mem _ hmem)
    have hWpath : Q ++ R' ∈ DG.all_simple_paths (build_graph tasks) s tl :=
      DG.all_simple_paths_complete hsn htln hWm hWh hWl hWc hWnd
    have hscand : s ∈ start_nodes (build_graph tasks) :=
      mem_start_nodes.mpr ⟨hsn, hQs⟩
    have htlcand : tl ∈ end_nodes (build_graph tasks) :=
      mem_end_nodes.mpr ⟨htln, hRo⟩
    have hWmem : (Q ++ R', path_weight tasks (Q ++ R')) ∈
        candidate_paths tasks (effectiveGraph tasks) := by
      rw [effectiveGraph_of_acyclic hacy]
      exact mem_candidate_paths_intro hscand htlcand hWpath
    have hWle : path_weight tasks (Q ++ R') ≤ pw.2 := hmax _ hWmem
    have hWweight : path_weight tasks (Q ++ R') =
        path_weight tasks Q + path_weight tasks R' :=
      path_weight_append tasks Q R'
    have hRweight : path_weight tasks (v :: R') =
        durOf tasks v + path_weight tasks R' := path_weight_cons tasks v R'
    have hcast : (path_weight tasks (Q ++ R') : Int) ≤ (pw.2 : Int) := by
      exact_mod_cast hWle
    rw [hWweight] at hcast
    rw [hRweight] at hRw
    push_cast at hcast hRw
    omega

end CriticalPathCalculator

namespace CriticalPathCalculator

/-- Every task on the returned critical path has slack exactly zero. -/
theorem cst_zero_on_path (tasks : List FrTask)
    (hacy : DG.simple_cycles (build_graph tasks) = []) :
    ∀ v ∈ get_critical_path tasks,
      (calculate_slack_times tasks).lookup v = some 0 := by
  obtain ⟨ord, hord⟩ :=
    DG.topoSort_isSome_of_no_cycles hacy (build_graph_nodup tasks)
  intro v hv
  rcases gcp_cases tasks with hnil | ⟨pw, hpw, hgcp, hmax⟩
  · rw [hnil] at hv; cases hv
  · rw [hgcp] at hv
    have hpw' := hpw
    rw [effectiveGraph_of_acyclic hacy] at hpw'
    obtain ⟨s, t, hs, ht, hpath, hw2⟩ := mem_candidate_paths hpw'
    obtain ⟨hhead, hlast, hchain⟩ := DG.all_simple_paths_sound hpath
    have hsn : s ∈ (build_graph tasks).nodes := (mem_start_nodes.mp hs).1
    have hmemN : ∀ z ∈ pw.1, z ∈ (build_graph tasks).nodes :=
      bg_chain_mem_nodes tasks pw.1 s hhead hsn hchain
    obtain ⟨A, B, hAB⟩ := List.append_of_mem hv
    have hvn : v ∈ (build_graph tasks).nodes := hmemN v hv
    have hvk : v ∈ tmKeys tasks := (mem_nodes_iff_tmKeys tasks v).mp hvn
    obtain ⟨e, he⟩ := ces_total tasks hacy hord hvn
    obtain ⟨x, hx⟩ :=
      cls_total tasks (calculate_earliest_start_times tasks) hacy hord hvn
    obtain ⟨o1, o2, hosplit⟩ := List.append_of_mem ((mem_ord_iff tasks hord v).mpr hvn)
    have hle : e ≤ x := cls_ge_ces tasks hacy hord (o2.length + 1) o1 v o2 hosplit
      (Nat.lt_succ_self _) e x he hx
    rw [hAB] at hchain
    have hch2 : List.Chain' (fun a b => (a, b) ∈ (build_graph tasks).edges)
        ((A ++ [v]) ++ B) := by
      rw [show (A ++ [v]) ++ B = A ++ v :: B by simp]
      exact hchain
    have hchA : List.Chain' (fun a b => (a, b) ∈ (build_graph tasks).edges)
        (A ++ [v]) := (List.chain'_append.mp hch2).1
    have hchVB : List.Chain' (fun a b => (a, b) ∈ (build_graph tasks).edges)
        (v :: B) := (List.chain'_append.mp hchain).2.1
    have hpre : (path_weight tasks A : Int) ≤ e :=
      ces_ge_prefix_weight tasks hacy hord A v e hchA
        (fun z hz => hmemN z (hAB ▸ List.mem_append_left _ hz)) he
    have hlastVB : (v :: B).getLast? = some t := by
      rw [hAB] at hlast
      rw [getLast?_append_right A (by simp : (v :: B) ≠ [])] at hlast
      exact hlast
    have hout : (build_graph tasks).outDegree t = 0 := (mem_end_nodes.mp ht).2
    have hsuf := cls_le_suffix tasks (calculate_earliest_start_times tasks)
      hacy hord B v x t hchVB
      (fun z hz => hmemN z (hAB ▸ List.mem_append_right _ hz)) hlastVB hout hx
    have hpf := pf_le_gcp_weight tasks hacy hord hpw hmax
    rw [hAB, path_weight_append, path_weight_cons] at hw2
    have hslack := cst_lookup tasks hvk he hx
    have hzero : x - e = 0 := by
      have hw2' : (pw.2 : Int) = (path_weight tasks A : Int) +
          (durOf tasks v : Int) + (path_weight tasks B : Int) := by
        rw [hw2]; push_cast; ring
      omega
    rw [hslack, hzero]

end CriticalPathCalculator

/-! ## Claims -/

/-- C1: on the four-task scenario (durations 2, 5, 1, 3; task 2 and 3 after
task 1, task 4 after 2 and 3), the computed critical path is `[1, 2, 4]`,
its total duration is `10`, and task 3 has slack `4`. -/
theorem C1_cpm_scenario :
    CriticalPathCalculator.get_critical_path Scenario.cpmTasks = [1, 2, 4] ∧
    (CriticalPathCalculator.get_critical_path_details Scenario.cpmTasks).total_duration = 10 ∧
    (CriticalPathCalculator.calculate_slack_times Scenario.cpmTasks).lookup 3 = some 4 := by
  refine ⟨?_, ?_, ?_⟩ <;> decide

/-- C2: over an acyclic dependency graph, every task on the returned
critical path has slack exactly `0`, and every computed slack of a task not
on that path is non-negative. -/
theorem C2_acyclic_path_slack (tasks : List FrTask)
    (hacy : DG.simple_cycles (CriticalPathCalculator.build_graph tasks) = []) :
    (∀ v ∈ CriticalPathCalculator.get_critical_path tasks,
      (CriticalPathCalculator.calculate_slack_times tasks).lookup v = some 0) ∧
    (∀ p ∈ CriticalPathCalculator.calculate_slack_times tasks,
      p.1 ∉ CriticalPathCalculator.get_critical_path tasks → 0 ≤ p.2) :=
  ⟨CriticalPathCalculator.cst_zero_on_path tasks hacy,
   fun p hp _ => CriticalPathCalculator.cst_nonneg tasks hacy p hp⟩

/-- C2 (witness): the four-task scenario has an acyclic dependency graph,
and the theorem applies to it. -/
theorem C2_acyclic_path_slack_witness :
    (∀ v ∈ CriticalPathCalculator.get_critical_path Scenario.cpmTasks,
      (CriticalPathCalculator.calculate_slack_times Scenario.cpmTasks).lookup v = some 0) ∧
    (∀ p ∈ CriticalPathCalculator.calculate_slack_times Scenario.cpmTasks,
      p.1 ∉ CriticalPathCalculator.get_critical_path Scenario.cpmTasks → 0 ≤ p.2) :=
  C2_acyclic_path_slack Scenario.cpmTasks (by decide)

/-- C5: on an empty task list the critical path is empty with zero total
duration, and the risk report has all seven risk lists empty, zero total
risks, and overall level `"Très faible"`. -/
theorem C5_empty_inputs :
    CriticalPathCalculator.get_critical_path [] = [] ∧
    (CriticalPathCalculator.get_critical_path_details []).total_duration = 0 ∧
    ∀ cp : List Nat,
      (RiskDetector.detect_risks [] cp).risks =
        ⟨[], [], [], [], [], [], []⟩ ∧
      (RiskDetector.detect_risks [] cp).total_risks = 0 ∧
      (RiskDetector.detect_risks [] cp).risk_level = "Très faible" :=
  ⟨by decide, by decide, fun cp => ⟨rfl, rfl, rfl⟩⟩

namespace DG

variable {α : Type} [DecidableEq α]

theorem mem_insertAll_perm (x : α) :
    ∀ (ys : List α) (l : List α), l ∈ insertAll x ys → l.Perm (x :: ys) := by
  intro ys
  induction ys with
  | nil =>
      intro l h
      rcases List.mem_singleton.mp h with rfl
      exact List.Perm.refl _
  | cons y ys ih =>
      intro l h
      unfold insertAll at h
      rcases List.mem_cons.mp h with rfl | h
      · exact List.Perm.refl _
      · rcases List.mem_map.mp h with ⟨l2, hl2, rfl⟩
        exact (List.Perm.cons y (ih l2 hl2)).trans (List.Perm.swap x y ys)

theorem mem_perms_perm :
    ∀ (l2 l : List α), l ∈ perms l2 → l.Perm l2 := by
  intro l2
  induction l2 with
  | nil =>
      intro l h
      rcases List.mem_singleton.mp h with rfl
      exact List.Perm.refl _
  | cons x xs ih =>
      intro l h
      unfold perms at h
      rcases List.mem_flatMap.mp h with ⟨q, hq, hl⟩
      exact (mem_insertAll_perm x q l hl).trans (List.Perm.cons x (ih q hq))

/-- Every enumerated simple cycle is duplicate-free. -/
theorem mem_simple_cycles_nodup {g : DG α} (hnd : g.nodes.Nodup)
    {c : List α} (hc : c ∈ simple_cycles g) : c.Nodup := by
  unfold simple_cycles at hc
  rcases List.mem_flatMap.mp hc with ⟨S, hS, hc⟩
  cases S with
  | nil => cases hc
  | cons h tS =>
      rcases List.mem_filter.mp hc with ⟨hmem, _⟩
      rcases List.mem_map.mp hmem with ⟨p, hp, rfl⟩
      have hperm : (h :: p).Perm (h :: tS) := List.Perm.cons h (mem_perms_perm tS p hp)
      have hsub : (h :: tS).Sublist g.nodes := List.mem_sublists.mp hS
      exact hperm.nodup_iff.mpr (hsub.nodup hnd)

/-- In a duplicate-free cycle of at least two nodes, no wrap-around edge is
a self-loop. -/
theorem cycleEdges_no_selfloop {c : List α} (hnd : c.Nodup) (hlen : 2 ≤ c.length)
    {e : α × α} (he : e ∈ cycleEdges c) : e.1 ≠ e.2 := by
  rcases mem_cycleEdges.mp he with ⟨i, hi, h1, h2⟩
  intro heq
  rw [heq] at h1
  rcases Nat.lt_or_ge (i + 1) c.length with hlt | hge
  · rw [Nat.mod_eq_of_lt hlt] at h2
    have : i = i + 1 := List.getElem?_inj hi hnd (h1.trans h2.symm)
    omega
  · have hin : i + 1 = c.length := by omega
    rw [hin, Nat.mod_self] at h2
    have h0 : i = 0 := List.getElem?_inj hi hnd (h1.trans h2.symm)
    omega

end DG

namespace CriticalPathCalculator

/-- The winning edge of `_break_cycle`'s search comes from the cycle's edge
list. -/
theorem bcFold_best_mem (tasks : List FrTask) (g : DG Nat) :
    ∀ (l : List (Nat × Nat)) (acc : Option ((Nat × Nat) × Nat)) (e : Nat × Nat) (w : Nat),
      l.foldl (bcStep tasks g) acc = some (e, w) →
      acc = some (e, w) ∨ e ∈ l := by
  intro l
  induction l with
  | nil => intro acc e w h; exact Or.inl (by simpa using h)
  | cons e2 l ih =>
      intro acc e w h
      rw [List.foldl_cons] at h
      rcases ih _ e w h with hstep | hmem
      · unfold bcStep at hstep
        by_cases he2 : e2 ∈ g.edges
        · rw [if_pos he2] at hstep
          cases acc with
          | none =>
              simp only at hstep
              have h2 := Option.some_inj.mp hstep
              injection h2 with hA hB
              exact Or.inr (hA ▸ List.mem_cons_self _ _)
          | some p =>
              obtain ⟨e', mw⟩ := p
              simp only at hstep
              by_cases hw : durOf tasks e2.1 < mw
              · rw [if_pos hw] at hstep
                have h2 := Option.some_inj.mp hstep
                injection h2 with hA hB
                exact Or.inr (hA ▸ List.mem_cons_self _ _)
              · rw [if_neg hw] at hstep
                exact Or.inl hstep
        · rw [if_neg he2] at hstep
          exact Or.inl hstep
      · exact Or.inr (List.mem_cons_of_mem _ hmem)

/-- `_break_cycle` never removes a self-loop: the removed edge joins two
distinct nodes of a duplicate-free cycle. -/
theorem break_cycle_selfloop (tasks : List FrTask) (g : DG Nat) {c : List Nat}
    (hnd : c.Nodup) {x : Nat} (hx : (x, x) ∈ g.edges) :
    (x, x) ∈ (break_cycle tasks g c).edges := by
  unfold break_cycle
  by_cases hlen : c.length < 2
  · rw [if_pos hlen]; exact hx
  · rw [if_neg hlen]
    cases hbest : (DG.cycleEdges c).foldl (bcStep tasks g) Option.none with
    | none => simp only [hbest]; exact hx
    | some p =>
        obtain ⟨e, w⟩ := p
        simp only [hbest]
        rw [DG.mem_removeEdge_edges]
        refine ⟨hx, ?_⟩
        rcases bcFold_best_mem tasks g _ _ e w hbest with h0 | hmem
        · cases h0
        · have hne := DG.cycleEdges_no_selfloop hnd (by omega) hmem
          intro hxe
          apply hne
          have h1 : x = e.1 := congrArg Prod.fst hxe
          have h2 : x = e.2 := congrArg Prod.snd hxe
          rw [← h1, ← h2]

/-- Self-loops survive a whole list of cycle-breaking passes. -/
theorem foldl_break_selfloop (tasks : List FrTask) :
    ∀ (cs : List (List Nat)) (g : DG Nat), (∀ c ∈ cs, c.Nodup) →
      ∀ x, (x, x) ∈ g.edges → (x, x) ∈ (cs.foldl (break_cycle tasks) g).edges := by
  intro cs
  induction cs with
  | nil => intro g _ x hx; simpa using hx
  | cons c cs ih =>
      intro g hall x hx
      rw [List.foldl_cons]
      exact ih _ (fun c2 h2 => hall c2 (List.mem_cons_of_mem _ h2)) x
        (break_cycle_selfloop tasks g (hall c (List.mem_cons_self _ _)) hx)

/-- A self-loop present in the built graph survives every cycle-breaking
pass. -/
theorem effectiveGraph_selfloop {tasks : List FrTask} {t : FrTask}
    (ht : t ∈ tasks) (hself : t.id ∈ t.predecesseurs) :
    (t.id, t.id) ∈ (effectiveGraph tasks).edges := by
  have hbg : (t.id, t.id) ∈ (build_graph tasks).edges :=
    (build_graph_mem_edges tasks _).mpr ⟨t, ht, t.id, hself, ⟨t, ht, rfl⟩, rfl⟩
  have hall : ∀ c ∈ DG.simple_cycles (build_graph tasks), c.Nodup :=
    fun c hc => DG.mem_simple_cycles_nodup (build_graph_nodup tasks) hc
  show (t.id, t.id) ∈ ((DG.simple_cycles (build_graph tasks)).foldl
    (break_cycle tasks) (build_graph tasks)).edges
  exact foldl_break_selfloop tasks _ _ hall _ hbg

end CriticalPathCalculator

/-! ## Lemmas: normalizer algebra -/

theorem pyOr_pos {a : PyVal} (h : pyTruthy a = true) (b : PyVal) : pyOr a b = a := by
  unfold pyOr
  rw [if_pos h]

theorem pyOr_neg {a : PyVal} (h : pyTruthy a = false) (b : PyVal) : pyOr a b = b := by
  unfold pyOr
  rw [if_neg (by rw [h]; simp)]

theorem pyOr_self (b : PyVal) : pyOr b b = b := by
  unfold pyOr
  split <;> rfl

theorem pyOr_pyOr (a b : PyVal) : pyOr (pyOr a b) b = pyOr a b := by
  cases ha : pyTruthy a with
  | true => rw [pyOr_pos ha, pyOr_pos ha]
  | false => rw [pyOr_neg ha, pyOr_self]

theorem pyOr_truthy {b : PyVal} (hb : pyTruthy b = true) (a : PyVal) :
    pyTruthy (pyOr a b) = true := by
  unfold pyOr
  split
  next h => exact h
  next h => exact hb

theorem str_append_ne_empty (s t : String) (h : s.length ≠ 0) : (s ++ t) ≠ "" := by
  intro h0
  have hl := congrArg String.length h0
  rw [String.length_append] at hl
  simp at hl
  omega

theorem pyTruthy_str_append (s t : String) (h : s.length ≠ 0) :
    pyTruthy (.str (s ++ t)) = true := by
  unfold pyTruthy
  simpa using str_append_ne_empty s t h

namespace AIJsonAnalyzer

theorem normalize_status_mem (v : PyVal) :
    normalize_status v ∈
      ["completed", "in_progress", "not_started", "delayed", "cancelled"] := by
  unfold normalize_status
  split
  · simp
  · dsimp only
    split
    · simp
    · split
      · simp
      · split
        · simp
        · split
          · simp
          · split
            · simp
            · simp

theorem normalize_status_canon :
    ∀ s ∈ ["completed", "in_progress", "not_started", "delayed", "cancelled"],
      normalize_status (.str s) = s := by decide

theorem normalize_status_idem (v : PyVal) :
    normalize_status (.str (normalize_status v)) = normalize_status v :=
  normalize_status_canon _ (normalize_status_mem v)

theorem normalize_status_ne_empty (v : PyVal) : normalize_status v ≠ "" := by
  intro h0
  have h := normalize_status_mem v
  rw [h0] at h
  simp at h

theorem coerceDeps_is_list (v : PyVal) : ∃ xs, coerceDeps v = .list xs := by
  cases v <;> exact ⟨_, rfl⟩

theorem coerceResources_is_list (v : PyVal) : ∃ xs, coerceResources v = .list xs := by
  cases v <;> exact ⟨_, rfl⟩

theorem coerceDeps_pyOr_list (xs : List PyVal) :
    coerceDeps (pyOr (.list xs) (.list [])) = .list xs := by
  cases xs with
  | nil => rfl
  | cons x xs => rfl

theorem coerceResources_pyOr_list (xs : List PyVal) :
    coerceResources (pyOr (.list xs) (.list [])) = .list xs := by
  cases xs with
  | nil => rfl
  | cons x xs => rfl

end AIJsonAnalyzer

namespace AIJsonAnalyzer

theorem findKeys_ndFields_id (t : List (String × PyVal)) (i : Nat) :
    findKeys (ndFields t i) id_keys = ndId t i := rfl

theorem findKeys_ndFields_name (t : List (String × PyVal)) (i : Nat) :
    findKeys (ndFields t i) name_keys = ndName t i := rfl

theorem findKeys_ndFields_desc (t : List (String × PyVal)) (i : Nat) :
    findKeys (ndFields t i) desc_keys = ndDesc t := rfl

theorem findKeys_ndFields_dur (t : List (String × PyVal)) (i : Nat) :
    findKeys (ndFields t i) duration_keys = ndDur t := rfl

theorem findKeys_ndFields_unit (t : List (String × PyVal)) (i : Nat) :
    findKeys (ndFields t i) unit_keys = ndUnit t := rfl

theorem findKeys_ndFields_deps (t : List (String × PyVal)) (i : Nat) :
    findKeys (ndFields t i) pred_keys = ndDeps t := rfl

theorem findKeys_ndFields_res (t : List (String × PyVal)) (i : Nat) :
    findKeys (ndFields t i) resource_keys = ndRes t := rfl

theorem findKeys_ndFields_status (t : List (String × PyVal)) (i : Nat) :
    findKeys (ndFields t i) status_keys = ndStatus t := rfl

theorem ndTaskId_stable (t : List (String × PyVal)) (i j : Nat) :
    ndTaskId (ndFields t i) j = ndId t i := by
  unfold ndTaskId
  rw [findKeys_ndFields_id]
  rw [if_neg (by unfold ndId; simp)]

theorem ndId_stable (t : List (String × PyVal)) (i j : Nat) :
    ndId (ndFields t i) j = ndId t i := by
  show PyVal.str (pyStr (ndTaskId (ndFields t i) j)) = ndId t i
  rw [ndTaskId_stable]
  rfl

theorem ndName_stable (t : List (String × PyVal)) (i j : Nat) :
    ndName (ndFields t i) j = ndName t i := by
  show pyOr (findKeys (ndFields t i) name_keys)
    (.str ("Task " ++ pyStr (ndTaskId (ndFields t i) j))) = ndName t i
  rw [findKeys_ndFields_name]
  apply pyOr_pos
  show pyTruthy (pyOr (findKeys t name_keys)
    (.str ("Task " ++ pyStr (ndTaskId t i)))) = true
  exact pyOr_truthy (pyTruthy_str_append "Task " _ (by decide)) _

theorem ndDesc_stable (t : List (String × PyVal)) (i : Nat) :
    ndDesc (ndFields t i) = ndDesc t := by
  show pyOr (findKeys (ndFields t i) desc_keys) (.str "") = ndDesc t
  rw [findKeys_ndFields_desc]
  show pyOr (pyOr (findKeys t desc_keys) (.str "")) (.str "") = ndDesc t
  exact pyOr_pyOr _ _

theorem ndDur_stable (t : List (String × PyVal)) (i : Nat) :
    ndDur (ndFields t i) = ndDur t := by
  show pyOr (findKeys (ndFields t i) duration_keys) (.int 1) = ndDur t
  rw [findKeys_ndFields_dur]
  show pyOr (pyOr (findKeys t duration_keys) (.int 1)) (.int 1) = ndDur t
  exact pyOr_pyOr _ _

theorem ndUnit_stable (t : List (String × PyVal)) (i : Nat) :
    ndUnit (ndFields t i) = ndUnit t := by
  show pyOr (findKeys (ndFields t i) unit_keys) (.str "days") = ndUnit t
  rw [findKeys_ndFields_unit]
  show pyOr (pyOr (findKeys t unit_keys) (.str "days")) (.str "days") = ndUnit t
  exact pyOr_pyOr _ _

theorem ndDeps_stable (t : List (String × PyVal)) (i : Nat) :
    ndDeps (ndFields t i) = ndDeps t := by
  show coerceDeps (pyOr (findKeys (ndFields t i) pred_keys) (.list [])) = ndDeps t
  rw [findKeys_ndFields_deps]
  obtain ⟨xs, hxs⟩ := coerceDeps_is_list (pyOr (findKeys t pred_keys) (.list []))
  show coerceDeps (pyOr (ndDeps t) (.list [])) = ndDeps t
  show coerceDeps (pyOr (coerceDeps (pyOr (findKeys t pred_keys) (.list []))) (.list [])) =
    coerceDeps (pyOr (findKeys t pred_keys) (.list []))
  rw [hxs]
  exact coerceDeps_pyOr_list xs

theorem ndRes_stable (t : List (String × PyVal)) (i : Nat) :
    ndRes (ndFields t i) = ndRes t := by
  show coerceResources (pyOr (findKeys (ndFields t i) resource_keys) (.list [])) = ndRes t
  rw [findKeys_ndFields_res]
  obtain ⟨xs, hxs⟩ := coerceResources_is_list (pyOr (findKeys t resource_keys) (.list []))
  show coerceResources (pyOr (coerceResources (pyOr (findKeys t resource_keys) (.list [])))
    (.list [])) = coerceResources (pyOr (findKeys t resource_keys) (.list []))
  rw [hxs]
  exact coerceResources_pyOr_list xs

theorem ndStatus_stable (t : List (String × PyVal)) (i : Nat) :
    ndStatus (ndFields t i) = ndStatus t := by
  show PyVal.str (normalize_status (pyOr (findKeys (ndFields t i) status_keys)
    (.str "not_started"))) = ndStatus t
  rw [findKeys_ndFields_status]
  have htr : pyTruthy (ndStatus t) = true := by
    show pyTruthy (.str (normalize_status (pyOr (findKeys t status_keys)
      (.str "not_started")))) = true
    unfold pyTruthy
    simp [normalize_status_ne_empty]
  rw [pyOr_pos htr]
  show PyVal.str (normalize_status (.str (normalize_status (pyOr (findKeys t status_keys)
    (.str "not_started"))))) = ndStatus t
  rw [normalize_status_idem]
  rfl

end AIJsonAnalyzer

/-- C3 (counterexample): with tasks `1 (duration 2, depends on itself)` and
`2 (duration 3, depends on 1)`, the self-loop `(1, 1)` survives into the
effective graph, and the analysis outputs differ from the self-reference-free
variant: the critical path and the slack map collapse to empty instead of
`[1, 2]` and its slacks. -/
theorem C3_selfref_counterexample :
    (1, 1) ∈ (CriticalPathCalculator.effectiveGraph Scenario.selfRefTasks).edges ∧
    CriticalPathCalculator.get_critical_path Scenario.selfRefTasks = [] ∧
    CriticalPathCalculator.get_critical_path Scenario.selfRefFreeTasks = [1, 2] ∧
    CriticalPathCalculator.calculate_slack_times Scenario.selfRefTasks = [] ∧
    CriticalPathCalculator.calculate_slack_times Scenario.selfRefFreeTasks =
      [(1, 0), (2, 0)] := by
  refine ⟨?_, ?_, ?_, ?_, ?_⟩ <;> decide

/-- C3 (amended): a self-referential dependency is NOT dropped.
`_build_graph` records it as a self-loop edge, and `_break_cycle` leaves
every cycle of fewer than two nodes alone while never removing a self-loop
when breaking longer cycles, so the self-loop survives into the effective
graph every analysis runs on (and the outputs can differ from the
self-reference-free variant, as the counterexample shows). -/
theorem C3_selfref_kept (tasks : List FrTask) (t : FrTask)
    (ht : t ∈ tasks) (hself : t.id ∈ t.predecesseurs) :
    (t.id, t.id) ∈ (CriticalPathCalculator.effectiveGraph tasks).edges :=
  CriticalPathCalculator.effectiveGraph_selfloop ht hself

/-- C3 (witness): the self-loop of the two-task scenario. -/
theorem C3_selfref_kept_witness :
    ((1 : Nat), (1 : Nat)) ∈ (CriticalPathCalculator.effectiveGraph Scenario.selfRefTasks).edges :=
  C3_selfref_kept Scenario.selfRefTasks
    { id := 1, duree_estimee := 2, predecesseurs := [1] }
    (by decide) (by decide)

/-- C7 (counterexample): on a raw task whose dependencies and resources are
both comma-separated strings, the dependencies are split on `,` and trimmed
but the resources stay a single unsplit string. -/
theorem C7_resources_counterexample :
    AIJsonAnalyzer.normalize_task (.dict Scenario.rawMixedTask) 0 =
      some (.dict (AIJsonAnalyzer.ndFields Scenario.rawMixedTask 0)) ∧
    dictGet (AIJsonAnalyzer.ndFields Scenario.rawMixedTask 0) "dependencies" =
      some (.list [.str "1", .str "2"]) ∧
    dictGet (AIJsonAnalyzer.ndFields Scenario.rawMixedTask 0) "resources" =
      some (.list [.str "Alice, Bob"]) := by
  refine ⟨rfl, ?_, ?_⟩ <;> decide

/-- C7 (amended): dependencies ARE comma-split with trimming, but resources
are not: a resource string becomes a one-element list, an array is kept,
and any other scalar is wrapped as its string form — for both fields. -/
theorem C7_field_coercion (t : List (String × PyVal)) (i : Nat) :
    ∃ d, AIJsonAnalyzer.normalize_task (.dict t) i = some (.dict d) ∧
      dictGet d "dependencies" = some
        (match pyOr (AIJsonAnalyzer.findKeys t AIJsonAnalyzer.pred_keys) (.list []) with
         | .str s => .list ((strSplitComma s).map (fun p => .str (strTrim p)))
         | .list xs => .list xs
         | v => .list [.str (pyStr v)]) ∧
      dictGet d "resources" = some
        (match pyOr (AIJsonAnalyzer.findKeys t AIJsonAnalyzer.resource_keys) (.list []) with
         | .str s => .list [.str s]
         | .list xs => .list xs
         | v => .list [.str (pyStr v)]) := by
  refine ⟨AIJsonAnalyzer.ndFields t i, rfl, ?_, ?_⟩
  · show some (AIJsonAnalyzer.coerceDeps
      (pyOr (AIJsonAnalyzer.findKeys t AIJsonAnalyzer.pred_keys) (.list []))) = _
    cases pyOr (AIJsonAnalyzer.findKeys t AIJsonAnalyzer.pred_keys) (.list []) <;> rfl
  · show some (AIJsonAnalyzer.coerceResources
      (pyOr (AIJsonAnalyzer.findKeys t AIJsonAnalyzer.resource_keys) (.list []))) = _
    cases pyOr (AIJsonAnalyzer.findKeys t AIJsonAnalyzer.resource_keys) (.list []) <;> rfl

/-- C8 (counterexample): a zero-duration task with three dependencies meets
the claimed trigger (more than two dependencies, duration below three) yet
is not flagged as a timeline risk: falsy durations are skipped up front. -/
theorem C8_timeline_counterexample :
    (∃ t ∈ Scenario.zeroDurTasks,
      (t.predecesseurs.length > 2 ∨ t.ressources_requises.length > 2) ∧
      t.duree_estimee < 3) ∧
    RiskDetector.detect_timeline_risks Scenario.zeroDurTasks [] = [] := by
  exact ⟨by decide, by decide⟩

/-- C8 (amended): a task is flagged as a timeline risk exactly when its
duration is nonzero and below three and it has more than two dependencies
or more than two resources; the flagged entry carries level Élevé when the
task id lies on the critical path and Moyen otherwise. -/
theorem C8_timeline_characterization (tasks : List FrTask) (cp : List Nat)
    (e : RiskDetector.TimelineEntry) :
    e ∈ RiskDetector.detect_timeline_risks tasks cp ↔
      (e.task ∈ tasks ∧ e.task.duree_estimee ≠ 0 ∧
       (e.task.predecesseurs.length > 2 ∨ e.task.ressources_requises.length > 2) ∧
       e.task.duree_estimee < 3 ∧
       e.risk_level = (if cp.contains e.task.id then "Élevé" else "Moyen") ∧
       e.risk_reason = "Durée potentiellement sous-estimée pour une tâche complexe") := by
  obtain ⟨et, el, er⟩ := e
  dsimp only
  unfold RiskDetector.detect_timeline_risks
  rw [List.mem_filterMap]
  constructor
  · rintro ⟨t, ht, hf⟩
    by_cases h0 : t.duree_estimee = 0
    · rw [if_pos h0] at hf; cases hf
    · rw [if_neg h0] at hf
      by_cases hc : (t.predecesseurs.length > 2 ∨ t.ressources_requises.length > 2) ∧
          t.duree_estimee < 3
      · rw [if_pos hc] at hf
        have h2 := Option.some_inj.mp hf
        injection h2 with hA hB hC
        subst hA
        subst hB
        subst hC
        exact ⟨ht, h0, hc.1, hc.2, rfl, rfl⟩
      · rw [if_neg hc] at hf; cases hf
  · rintro ⟨ht, h0, hc1, hc2, hl, hr⟩
    refine ⟨et, ht, ?_⟩
    rw [if_neg h0, if_pos (by exact ⟨hc1, hc2⟩), hl, hr]

/-- C9 (counterexample): re-normalizing a normalizer output is not the
identity — the `original` field now nests the first output instead of the
raw task. -/
theorem C9_not_idempotent :
    ((AIJsonAnalyzer.normalize_task (.dict Scenario.rawSmallTask) 0).bind
        (fun n => AIJsonAnalyzer.normalize_task n 0)) ≠
      AIJsonAnalyzer.normalize_task (.dict Scenario.rawSmallTask) 0 := by
  decide

/-- C9 (amended): re-normalizing a normalized task reproduces the eight
standardized fields exactly; only the `original` field changes, nesting the
first output in place of the raw task.  Normalization is therefore
idempotent on every field except `original`, and not idempotent overall. -/
theorem C9_renormalize_shape (t : List (String × PyVal)) (i j : Nat) :
    ∃ front,
      AIJsonAnalyzer.normalize_task (.dict t) i =
        some (.dict (front ++ [("original", .dict t)])) ∧
      AIJsonAnalyzer.normalize_task (.dict (front ++ [("original", .dict t)])) j =
        some (.dict (front ++
          [("original", .dict (front ++ [("original", .dict t)]))])) := by
  refine ⟨[("id", AIJsonAnalyzer.ndId t i), ("name", AIJsonAnalyzer.ndName t i),
    ("description", AIJsonAnalyzer.ndDesc t), ("duration", AIJsonAnalyzer.ndDur t),
    ("duration_unit", AIJsonAnalyzer.ndUnit t), ("dependencies", AIJsonAnalyzer.ndDeps t),
    ("resources", AIJsonAnalyzer.ndRes t), ("status", AIJsonAnalyzer.ndStatus t)],
    rfl, ?_⟩
  show some (PyVal.dict (AIJsonAnalyzer.ndFields (AIJsonAnalyzer.ndFields t i) j)) = _
  show some (PyVal.dict
    [("id", AIJsonAnalyzer.ndId (AIJsonAnalyzer.ndFields t i) j),
     ("name", AIJsonAnalyzer.ndName (AIJsonAnalyzer.ndFields t i) j),
     ("description", AIJsonAnalyzer.ndDesc (AIJsonAnalyzer.ndFields t i)),
     ("duration", AIJsonAnalyzer.ndDur (AIJsonAnalyzer.ndFields t i)),
     ("duration_unit", AIJsonAnalyzer.ndUnit (AIJsonAnalyzer.ndFields t i)),
     ("dependencies", AIJsonAnalyzer.ndDeps (AIJsonAnalyzer.ndFields t i)),
     ("resources", AIJsonAnalyzer.ndRes (AIJsonAnalyzer.ndFields t i)),
     ("status", AIJsonAnalyzer.ndStatus (AIJsonAnalyzer.ndFields t i)),
     ("original", .dict (AIJsonAnalyzer.ndFields t i))]) = _
  rw [AIJsonAnalyzer.ndId_stable, AIJsonAnalyzer.ndName_stable,
    AIJsonAnalyzer.ndDesc_stable, AIJsonAnalyzer.ndDur_stable,
    AIJsonAnalyzer.ndUnit_stable, AIJsonAnalyzer.ndDeps_stable,
    AIJsonAnalyzer.ndRes_stable, AIJsonAnalyzer.ndStatus_stable]
  rfl

namespace RiskDetector

theorem mem_tasks_without_resources {tasks : List FrTask} {cp : List Nat}
    {e : AnnTask} (h : e ∈ tasks_without_resources tasks cp) : e.task ∈ tasks := by
  unfold tasks_without_resources at h
  rcases List.mem_filterMap.mp h with ⟨t, ht, hf⟩
  split at hf
  · cases Option.some_inj.mp hf
    exact ht
  · cases hf

theorem mem_tasks_without_dependencies {tasks : List FrTask}
    {e : AnnTask} (h : e ∈ tasks_without_dependencies tasks) : e.task ∈ tasks := by
  unfold tasks_without_dependencies at h
  rcases List.mem_filterMap.mp h with ⟨t, ht, hf⟩
  split at hf
  · cases Option.some_inj.mp hf
    exact ht
  · cases hf

theorem mem_detect_bottlenecks {tasks : List FrTask} {cp : List Nat}
    {e : BottleneckEntry} (h : e ∈ detect_bottlenecks tasks cp) : e.task ∈ tasks := by
  unfold detect_bottlenecks at h
  split at h
  · cases h
  · rcases List.mem_filterMap.mp h with ⟨t, ht, hf⟩
    split at hf
    · cases Option.some_inj.mp hf
      exact ht
    · cases hf

theorem mem_resource_tasks {tasks : List FrTask} {r : String} {t : FrTask}
    (h : t ∈ resource_tasks tasks r) : t ∈ tasks := by
  unfold resource_tasks at h
  rcases List.mem_flatMap.mp h with ⟨t0, ht0, hmem⟩
  rcases List.mem_map.mp hmem with ⟨_, _, rfl⟩
  exact ht0

theorem mem_detect_overloaded {tasks : List FrTask} {cp : List Nat}
    {e : OverloadEntry} (h : e ∈ detect_overloaded_resources tasks cp) :
    ∀ t ∈ e.tasks, t ∈ tasks := by
  unfold detect_overloaded_resources at h
  rcases List.mem_filterMap.mp h with ⟨r, _, hf⟩
  dsimp only at hf
  split at hf
  · cases Option.some_inj.mp hf
    intro t ht
    exact mem_resource_tasks ht
  · cases hf

theorem mem_detect_timeline {tasks : List FrTask} {cp : List Nat}
    {e : TimelineEntry} (h : e ∈ detect_timeline_risks tasks cp) : e.task ∈ tasks := by
  unfold detect_timeline_risks at h
  rcases List.mem_filterMap.mp h with ⟨t, ht, hf⟩
  split at hf
  · cases hf
  · split at hf
    · cases Option.some_inj.mp hf
      exact ht
    · cases hf

theorem mem_detect_dep_conflicts {tasks : List FrTask} {cp : List Nat}
    {e : DepConflictEntry} (h : e ∈ detect_dependency_conflicts tasks cp) :
    ∃ t ∈ tasks, t.id = e.task_id ∧ t.nom = e.task_name := by
  unfold detect_dependency_conflicts at h
  rcases List.mem_filterMap.mp h with ⟨t, ht, hf⟩
  dsimp only at hf
  split at hf
  · cases Option.some_inj.mp hf
    exact ⟨t, ht, rfl, rfl⟩
  · cases hf

theorem mem_fppt_aux :
    ∀ (n : Nat) (l : List FrTask) (g : List FrTask),
      g ∈ find_potential_parallel_tasksAux n l → ∀ t ∈ g, t ∈ l := by
  intro n
  induction n with
  | zero =>
      intro l g h
      cases l with
      | nil => cases h
      | cons a rest => cases h
  | succ n ih =>
      intro l g h
      cases l with
      | nil => cases h
      | cons task rest =>
          unfold find_potential_parallel_tasksAux at h
          rcases List.mem_append.mp h with h1 | h2
          · by_cases hg : (task :: rest.filter (fun (other : FrTask) =>
                decide (¬ other.predecesseurs.contains task.id ∧
                  ¬ task.predecesseurs.contains other.id))).length > 1
            · rw [if_pos hg] at h1
              rcases List.mem_singleton.mp h1 with rfl
              intro t ht
              rcases List.mem_cons.mp ht with rfl | ht
              · exact List.mem_cons_self _ _
              · exact List.mem_cons_of_mem _ (List.mem_of_mem_filter ht)
            · rw [if_neg hg] at h1
              cases h1
          · intro t ht
            have := ih _ _ h2 t ht
            exact List.mem_cons_of_mem _ (List.mem_of_mem_filter this)

theorem mem_fppt {l : List FrTask} {g : List FrTask}
    (h : g ∈ find_potential_parallel_tasks l) : ∀ t ∈ g, t ∈ l :=
  mem_fppt_aux l.length l g h

theorem mem_detect_res_conflicts {tasks : List FrTask} {cp : List Nat}
    {e : ResConflictEntry} (h : e ∈ detect_resource_allocation_conflicts tasks cp) :
    ∀ t ∈ e.conflicting_tasks, t ∈ tasks := by
  unfold detect_resource_allocation_conflicts at h
  rcases List.mem_flatMap.mp h with ⟨r, _, hf⟩
  dsimp only at hf
  split at hf
  · cases hf
  · rcases List.mem_filterMap.mp hf with ⟨g, hg, hf2⟩
    split at hf2
    · cases Option.some_inj.mp hf2
      intro t ht
      exact mem_resource_tasks (mem_fppt hg t ht)
    · cases hf2

end RiskDetector

/-- C10: `detect_risks` reads its input without changing it (the embedding
is a pure function of the task list), and every flagged entry in every one
of the seven risk lists is a copy of an input task annotated with a risk
level: its task payload is drawn from the input list. -/
theorem C10_flagged_entries_from_input (tasks : List FrTask) (cp : List Nat) :
    (∀ e ∈ (RiskDetector.detect_risks tasks cp).risks.no_resources, e.task ∈ tasks) ∧
    (∀ e ∈ (RiskDetector.detect_risks tasks cp).risks.no_dependencies, e.task ∈ tasks) ∧
    (∀ e ∈ (RiskDetector.detect_risks tasks cp).risks.bottlenecks, e.task ∈ tasks) ∧
    (∀ e ∈ (RiskDetector.detect_risks tasks cp).risks.overloaded_resources,
      ∀ t ∈ e.tasks, t ∈ tasks) ∧
    (∀ e ∈ (RiskDetector.detect_risks tasks cp).risks.timeline_risks, e.task ∈ tasks) ∧
    (∀ e ∈ (RiskDetector.detect_risks tasks cp).risks.dependency_conflicts,
      ∃ t ∈ tasks, t.id = e.task_id ∧ t.nom = e.task_name) ∧
    (∀ e ∈ (RiskDetector.detect_risks tasks cp).risks.resource_conflicts,
      ∀ t ∈ e.conflicting_tasks, t ∈ tasks) := by
  refine ⟨?_, ?_, ?_, ?_, ?_, ?_, ?_⟩
  · exact fun e h => RiskDetector.mem_tasks_without_resources h
  · exact fun e h => RiskDetector.mem_tasks_without_dependencies h
  · exact fun e h => RiskDetector.mem_detect_bottlenecks h
  · exact fun e h => RiskDetector.mem_detect_overloaded h
  · exact fun e h => RiskDetector.mem_detect_timeline h
  · exact fun e h => RiskDetector.mem_detect_dep_conflicts h
  · exact fun e h => RiskDetector.mem_detect_res_conflicts h

/-! ## Lemmas: a dependency structure forming one simple cycle (C4) -/

theorem nodup_getElem?_inj {α : Type} {l : List α} (hnd : l.Nodup) {i j : Nat} {a : α}
    (hi : l[i]? = some a) (hj : l[j]? = some a) : i = j := by
  obtain ⟨hil, _⟩ := List.getElem?_eq_some.mp hi
  exact List.getElem?_inj hil hnd (hi.trans hj.symm)

theorem getElem?_rotate {α : Type} (l : List α) (n k : Nat) (hk : k < l.length) :
    (l.rotate n)[k]? = l[(k + n) % l.length]? := by
  have hb : k < (l.rotate n).length := by rw [List.length_rotate]; exact hk
  have hb2 : (k + n) % l.length < l.length :=
    Nat.mod_lt _ (Nat.lt_of_le_of_lt (Nat.zero_le k) hk)
  rw [List.getElem?_eq_getElem hb, List.getElem?_eq_getElem hb2]
  exact congrArg some (List.getElem_rotate l n k hb)

theorem nodup_all_eq {α : Type} {l : List α} {a : α} (hnd : l.Nodup) (ha : a ∈ l)
    (hall : ∀ x ∈ l, x = a) : l = [a] := by
  cases l with
  | nil => cases ha
  | cons b m =>
      have hb : b = a := hall b (List.mem_cons_self _ _)
      subst hb
      cases m with
      | nil => rfl
      | cons c2 m2 =>
          obtain ⟨hbn, _⟩ := List.nodup_cons.mp hnd
          exfalso
          apply hbn
          have hc : c2 = b := hall c2 (List.mem_cons_of_mem _ (List.mem_cons_self _ _))
          rw [hc]
          exact List.mem_cons_self _ _

theorem flatMap_singleton_of {α β : Type} (f : α → List β) (a0 : α) (b : β)
    (hfa : f a0 = [b]) :
    ∀ l : List α, l.Nodup → a0 ∈ l → (∀ S ∈ l, S ≠ a0 → f S = []) →
      l.flatMap f = [b] := by
  intro l
  induction l with
  | nil => intro _ ha _; cases ha
  | cons S l2 ih =>
      intro hnd ha hother
      obtain ⟨hSn, hnd2⟩ := List.nodup_cons.mp hnd
      rw [List.flatMap_cons]
      by_cases hS : S = a0
      · subst hS
        rw [hfa]
        have h2 : l2.flatMap f = [] := by
          apply List.flatMap_eq_nil_iff.mpr
          intro S2 hS2
          apply hother S2 (List.mem_cons_of_mem _ hS2)
          intro he
          rw [he] at hS2
          exact hSn hS2
        rw [h2, List.append_nil]
      · rw [hother S (List.mem_cons_self _ _) hS, List.nil_append]
        refine ih hnd2 ?_ ?_
        · rcases List.mem_cons.mp ha with h9 | h9
          · exact absurd h9.symm hS
          · exact h9
        · intro S2 hS2 hne2
          exact hother S2 (List.mem_cons_of_mem _ hS2) hne2

theorem mod_cycle_fwd {n k : Nat} (hk : k < n) : ((k + (n - 1)) % n + 1) % n = k := by
  rw [Nat.mod_add_mod]
  have h1 : k + (n - 1) + 1 = k + n := by omega
  rw [h1, Nat.add_mod_right, Nat.mod_eq_of_lt hk]

theorem mod_cycle_bwd {n i : Nat} (hi : i < n) : ((i + 1) % n + (n - 1)) % n = i := by
  rw [Nat.mod_add_mod]
  have h1 : i + 1 + (n - 1) = i + n := by omega
  rw [h1, Nat.add_mod_right, Nat.mod_eq_of_lt hi]

theorem mod_succ_inj {n i j : Nat} (hi : i < n) (hj : j < n)
    (h : (i + 1) % n = (j + 1) % n) : i = j := by
  have h1 := mod_cycle_bwd hi
  have h2 := mod_cycle_bwd hj
  rw [← h1, ← h2, h]

theorem mod_shift_cancel {n k m : Nat} (hk : k < n) (h : (k + m) % n = k) : m % n = 0 := by
  have h1 : (k + m) % n = (k + 0) % n := by
    rw [h, Nat.add_zero, Nat.mod_eq_of_lt hk]
  have h2 : m ≡ 0 [MOD n] := Nat.ModEq.add_left_cancel' k h1
  have h3 : m % n = 0 % n := h2
  rw [Nat.zero_mod] at h3
  exact h3

namespace DG

variable {α : Type} [DecidableEq α]

/-- Each way of inserting a fresh element is a distinct list. -/
theorem nodup_insertAll (x : α) : ∀ q : List α, x ∉ q → (insertAll x q).Nodup := by
  intro q
  induction q with
  | nil => intro _; simp [insertAll]
  | cons y ys ih =>
      intro hx
      have hxy : x ≠ y := fun h => hx (h ▸ List.mem_cons_self _ _)
      have hxys : x ∉ ys := fun h => hx (List.mem_cons_of_mem _ h)
      show ((x :: y :: ys) :: (insertAll x ys).map (fun l => y :: l)).Nodup
      apply List.nodup_cons.mpr
      constructor
      · intro hmem
        rcases List.mem_map.mp hmem with ⟨l2, _, hl2⟩
        injection hl2 with h1 _
        exact hxy h1.symm
      · exact List.Nodup.map (fun a b hab => by simpa using hab) (ih hxys)

/-- Erasing the inserted element recovers the original list. -/
theorem insertAll_erase (x : α) :
    ∀ (q l : List α), l ∈ insertAll x q → x ∉ q → l.erase x = q := by
  intro q
  induction q with
  | nil =>
      intro l hl _
      rcases List.mem_singleton.mp hl with rfl
      exact List.erase_cons_head x []
  | cons y ys ih =>
      intro l hl hx
      have hxy : x ≠ y := fun h => hx (h ▸ List.mem_cons_self _ _)
      rcases List.mem_cons.mp hl with rfl | hl
      · exact List.erase_cons_head _ _
      · rcases List.mem_map.mp hl with ⟨l2, hl2, rfl⟩
        rw [List.erase_cons, if_neg (by simp [Ne.symm hxy])]
        rw [ih l2 hl2 (fun h => hx (List.mem_cons_of_mem _ h))]

/-- The structural permutation enumeration lists each permutation of a
duplicate-free list exactly once. -/
theorem nodup_perms : ∀ l : List α, l.Nodup → (perms l).Nodup := by
  intro l
  induction l with
  | nil => intro _; simp [perms]
  | cons x xs ih =>
      intro hnd
      obtain ⟨hx, hnd2⟩ := List.nodup_cons.mp hnd
      show ((perms xs).flatMap (insertAll x)).Nodup
      refine List.nodup_flatMap.mpr ⟨?_, ?_⟩
      · intro q hq
        exact nodup_insertAll x q (fun hm => hx ((mem_perms_perm xs q hq).subset hm))
      · refine List.Pairwise.imp_of_mem ?_ (ih hnd2)
        intro q1 q2 hq1 hq2 hne l0 h01 h02
        apply hne
        have e1 := insertAll_erase x q1 l0 h01
          (fun hm => hx ((mem_perms_perm xs q1 hq1).subset hm))
        have e2 := insertAll_erase x q2 l0 h02
          (fun hm => hx ((mem_perms_perm xs q2 hq2).subset hm))
        exact e1.symm.trans e2

end DG

namespace CriticalPathCalculator

/-- Adding a block of fresh, distinct nodes appends their ids in order. -/
theorem foldl_addNode_nodes_eq :
    ∀ (l : List FrTask) (g : DG Nat),
      (∀ t ∈ l, t.id ∉ g.nodes) → (l.map (fun t => t.id)).Nodup →
      (l.foldl (fun g t => g.addNode t.id) g).nodes = g.nodes ++ l.map (fun t => t.id) := by
  intro l
  induction l with
  | nil => intro g _ _; simp
  | cons t ts ih =>
      intro g hdis hnd
      rw [List.foldl_cons]
      have ht : t.id ∉ g.nodes := hdis t (List.mem_cons_self _ _)
      have hadd : (g.addNode t.id).nodes = g.nodes ++ [t.id] := by
        unfold DG.addNode
        rw [if_neg ht]
      simp only [List.map_cons, List.nodup_cons] at hnd
      obtain ⟨htns, hnd2⟩ := hnd
      have hdis2 : ∀ t2 ∈ ts, t2.id ∉ (g.addNode t.id).nodes := by
        intro t2 ht2
        rw [hadd]
        intro hmem
        rcases List.mem_append.mp hmem with hmem | hmem
        · exact hdis t2 (List.mem_cons_of_mem _ ht2) hmem
        · have h9 : t2.id = t.id := List.mem_singleton.mp hmem
          exact htns (List.mem_map.mpr ⟨t2, ht2, h9⟩)
      rw [ih (g.addNode t.id) hdis2 hnd2, hadd, List.append_assoc]
      simp

/-- With duplicate-free ids, the built graph's node list is exactly the id
list, in task order. -/
theorem build_graph_nodes_eq {tasks : List FrTask} (hnd : (taskIds tasks).Nodup) :
    (build_graph tasks).nodes = taskIds tasks := by
  unfold build_graph
  have hids : ∀ t ∈ tasks,
      t.id ∈ (tasks.foldl (fun g t => g.addNode t.id) (⟨[], []⟩ : DG Nat)).nodes := by
    intro t ht
    rw [foldl_addNode_mem]
    exact Or.inr (List.mem_map.mpr ⟨t, ht, rfl⟩)
  rw [edgeFoldl_nodes _ _ hids,
    foldl_addNode_nodes_eq tasks ⟨[], []⟩ (fun t _ => List.not_mem_nil _) hnd]
  rfl

theorem taskIds_getElem? {tasks : List FrTask} {k : Nat} {t : FrTask}
    (ht : tasks[k]? = some t) : (taskIds tasks)[k]? = some t.id := by
  show (tasks.map (fun t => t.id))[k]? = some t.id
  rw [List.getElem?_map, ht]
  rfl

/-- In the single-cycle scenario the dependency list of the task at index
`k` is exactly the id of the cyclically preceding task. -/
theorem cyc_preds_mem {tasks : List FrTask}
    (hpreds : tasks.map (fun t => t.predecesseurs) =
      ((taskIds tasks).rotate (tasks.length - 1)).map (fun x => [x]))
    {k : Nat} (hk : k < tasks.length) (p : Nat) {t : FrTask}
    (ht : tasks[k]? = some t) :
    p ∈ t.predecesseurs ↔
      (taskIds tasks)[(k + (tasks.length - 1)) % tasks.length]? = some p := by
  have hl : (taskIds tasks).length = tasks.length := List.length_map _ _
  have h2 := congrArg (fun l => l[k]?) hpreds
  simp only [List.getElem?_map] at h2
  have hkr : k < ((taskIds tasks).rotate (tasks.length - 1)).length := by
    rw [List.length_rotate, hl]
    exact hk
  rw [ht, List.getElem?_eq_getElem hkr] at h2
  simp only [Option.map_some'] at h2
  rw [List.getElem_rotate] at h2
  replace h2 := Option.some_inj.mp h2
  have hpos : 0 < tasks.length := Nat.lt_of_le_of_lt (Nat.zero_le k) hk
  have hb1 : (k + (tasks.length - 1)) % (taskIds tasks).length < (taskIds tasks).length := by
    rw [hl]
    exact Nat.mod_lt _ hpos
  have hidx : (k + (tasks.length - 1)) % (taskIds tasks).length =
      (k + (tasks.length - 1)) % tasks.length := by rw [hl]
  rw [h2]
  constructor
  · intro hp
    have h3 := List.mem_singleton.mp hp
    rw [← hidx, List.getElem?_eq_getElem hb1]
    exact congrArg some h3.symm
  · intro hps
    apply List.mem_singleton.mpr
    rw [← hidx, List.getElem?_eq_getElem hb1] at hps
    exact (Option.some_inj.mp hps).symm

/-- Edge characterization in the single-cycle scenario: the dependency
edges are exactly the consecutive id pairs, cyclically. -/
theorem cyc_mem_edges {tasks : List FrTask}
    (hpreds : tasks.map (fun t => t.predecesseurs) =
      ((taskIds tasks).rotate (tasks.length - 1)).map (fun x => [x]))
    (a b : Nat) :
    (a, b) ∈ (build_graph tasks).edges ↔
      ∃ i, ∃ _ : i < (taskIds tasks).length,
        (taskIds tasks)[i]? = some a ∧
        (taskIds tasks)[(i + 1) % (taskIds tasks).length]? = some b := by
  have hl : (taskIds tasks).length = tasks.length := List.length_map _ _
  constructor
  · intro h
    rw [build_graph_mem_edges] at h
    obtain ⟨t, ht, p, hp, _, heq⟩ := h
    have hA : a = p := congrArg Prod.fst heq
    have hB : b = t.id := congrArg Prod.snd heq
    obtain ⟨k, hkt⟩ := List.mem_iff_getElem?.mp ht
    obtain ⟨hk, _⟩ := List.getElem?_eq_some.mp hkt
    have hpm := (cyc_preds_mem hpreds hk p hkt).mp hp
    have hpos : 0 < tasks.length := Nat.lt_of_le_of_lt (Nat.zero_le k) hk
    refine ⟨(k + (tasks.length - 1)) % tasks.length, ?_, ?_, ?_⟩
    · rw [hl]
      exact Nat.mod_lt _ hpos
    · rw [hA]
      exact hpm
    · rw [hl, mod_cycle_fwd hk, hB]
      exact taskIds_getElem? hkt
  · rintro ⟨i, hi, ha, hb⟩
    have hi2 : i < tasks.length := hl ▸ hi
    have hb2 : (taskIds tasks)[(i + 1) % tasks.length]? = some b := by
      rw [← hl]
      exact hb
    have hpos : 0 < tasks.length := Nat.lt_of_le_of_lt (Nat.zero_le i) hi2
    have hk2 : (i + 1) % tasks.length < tasks.length := Nat.mod_lt _ hpos
    obtain ⟨t, ht⟩ : ∃ t, tasks[(i + 1) % tasks.length]? = some t :=
      ⟨_, List.getElem?_eq_getElem hk2⟩
    obtain ⟨s, hs⟩ : ∃ s, tasks[i]? = some s := ⟨_, List.getElem?_eq_getElem hi2⟩
    rw [build_graph_mem_edges]
    refine ⟨t, List.mem_iff_getElem?.mpr ⟨_, ht⟩, a, ?_,
      ⟨s, List.mem_iff_getElem?.mpr ⟨_, hs⟩, ?_⟩, ?_⟩
    · apply (cyc_preds_mem hpreds hk2 a ht).mpr
      rw [mod_cycle_bwd hi2]
      exact ha
    · exact Option.some_inj.mp ((taskIds_getElem? hs).symm.trans ha)
    · have hbid : b = t.id := Option.some_inj.mp (hb2.symm.trans (taskIds_getElem? ht))
      rw [hbid]

theorem cyc_cycleEdges_present {tasks : List FrTask}
    (hpreds : tasks.map (fun t => t.predecesseurs) =
      ((taskIds tasks).rotate (tasks.length - 1)).map (fun x => [x])) :
    ∀ e ∈ DG.cycleEdges (taskIds tasks), e ∈ (build_graph tasks).edges := by
  intro e he
  obtain ⟨a, b⟩ := e
  rcases DG.mem_cycleEdges.mp he with ⟨i, hi, h1, h2⟩
  exact (cyc_mem_edges hpreds a b).mpr ⟨i, hi, h1, h2⟩

/-- Any edge walk in the single-cycle graph follows the id list: starting
at id index `k`, the `j`-th node is the id at index `k + j` (mod `n`). -/
theorem cyc_orbit {tasks : List FrTask} (hnd : (taskIds tasks).Nodup)
    (hpreds : tasks.map (fun t => t.predecesseurs) =
      ((taskIds tasks).rotate (tasks.length - 1)).map (fun x => [x]))
    {cy : List Nat}
    (hch : ∀ e ∈ DG.cycleEdges cy, e ∈ (build_graph tasks).edges)
    {k : Nat} (hkb : k < (taskIds tasks).length)
    (hk0 : (taskIds tasks)[k]? = cy[0]?) :
    ∀ j, j < cy.length → cy[j]? = (taskIds tasks)[(k + j) % (taskIds tasks).length]? := by
  have hpos : 0 < (taskIds tasks).length := Nat.lt_of_le_of_lt (Nat.zero_le k) hkb
  intro j
  induction j with
  | zero =>
      intro _
      rw [Nat.add_zero, Nat.mod_eq_of_lt hkb]
      exact hk0.symm
  | succ j ih =>
      intro hj1
      have hj : j < cy.length := by omega
      have hcj := ih hj
      have hmlt : (k + j) % (taskIds tasks).length < (taskIds tasks).length :=
        Nat.mod_lt _ hpos
      obtain ⟨a, ha⟩ : ∃ a, (taskIds tasks)[(k + j) % (taskIds tasks).length]? = some a :=
        ⟨_, List.getElem?_eq_getElem hmlt⟩
      obtain ⟨b, hb⟩ : ∃ b, cy[j + 1]? = some b := ⟨_, List.getElem?_eq_getElem hj1⟩
      have hedge : (a, b) ∈ DG.cycleEdges cy := by
        apply DG.mem_cycleEdges.mpr
        refine ⟨j, hj, ?_, ?_⟩
        · rw [hcj]
          exact ha
        · rw [Nat.mod_eq_of_lt hj1]
          exact hb
      rcases (cyc_mem_edges hpreds a b).mp (hch _ hedge) with ⟨i, hi, hia, hib⟩
      have hieq : i = (k + j) % (taskIds tasks).length := nodup_getElem?_inj hnd hia ha
      rw [hieq] at hib
      rw [Nat.mod_add_mod] at hib
      have h9 : k + j + 1 = k + (j + 1) := by omega
      rw [h9] at hib
      rw [hb]
      exact hib.symm

/-- Any simple cycle enumerated over a subgraph of the single-cycle graph
is the full id list itself, and its wrap-around edges all lie in that
subgraph. -/
theorem cyc_cycle_mem_eq {tasks : List FrTask} (hlen : 3 ≤ tasks.length)
    (hnd : (taskIds tasks).Nodup)
    (hpreds : tasks.map (fun t => t.predecesseurs) =
      ((taskIds tasks).rotate (tasks.length - 1)).map (fun x => [x]))
    {g2 : DG Nat} (hn2 : g2.nodes = taskIds tasks)
    (hsub2 : ∀ e ∈ g2.edges, e ∈ (build_graph tasks).edges)
    {c : List Nat} (hc : c ∈ DG.simple_cycles g2) :
    c = taskIds tasks ∧ ∀ e ∈ DG.cycleEdges (taskIds tasks), e ∈ g2.edges := by
  have hl : (taskIds tasks).length = tasks.length := List.length_map _ _
  have hpos2 : 0 < (taskIds tasks).length := by omega
  have hndn : g2.nodes.Nodup := by rw [hn2]; exact hnd
  unfold DG.simple_cycles at hc
  rcases List.mem_flatMap.mp hc with ⟨S, hS, hcS⟩
  cases S with
  | nil => cases hcS
  | cons h tS =>
      rcases List.mem_filter.mp hcS with ⟨hmem, hcy⟩
      rcases List.mem_map.mp hmem with ⟨p, hp, rfl⟩
      obtain ⟨hcne, hedges⟩ := DG.isCycle_eq_true_iff.mp hcy
      have hedges0 : ∀ e ∈ DG.cycleEdges (h :: p), e ∈ (build_graph tasks).edges :=
        fun e he => hsub2 e (hedges e he)
      have hSsub : (h :: tS).Sublist g2.nodes := List.mem_sublists.mp hS
      have hperm : (h :: p).Perm (h :: tS) := List.Perm.cons h (DG.mem_perms_perm tS p hp)
      have hcnd : (h :: p).Nodup := hperm.nodup_iff.mpr (hSsub.nodup hndn)
      have hcsub : ∀ x ∈ h :: p, x ∈ taskIds tasks := by
        intro x hx
        rw [← hn2]
        exact hSsub.subset (hperm.subset hx)
      have hh : h ∈ taskIds tasks := hcsub h (List.mem_cons_self _ _)
      obtain ⟨k, hk⟩ := List.mem_iff_getElem?.mp hh
      obtain ⟨hkb, _⟩ := List.getElem?_eq_some.mp hk
      have hk0 : (taskIds tasks)[k]? = (h :: p)[0]? := by
        rw [hk, List.getElem?_cons_zero]
      have horb := cyc_orbit hnd hpreds hedges0 hkb hk0
      have hlle : (h :: p).length ≤ (taskIds tasks).length :=
        (List.Nodup.subperm hcnd hcsub).length_le
      have hc1 : (h :: p).length = p.length + 1 := List.length_cons _ _
      have hmlt : (h :: p).length - 1 < (h :: p).length := by omega
      have hmodlt : (k + ((h :: p).length - 1)) % (taskIds tasks).length <
          (taskIds tasks).length := Nat.mod_lt _ hpos2
      obtain ⟨xl, hxl⟩ : ∃ xl,
          (taskIds tasks)[(k + ((h :: p).length - 1)) % (taskIds tasks).length]? = some xl :=
        ⟨_, List.getElem?_eq_getElem hmodlt⟩
      have hclast : (h :: p)[(h :: p).length - 1]? = some xl := by
        rw [horb _ hmlt, hxl]
      have hwrap : (xl, h) ∈ DG.cycleEdges (h :: p) := by
        apply DG.mem_cycleEdges.mpr
        refine ⟨(h :: p).length - 1, hmlt, hclast, ?_⟩
        have h9 : ((h :: p).length - 1 + 1) % (h :: p).length = 0 := by
          rw [Nat.sub_add_cancel (by omega), Nat.mod_self]
        rw [h9, List.getElem?_cons_zero]
      rcases (cyc_mem_edges hpreds xl h).mp (hedges0 _ hwrap) with ⟨i, hi, hixl, hih⟩
      have hieq : i = (k + ((h :: p).length - 1)) % (taskIds tasks).length :=
        nodup_getElem?_inj hnd hixl hxl
      have hkk := nodup_getElem?_inj hnd hih hk
      rw [hieq] at hkk
      rw [Nat.mod_add_mod] at hkk
      have h10 : k + ((h :: p).length - 1) + 1 = k + (h :: p).length := by omega
      rw [h10] at hkk
      have hlcm := mod_shift_cancel hkb hkk
      have hge := Nat.le_of_dvd (by omega) (Nat.dvd_of_mod_eq_zero hlcm)
      have hmn : (h :: p).length = (taskIds tasks).length := by omega
      have hSlen : (h :: tS).length = (taskIds tasks).length :=
        (hperm.length_eq).symm.trans hmn
      have hSsub2 : (h :: tS).Sublist (taskIds tasks) := by
        rw [← hn2]
        exact hSsub
      have hSeq : h :: tS = taskIds tasks := List.Sublist.eq_of_length hSsub2 hSlen
      have hk0id : (taskIds tasks)[0]? = some h := by
        rw [← hSeq, List.getElem?_cons_zero]
      have hkz : k = 0 := nodup_getElem?_inj hnd hk hk0id
      have hceq : h :: p = taskIds tasks := by
        apply List.ext_getElem?
        intro j2
        by_cases hj2 : j2 < (h :: p).length
        · rw [horb j2 hj2, hkz, Nat.zero_add, Nat.mod_eq_of_lt (by omega)]
        · rw [List.getElem?_eq_none (by omega), List.getElem?_eq_none (by omega)]
      refine ⟨hceq, ?_⟩
      intro e he
      apply hedges
      rw [hceq]
      exact he

/-- The full id list is a cycle of the built graph. -/
theorem cyc_isCycle {tasks : List FrTask} (hlen : 3 ≤ tasks.length)
    (hpreds : tasks.map (fun t => t.predecesseurs) =
      ((taskIds tasks).rotate (tasks.length - 1)).map (fun x => [x])) :
    DG.isCycle (build_graph tasks) (taskIds tasks) = true := by
  have hl : (taskIds tasks).length = tasks.length := List.length_map _ _
  apply DG.isCycle_eq_true_iff.mpr
  constructor
  · intro h0
    rw [h0] at hl
    simp at hl
    omega
  · intro e he
    obtain ⟨a, b⟩ := e
    rcases DG.mem_cycleEdges.mp he with ⟨i, hi, h1, h2⟩
    exact (cyc_mem_edges hpreds a b).mpr ⟨i, hi, h1, h2⟩

/-- `nx.simple_cycles` on the single-cycle graph lists exactly the one
cycle, namely the full id list. -/
theorem cyc_sc_eq {tasks : List FrTask} (hlen : 3 ≤ tasks.length)
    (hnd : (taskIds tasks).Nodup)
    (hpreds : tasks.map (fun t => t.predecesseurs) =
      ((taskIds tasks).rotate (tasks.length - 1)).map (fun x => [x])) :
    DG.simple_cycles (build_graph tasks) = [taskIds tasks] := by
  have hl : (taskIds tasks).length = tasks.length := List.length_map _ _
  have hidsne : taskIds tasks ≠ [] := by
    intro h0
    rw [h0] at hl
    simp at hl
    omega
  have hnodes : (build_graph tasks).nodes = taskIds tasks := build_graph_nodes_eq hnd
  unfold DG.simple_cycles
  refine flatMap_singleton_of _ (taskIds tasks) _ ?_ _ ?_ ?_ ?_
  · obtain ⟨h, tS, hid⟩ := List.exists_cons_of_ne_nil hidsne
    rw [hid]
    show ((DG.perms tS).map (fun p => h :: p)).filter
        (fun c => DG.isCycle (build_graph tasks) c) = [h :: tS]
    have htSnd : tS.Nodup := by
      have h5 := hnd
      rw [hid] at h5
      exact (List.nodup_cons.mp h5).2
    apply nodup_all_eq
    · exact List.Nodup.filter _ (List.Nodup.map (fun a b hab => by simpa using hab)
        (DG.nodup_perms tS htSnd))
    · apply List.mem_filter.mpr
      refine ⟨List.mem_map.mpr ⟨tS, DG.mem_perms_of_perm tS tS (List.Perm.refl _), rfl⟩, ?_⟩
      have h6 := cyc_isCycle hlen hpreds
      rw [hid] at h6
      exact h6
    · intro c hcf
      have hcin : c ∈ DG.simple_cycles (build_graph tasks) := by
        unfold DG.simple_cycles
        apply List.mem_flatMap.mpr
        refine ⟨h :: tS, ?_, hcf⟩
        rw [hnodes, hid]
        exact List.mem_sublists.mpr (List.Sublist.refl _)
      have h7 := (cyc_cycle_mem_eq hlen hnd hpreds hnodes (fun e he => he) hcin).1
      rw [h7, hid]
  · exact List.nodup_sublists.mpr (build_graph_nodup tasks)
  · rw [hnodes]
    exact List.mem_sublists.mpr (List.Sublist.refl _)
  · intro S hSmem hSne
    cases S with
    | nil => rfl
    | cons h2 tS2 =>
        show ((DG.perms tS2).map (fun p => h2 :: p)).filter
            (fun c => DG.isCycle (build_graph tasks) c) = []
        apply List.filter_eq_nil_iff.mpr
        intro c hcmem hcyc
        have hcin : c ∈ DG.simple_cycles (build_graph tasks) := by
          unfold DG.simple_cycles
          exact List.mem_flatMap.mpr ⟨h2 :: tS2, hSmem, List.mem_filter.mpr ⟨hcmem, hcyc⟩⟩
        have h7 := (cyc_cycle_mem_eq hlen hnd hpreds hnodes (fun e he => he) hcin).1
        rcases List.mem_map.mp hcmem with ⟨p2, hp2, hcp2⟩
        have hperm : (h2 :: p2).Perm (h2 :: tS2) :=
          List.Perm.cons _ (DG.mem_perms_perm tS2 p2 hp2)
        have hSsub : (h2 :: tS2).Sublist (taskIds tasks) := by
          have h8 := List.mem_sublists.mp hSmem
          rwa [hnodes] at h8
        have hlen2 : (h2 :: tS2).length = (taskIds tasks).length := by
          rw [← hperm.length_eq, hcp2, h7]
        exact hSne (List.Sublist.eq_of_length hSsub hlen2)

end CriticalPathCalculator

namespace CriticalPathCalculator

theorem bcStep_not_mem {tasks : List FrTask} {g : DG Nat}
    {acc : Option ((Nat × Nat) × Nat)} {e : Nat × Nat} (h : e ∉ g.edges) :
    bcStep tasks g acc e = acc := by
  unfold bcStep
  exact if_neg h

theorem bcStep_none_mem {tasks : List FrTask} {g : DG Nat} {e : Nat × Nat}
    (h : e ∈ g.edges) :
    bcStep tasks g Option.none e = some (e, durOf tasks e.1) := by
  show (if e ∈ g.edges then some (e, durOf tasks e.1) else Option.none) =
    some (e, durOf tasks e.1)
  rw [if_pos h]

theorem bcStep_some_lt {tasks : List FrTask} {g : DG Nat} {e e0 : Nat × Nat} {w0 : Nat}
    (h : e ∈ g.edges) (hw : durOf tasks e.1 < w0) :
    bcStep tasks g (some (e0, w0)) e = some (e, durOf tasks e.1) := by
  show (if e ∈ g.edges then
      (if durOf tasks e.1 < w0 then some (e, durOf tasks e.1) else some (e0, w0))
    else some (e0, w0)) = some (e, durOf tasks e.1)
  rw [if_pos h, if_pos hw]

theorem bcStep_some_ge {tasks : List FrTask} {g : DG Nat} {e e0 : Nat × Nat} {w0 : Nat}
    (h : e ∈ g.edges) (hw : ¬ durOf tasks e.1 < w0) :
    bcStep tasks g (some (e0, w0)) e = some (e0, w0) := by
  show (if e ∈ g.edges then
      (if durOf tasks e.1 < w0 then some (e, durOf tasks e.1) else some (e0, w0))
    else some (e0, w0)) = some (e0, w0)
  rw [if_pos h, if_neg hw]

theorem bcStep_isSome_acc {tasks : List FrTask} {g : DG Nat}
    {acc : Option ((Nat × Nat) × Nat)} {e : Nat × Nat} (h : acc.isSome = true) :
    (bcStep tasks g acc e).isSome = true := by
  by_cases hm : e ∈ g.edges
  · cases acc with
    | none => simp at h
    | some p =>
        obtain ⟨e0, w0⟩ := p
        by_cases hlt : durOf tasks e.1 < w0
        · rw [bcStep_some_lt hm hlt]; rfl
        · rw [bcStep_some_ge hm hlt]; rfl
  · rw [bcStep_not_mem hm]
    exact h

theorem bcStep_isSome_mem {tasks : List FrTask} {g : DG Nat}
    {acc : Option ((Nat × Nat) × Nat)} {e : Nat × Nat} (h : e ∈ g.edges) :
    (bcStep tasks g acc e).isSome = true := by
  cases acc with
  | none => rw [bcStep_none_mem h]; rfl
  | some p =>
      obtain ⟨e0, w0⟩ := p
      by_cases hlt : durOf tasks e.1 < w0
      · rw [bcStep_some_lt h hlt]; rfl
      · rw [bcStep_some_ge h hlt]; rfl

/-- The minimum search of `_break_cycle` finds something as soon as one
candidate edge is present. -/
theorem bcFold_isSome (tasks : List FrTask) (g : DG Nat) :
    ∀ (l : List (Nat × Nat)) (acc : Option ((Nat × Nat) × Nat)),
      ((∃ e2 ∈ l, e2 ∈ g.edges) ∨ acc.isSome = true) →
      (l.foldl (bcStep tasks g) acc).isSome = true := by
  intro l
  induction l with
  | nil =>
      intro acc h
      rcases h with ⟨e2, h2, _⟩ | h
      · cases h2
      · simpa using h
  | cons e2 l ih =>
      intro acc h
      rw [List.foldl_cons]
      apply ih
      rcases h with ⟨e3, h3, hg3⟩ | hacc
      · rcases List.mem_cons.mp h3 with rfl | h3
        · exact Or.inr (bcStep_isSome_mem hg3)
        · exact Or.inl ⟨e3, h3, hg3⟩
      · exact Or.inr (bcStep_isSome_acc hacc)

/-- The weight stored with the winning edge is its source duration. -/
theorem bcFold_weight (tasks : List FrTask) (g : DG Nat) :
    ∀ (l : List (Nat × Nat)) (acc : Option ((Nat × Nat) × Nat)) (e : Nat × Nat) (w : Nat),
      (∀ e0 w0, acc = some (e0, w0) → w0 = durOf tasks e0.1) →
      l.foldl (bcStep tasks g) acc = some (e, w) → w = durOf tasks e.1 := by
  intro l
  induction l with
  | nil =>
      intro acc e w hpre h
      simp only [List.foldl_nil] at h
      exact hpre e w h
  | cons e2 l ih =>
      intro acc e w hpre h
      rw [List.foldl_cons] at h
      refine ih _ e w ?_ h
      intro e0 w0 h0
      by_cases he2 : e2 ∈ g.edges
      · cases acc with
        | none =>
            rw [bcStep_none_mem he2] at h0
            have h1 := Option.some_inj.mp h0
            injection h1 with hA hB
            rw [← hB, ← hA]
        | some pr =>
            obtain ⟨e3, w3⟩ := pr
            by_cases hlt : durOf tasks e2.1 < w3
            · rw [bcStep_some_lt he2 hlt] at h0
              have h1 := Option.some_inj.mp h0
              injection h1 with hA hB
              rw [← hB, ← hA]
            · rw [bcStep_some_ge he2 hlt] at h0
              exact hpre _ _ h0
      · rw [bcStep_not_mem he2] at h0
        exact hpre _ _ h0

/-- The winning weight is a lower bound on the initial accumulator and on
the source duration of every present candidate edge. -/
theorem bcFold_min (tasks : List FrTask) (g : DG Nat) :
    ∀ (l : List (Nat × Nat)) (acc : Option ((Nat × Nat) × Nat)) (e : Nat × Nat) (w : Nat),
      l.foldl (bcStep tasks g) acc = some (e, w) →
      (∀ e0 w0, acc = some (e0, w0) → w ≤ w0) ∧
      (∀ e2 ∈ l, e2 ∈ g.edges → w ≤ durOf tasks e2.1) := by
  intro l
  induction l with
  | nil =>
      intro acc e w h
      simp only [List.foldl_nil] at h
      refine ⟨?_, ?_⟩
      · intro e0 w0 h0
        rw [h] at h0
        have h1 := Option.some_inj.mp h0
        injection h1 with _ hB
        exact le_of_eq hB
      · intro e2 h2 _
        cases h2
  | cons e2 l ih =>
      intro acc e w h
      rw [List.foldl_cons] at h
      by_cases he2 : e2 ∈ g.edges
      · cases acc with
        | none =>
            rw [bcStep_none_mem he2] at h
            obtain ⟨ha, hl2⟩ := ih _ e w h
            have hwd : w ≤ durOf tasks e2.1 := ha _ _ rfl
            refine ⟨?_, ?_⟩
            · intro e0 w0 h0
              exact Option.noConfusion h0
            · intro e3 h3 hg3
              rcases List.mem_cons.mp h3 with rfl | h3
              · exact hwd
              · exact hl2 _ h3 hg3
        | some pr =>
            obtain ⟨e0, w0⟩ := pr
            by_cases hlt : durOf tasks e2.1 < w0
            · rw [bcStep_some_lt he2 hlt] at h
              obtain ⟨ha, hl2⟩ := ih _ e w h
              have hwd : w ≤ durOf tasks e2.1 := ha _ _ rfl
              refine ⟨?_, ?_⟩
              · intro e4 w4 h4
                have h1 := Option.some_inj.mp h4
                injection h1 with _ hB
                exact le_trans hwd (le_of_lt (hB ▸ hlt))
              · intro e3 h3 hg3
                rcases List.mem_cons.mp h3 with rfl | h3
                · exact hwd
                · exact hl2 _ h3 hg3
            · rw [bcStep_some_ge he2 hlt] at h
              obtain ⟨ha, hl2⟩ := ih _ e w h
              have hw0 : w ≤ w0 := ha _ _ rfl
              refine ⟨?_, ?_⟩
              · intro e4 w4 h4
                have h1 := Option.some_inj.mp h4
                injection h1 with _ hB
                exact hB ▸ hw0
              · intro e3 h3 hg3
                rcases List.mem_cons.mp h3 with rfl | h3
                · exact le_trans hw0 (Nat.le_of_not_lt hlt)
                · exact hl2 _ h3 hg3
      · rw [bcStep_not_mem he2] at h
        obtain ⟨ha, hl2⟩ := ih _ e w h
        refine ⟨ha, ?_⟩
        intro e3 h3 hg3
        rcases List.mem_cons.mp h3 with rfl | h3
        · exact absurd hg3 he2
        · exact hl2 _ h3 hg3

/-- In the single-cycle scenario the effective graph is the built graph
minus one wrap-around edge whose source duration is minimal. -/
theorem cyc_break_edge {tasks : List FrTask} (hlen : 3 ≤ tasks.length)
    (hnd : (taskIds tasks).Nodup)
    (hpreds : tasks.map (fun t => t.predecesseurs) =
      ((taskIds tasks).rotate (tasks.length - 1)).map (fun x => [x])) :
    ∃ e, e ∈ DG.cycleEdges (taskIds tasks) ∧
      effectiveGraph tasks = (build_graph tasks).removeEdge e.1 e.2 ∧
      ∀ e2 ∈ DG.cycleEdges (taskIds tasks),
        durOf tasks e.1 ≤ durOf tasks e2.1 := by
  have hl : (taskIds tasks).length = tasks.length := List.length_map _ _
  have hpos : 0 < (taskIds tasks).length := by omega
  have hpres := cyc_cycleEdges_present hpreds
  have heff : effectiveGraph tasks = break_cycle tasks (build_graph tasks) (taskIds tasks) := by
    show (DG.simple_cycles (build_graph tasks)).foldl (break_cycle tasks)
      (build_graph tasks) = _
    rw [cyc_sc_eq hlen hnd hpreds]
    rfl
  obtain ⟨x0, hx0⟩ : ∃ x0, (taskIds tasks)[0]? = some x0 :=
    ⟨_, List.getElem?_eq_getElem hpos⟩
  obtain ⟨x1, hx1⟩ : ∃ x1, (taskIds tasks)[(0 + 1) % (taskIds tasks).length]? = some x1 :=
    ⟨_, List.getElem?_eq_getElem (Nat.mod_lt _ hpos)⟩
  have he0 : (x0, x1) ∈ DG.cycleEdges (taskIds tasks) :=
    DG.mem_cycleEdges.mpr ⟨0, hpos, hx0, hx1⟩
  have hsome := bcFold_isSome tasks (build_graph tasks) (DG.cycleEdges (taskIds tasks))
    Option.none (Or.inl ⟨(x0, x1), he0, hpres _ he0⟩)
  obtain ⟨pr, hbest⟩ := Option.isSome_iff_exists.mp hsome
  obtain ⟨e, w⟩ := pr
  have hemem : e ∈ DG.cycleEdges (taskIds tasks) := by
    rcases bcFold_best_mem tasks (build_graph tasks) _ _ e w hbest with h0 | hm
    · exact Option.noConfusion h0
    · exact hm
  have hw : w = durOf tasks e.1 :=
    bcFold_weight tasks (build_graph tasks) _ _ e w
      (fun e0 w0 h0 => Option.noConfusion h0) hbest
  have hmin := (bcFold_min tasks (build_graph tasks) _ _ e w hbest).2
  refine ⟨e, hemem, ?_, ?_⟩
  · rw [heff]
    unfold break_cycle
    rw [if_neg (show ¬ (taskIds tasks).length < 2 by omega)]
    show (match (DG.cycleEdges (taskIds tasks)).foldl (bcStep tasks (build_graph tasks))
        Option.none with
      | some (e, _) => (build_graph tasks).removeEdge e.1 e.2
      | Option.none => build_graph tasks) = (build_graph tasks).removeEdge e.1 e.2
    rw [hbest]
  · intro e2 he2
    rw [← hw]
    exact hmin e2 he2 (hpres _ he2)

/-- After the cycle break, the effective graph has no simple cycle left. -/
theorem cyc_effective_acyclic {tasks : List FrTask} (hlen : 3 ≤ tasks.length)
    (hnd : (taskIds tasks).Nodup)
    (hpreds : tasks.map (fun t => t.predecesseurs) =
      ((taskIds tasks).rotate (tasks.length - 1)).map (fun x => [x])) :
    DG.simple_cycles (effectiveGraph tasks) = [] := by
  obtain ⟨e, hemem, heff, _⟩ := cyc_break_edge hlen hnd hpreds
  rw [heff]
  apply List.eq_nil_iff_forall_not_mem.mpr
  intro c hc
  have hn2 : ((build_graph tasks).removeEdge e.1 e.2).nodes = taskIds tasks := by
    rw [DG.removeEdge_nodes, build_graph_nodes_eq hnd]
  have hsub2 : ∀ e2 ∈ ((build_graph tasks).removeEdge e.1 e.2).edges,
      e2 ∈ (build_graph tasks).edges :=
    fun e2 he2 => ((DG.mem_removeEdge_edges _ _).mp he2).1
  obtain ⟨_, hback⟩ := cyc_cycle_mem_eq hlen hnd hpreds hn2 hsub2 hc
  have hein := hback e hemem
  rcases (DG.mem_removeEdge_edges _ _).mp hein with ⟨_, hne⟩
  exact hne rfl

/-- When no guard of `get_critical_path` fires, the result is one of the
candidate paths. -/
theorem gcp_mem (tasks : List FrTask) (hne : tasks.isEmpty = false)
    (hs : (start_nodes (effectiveGraph tasks)).isEmpty = false)
    (hee : (end_nodes (effectiveGraph tasks)).isEmpty = false)
    (hcp : candidate_paths tasks (effectiveGraph tasks) ≠ []) :
    ∃ pw ∈ candidate_paths tasks (effectiveGraph tasks),
      get_critical_path tasks = pw.1 := by
  unfold get_critical_path
  rw [if_neg (by simp [hne])]
  show ∃ pw ∈ candidate_paths tasks (effectiveGraph tasks),
      (if (start_nodes (effectiveGraph tasks)).isEmpty ∨
          (end_nodes (effectiveGraph tasks)).isEmpty then []
       else
         match candidate_paths tasks (effectiveGraph tasks) with
         | [] => []
         | p :: ps => (ps.foldl (fun best q => if q.2 > best.2 then q else best) p).1) = pw.1
  rw [if_neg (by simp [hs, hee])]
  cases hcpm : candidate_paths tasks (effectiveGraph tasks) with
  | nil => exact absurd hcpm hcp
  | cons p ps =>
      obtain ⟨hmem, _, _⟩ := max_fold_spec p ps
      exact ⟨_, hmem, rfl⟩

/-- In the single-cycle scenario `get_critical_path` returns a non-empty
path: the break leaves one source, one sink and the full chain between
them. -/
theorem cyc_gcp {tasks : List FrTask} (hlen : 3 ≤ tasks.length)
    (hnd : (taskIds tasks).Nodup)
    (hpreds : tasks.map (fun t => t.predecesseurs) =
      ((taskIds tasks).rotate (tasks.length - 1)).map (fun x => [x])) :
    get_critical_path tasks ≠ [] := by
  have hl : (taskIds tasks).length = tasks.length := List.length_map _ _
  have hpos : 0 < (taskIds tasks).length := by omega
  obtain ⟨e, hemem, heff, _⟩ := cyc_break_edge hlen hnd hpreds
  rcases DG.mem_cycleEdges.mp hemem with ⟨j, hj, hj1, hj2⟩
  have hnodes : (effectiveGraph tasks).nodes = taskIds tasks := by
    rw [heff, DG.removeEdge_nodes, build_graph_nodes_eq hnd]
  have he1mem : e.1 ∈ taskIds tasks := List.mem_iff_getElem?.mpr ⟨j, hj1⟩
  have he2mem : e.2 ∈ taskIds tasks := List.mem_iff_getElem?.mpr ⟨_, hj2⟩
  have hstart : e.2 ∈ start_nodes (effectiveGraph tasks) := by
    apply mem_start_nodes.mpr
    refine ⟨by rw [hnodes]; exact he2mem, ?_⟩
    apply DG.inDegree_eq_zero_iff.mpr
    intro u hu
    rw [heff] at hu
    rcases (DG.mem_removeEdge_edges _ _).mp hu with ⟨hu0, hune⟩
    rcases (cyc_mem_edges hpreds u e.2).mp hu0 with ⟨i, hi, hui, hbi⟩
    have hieq : (i + 1) % (taskIds tasks).length = (j + 1) % (taskIds tasks).length :=
      nodup_getElem?_inj hnd hbi hj2
    have hij : i = j := mod_succ_inj hi hj hieq
    rw [hij] at hui
    have hue : u = e.1 := Option.some_inj.mp (hui.symm.trans hj1)
    apply hune
    rw [hue]
  have hend : e.1 ∈ end_nodes (effectiveGraph tasks) := by
    apply mem_end_nodes.mpr
    refine ⟨by rw [hnodes]; exact he1mem, ?_⟩
    apply DG.outDegree_eq_zero_iff.mpr
    intro v hv
    rw [heff] at hv
    rcases (DG.mem_removeEdge_edges _ _).mp hv with ⟨hv0, hvne⟩
    rcases (cyc_mem_edges hpreds e.1 v).mp hv0 with ⟨i, hi, hvi, hbi⟩
    have hij : i = j := nodup_getElem?_inj hnd hvi hj1
    rw [hij] at hbi
    have hve : v = e.2 := Option.some_inj.mp (hbi.symm.trans hj2)
    apply hvne
    rw [hve]
  set m := (j + 1) % (taskIds tasks).length with hm
  have hmlt2 : m < (taskIds tasks).length := by
    rw [hm]
    exact Nat.mod_lt _ hpos
  set R := (taskIds tasks).rotate m with hR
  have hRlen : R.length = (taskIds tasks).length := by
    rw [hR]
    exact List.length_rotate _ _
  have hRget : ∀ i2, i2 < (taskIds tasks).length →
      R[i2]? = (taskIds tasks)[(i2 + m) % (taskIds tasks).length]? := by
    intro i2 hi2
    rw [hR]
    exact getElem?_rotate (taskIds tasks) m i2 hi2
  have hRhead : R.head? = some e.2 := by
    rw [List.head?_eq_getElem?, hRget 0 hpos, Nat.zero_add, Nat.mod_eq_of_lt hmlt2]
    exact hj2
  have harith : ((taskIds tasks).length - 1 + m) % (taskIds tasks).length = j := by
    rw [hm, Nat.add_comm ((taskIds tasks).length - 1) ((j + 1) % (taskIds tasks).length),
      Nat.mod_add_mod]
    have h9 : j + 1 + ((taskIds tasks).length - 1) = j + (taskIds tasks).length := by omega
    rw [h9, Nat.add_mod_right]
    exact Nat.mod_eq_of_lt hj
  have hRlast : R.getLast? = some e.1 := by
    rw [List.getLast?_eq_getElem?, hRlen, hRget ((taskIds tasks).length - 1) (by omega),
      harith]
    exact hj1
  have hRnd : R.Nodup := by
    rw [hR]
    exact (List.rotate_perm _ _).nodup_iff.mpr hnd
  have hRsub : ∀ x ∈ R, x ∈ (effectiveGraph tasks).nodes := by
    intro x hx
    rw [hnodes]
    rw [hR] at hx
    exact (List.rotate_perm _ _).subset hx
  have hch : List.Chain' (fun a b => (a, b) ∈ (effectiveGraph tasks).edges) R := by
    rw [List.chain'_iff_get]
    intro i2 hi2
    rw [hRlen] at hi2
    have hpf1 : i2 < R.length := by rw [hRlen]; omega
    have hpf2 : i2 + 1 < R.length := by rw [hRlen]; omega
    have hva : (taskIds tasks)[(i2 + m) % (taskIds tasks).length]? =
        some (R.get ⟨i2, hpf1⟩) := by
      rw [← hRget i2 (by omega), List.getElem?_eq_getElem hpf1]
      rfl
    have hvb : (taskIds tasks)[(i2 + 1 + m) % (taskIds tasks).length]? =
        some (R.get ⟨i2 + 1, hpf2⟩) := by
      rw [← hRget (i2 + 1) (by omega), List.getElem?_eq_getElem hpf2]
      rfl
    show (R.get ⟨i2, hpf1⟩, R.get ⟨i2 + 1, hpf2⟩) ∈ (effectiveGraph tasks).edges
    rw [heff]
    apply (DG.mem_removeEdge_edges _ _).mpr
    refine ⟨?_, ?_⟩
    · apply (cyc_mem_edges hpreds _ _).mpr
      refine ⟨(i2 + m) % (taskIds tasks).length, Nat.mod_lt _ hpos, hva, ?_⟩
      rw [Nat.mod_add_mod]
      have h9 : i2 + m + 1 = i2 + 1 + m := by omega
      rw [h9]
      exact hvb
    · intro hbad
      have hba : R.get ⟨i2, hpf1⟩ = e.1 := congrArg Prod.fst hbad
      have h10 : (taskIds tasks)[(i2 + m) % (taskIds tasks).length]? = some e.1 := by
        rw [hva, hba]
      have h11 : (i2 + m) % (taskIds tasks).length = j := nodup_getElem?_inj hnd h10 hj1
      have h12 : (i2 + m) % (taskIds tasks).length =
          (j + (i2 + 1)) % (taskIds tasks).length := by
        rw [hm, Nat.add_comm i2 ((j + 1) % (taskIds tasks).length), Nat.mod_add_mod]
        congr 1
        omega
      have h13 : (j + (i2 + 1)) % (taskIds tasks).length = j := by
        rw [← h12]
        exact h11
      have h14 := mod_shift_cancel hj h13
      have h15 := Nat.le_of_dvd (by omega) (Nat.dvd_of_mod_eq_zero h14)
      omega
  have hpath : R ∈ DG.all_simple_paths (effectiveGraph tasks) e.2 e.1 :=
    DG.all_simple_paths_complete (by rw [hnodes]; exact he2mem)
      (by rw [hnodes]; exact he1mem) hRsub hRhead hRlast hch hRnd
  have hcand : (R, path_weight tasks R) ∈ candidate_paths tasks (effectiveGraph tasks) :=
    mem_candidate_paths_intro hstart hend hpath
  have hemp : tasks.isEmpty = false := by
    cases tasks with
    | nil => simp at hlen
    | cons t ts => rfl
  obtain ⟨pw, hpw, hgcp⟩ := gcp_mem tasks hemp
    (List.isEmpty_eq_false.mpr (List.ne_nil_of_mem hstart))
    (List.isEmpty_eq_false.mpr (List.ne_nil_of_mem hend))
    (List.ne_nil_of_mem hcand)
  rw [hgcp]
  obtain ⟨s, t, _, _, hsp, _⟩ := mem_candidate_paths hpw
  obtain ⟨hh, _, _⟩ := DG.all_simple_paths_sound hsp
  intro h0
  rw [h0] at hh
  simp at hh

end CriticalPathCalculator

/-- C4: for every task list of at least three tasks with distinct ids whose
dependencies form one simple cycle through all tasks (each task depends
exactly on the cyclically preceding one), `nx.simple_cycles` detects
exactly that one cycle, `_break_cycle` removes from it one wrap-around
edge whose weight (the source task's duration) is minimal among the cycle
edges, the effective graph that results is acyclic, and
`get_critical_path` terminates with a non-empty path rather than
raising. -/
theorem C4_cycle_broken (tasks : List FrTask) (hlen : 3 ≤ tasks.length)
    (hnd : (CriticalPathCalculator.taskIds tasks).Nodup)
    (hpreds : tasks.map (fun t => t.predecesseurs) =
      ((CriticalPathCalculator.taskIds tasks).rotate (tasks.length - 1)).map
        (fun x => [x])) :
    DG.simple_cycles (CriticalPathCalculator.build_graph tasks) =
      [CriticalPathCalculator.taskIds tasks] ∧
    (∃ e ∈ DG.cycleEdges (CriticalPathCalculator.taskIds tasks),
      CriticalPathCalculator.effectiveGraph tasks =
        (CriticalPathCalculator.build_graph tasks).removeEdge e.1 e.2 ∧
      ∀ e2 ∈ DG.cycleEdges (CriticalPathCalculator.taskIds tasks),
        CriticalPathCalculator.durOf tasks e.1 ≤ CriticalPathCalculator.durOf tasks e2.1) ∧
    DG.simple_cycles (CriticalPathCalculator.effectiveGraph tasks) = [] ∧
    CriticalPathCalculator.get_critical_path tasks ≠ [] := by
  refine ⟨CriticalPathCalculator.cyc_sc_eq hlen hnd hpreds, ?_,
    CriticalPathCalculator.cyc_effective_acyclic hlen hnd hpreds,
    CriticalPathCalculator.cyc_gcp hlen hnd hpreds⟩
  obtain ⟨e, hemem, heff, hmin⟩ := CriticalPathCalculator.cyc_break_edge hlen hnd hpreds
  exact ⟨e, hemem, heff, hmin⟩

/-- C4 (witness): the three-task cycle 10 → 20 → 30 → 10 satisfies the
hypotheses, and the theorem applies to it. -/
theorem C4_cycle_broken_witness :
    DG.simple_cycles (CriticalPathCalculator.build_graph Scenario.cycleTasks) =
      [CriticalPathCalculator.taskIds Scenario.cycleTasks] ∧
    (∃ e ∈ DG.cycleEdges (CriticalPathCalculator.taskIds Scenario.cycleTasks),
      CriticalPathCalculator.effectiveGraph Scenario.cycleTasks =
        (CriticalPathCalculator.build_graph Scenario.cycleTasks).removeEdge e.1 e.2 ∧
      ∀ e2 ∈ DG.cycleEdges (CriticalPathCalculator.taskIds Scenario.cycleTasks),
        CriticalPathCalculator.durOf Scenario.cycleTasks e.1 ≤
          CriticalPathCalculator.durOf Scenario.cycleTasks e2.1) ∧
    DG.simple_cycles (CriticalPathCalculator.effectiveGraph Scenario.cycleTasks) = [] ∧
    CriticalPathCalculator.get_critical_path Scenario.cycleTasks ≠ [] :=
  C4_cycle_broken Scenario.cycleTasks (by decide) (by decide) (by decide)
